import Mathlib

/-!
# PER_WHAT: walk-forward evaluation of a long-only moving-average breakout rule

Shallow embedding of `src/PER_WHAT/PER_WHAT.CPP` (`opt_params`, `comp_return`
and the walk-forward loop of `main`), in two readings. The exact reading
(namespace `PerWhat`) takes numbers as mathematical numbers; it carries the
statements that are made in exact arithmetic or do not depend on rounding. The
machine reading (namespace `Machine`) takes them in the formats of the compiled
program; it carries the statements that depend on rounding, on overflow, on `int`
wrap-around or on a failing `assert`.

Modelling conventions of the exact reading
* C `int` values are `ℤ` (no wrap-around is modelled), C `double` values are
  `ℚ` (exact arithmetic); the library function `sqrt` is a parameter.
* A price array `double *prices` is a total function `ℤ → ℚ`; the pointer
  `prices + k` is `shift prices k`.
* A counting loop is iterated over its trip count; the loop variable is passed
  to the body.
* A local variable that the source leaves unassigned is given the value `0`
  where the source always assigns it before reading it (`MA_sum`, `MA_mean`,
  `ret`, `open_price`), and is an `Option` where the source may read it
  unassigned (`ibestlook`, `ibestthresh`, `last_position_of_best`).
* A failing `assert` of `comp_return` is recorded in a flag and does not stop
  the run.
-/

namespace PerWhat

/-! ## Loops -/

/-- Body `body i` run for `n` consecutive values of the loop variable, upwards from `i`. -/
def iterUp {σ : Type} (body : ℤ → σ → σ) : ℕ → ℤ → σ → σ
  | 0, _, s => s
  | n + 1, i, s => iterUp body n (i + 1) (body i s)

/-- Body `body j` run for `n` consecutive values of the loop variable, downwards from `j`. -/
def iterDown {σ : Type} (body : ℤ → σ → σ) : ℕ → ℤ → σ → σ
  | 0, _, s => s
  | n + 1, j, s => iterDown body n (j - 1) (body j s)

/-- The loop `for (i = lo ; i < hi ; i++) body`. -/
def forUp {σ : Type} (body : ℤ → σ → σ) (lo hi : ℤ) (s : σ) : σ :=
  iterUp body (hi - lo).toNat lo s

/-- The loop `for (j = hi ; j > lo ; j--) body`. -/
def forDown {σ : Type} (body : ℤ → σ → σ) (hi lo : ℤ) (s : σ) : σ :=
  iterDown body (hi - lo).toNat hi s

/-- The pointer `prices + k`. -/
def shift (prices : ℤ → ℚ) (k : ℤ) : ℤ → ℚ := fun j => prices (k + j)

/-! ## opt_params -/

/-- Locals of one trial (one `ilook`, `ithresh` pair) of `opt_params`. -/
structure OptState where
  MA_sum : ℚ
  MA_mean : ℚ
  position : ℤ
  ret : ℚ
  total_return : ℚ
  win_sum : ℚ
  lose_sum : ℚ
  sum_squares : ℚ
  n_trades : ℤ
  deriving DecidableEq, Repr

/-- Locals at the start of a trial (source lines 58-62). -/
def optInit : OptState :=
  { MA_sum := 0, MA_mean := 0, position := 0, ret := 0,
    total_return := 0, win_sum := 1 / 10 ^ 60, lose_sum := 1 / 10 ^ 60,
    sum_squares := 1 / 10 ^ 60, n_trades := 0 }

/-- Body of the bar loop of `opt_params` (source lines 64-107), decision bar `i`. -/
def optBar (all_bars : ℤ) (prices : ℤ → ℚ) (max_lookback ilook ithresh : ℤ)
    (i : ℤ) (s : OptState) : OptState :=
  let MA_sum : ℚ :=
    if i = max_lookback - 1 then
      forDown (fun j acc => acc + prices j) i (i - ilook) 0
    else
      s.MA_sum + (prices i - prices (i - ilook))
  let MA_mean : ℚ := MA_sum / (ilook : ℚ)
  let trial_thresh : ℚ := 1 + (1 / 100) * (ithresh : ℚ)
  let position : ℤ :=
    if prices i > trial_thresh * MA_mean then 1
    else if prices i < MA_mean then 0
    else s.position
  let ret : ℚ := if position ≠ 0 then prices (i + 1) - prices i else 0
  if all_bars ≠ 0 ∨ position ≠ 0 then
    { MA_sum := MA_sum, MA_mean := MA_mean, position := position, ret := ret,
      total_return := s.total_return + ret,
      win_sum := if ret > 0 then s.win_sum + ret else s.win_sum,
      lose_sum := if ret > 0 then s.lose_sum else s.lose_sum - ret,
      sum_squares := s.sum_squares + ret * ret,
      n_trades := s.n_trades + 1 }
  else
    { s with MA_sum := MA_sum, MA_mean := MA_mean, position := position, ret := ret }

/-- The bar loop of one trial: `for (i = max_lookback-1 ; i < nprices-1 ; i++)`. -/
def optScan (all_bars nprices : ℤ) (prices : ℤ → ℚ) (max_lookback ilook ithresh : ℤ) :
    OptState :=
  forUp (optBar all_bars prices max_lookback ilook ithresh) (max_lookback - 1) (nprices - 1)
    optInit

/-- Best-so-far record of `opt_params`: `best_perf` and, once assigned,
`(ibestlook, ibestthresh, last_position_of_best)`. -/
structure Best where
  best_perf : ℚ
  arg : Option (ℤ × ℤ × ℤ)
  deriving DecidableEq, Repr

/-- Source lines 112-142: score the finished trial and keep it if it is strictly better. -/
def optKeep (which_crit : ℤ) (sqrt : ℚ → ℚ) (ilook ithresh : ℤ) (s : OptState) (b : Best) :
    Best :=
  if which_crit = 0 then
    let total_return := s.total_return / ((s.n_trades : ℚ) + 1 / 10 ^ 30)
    if total_return > b.best_perf then
      { best_perf := total_return, arg := some (ilook, ithresh, s.position) }
    else b
  else if which_crit = 1 ∧ s.win_sum / s.lose_sum > b.best_perf then
    { best_perf := s.win_sum / s.lose_sum, arg := some (ilook, ithresh, s.position) }
  else if which_crit = 2 then
    let total_return := s.total_return / ((s.n_trades : ℚ) + 1 / 10 ^ 30)
    let sum_squares0 := s.sum_squares / ((s.n_trades : ℚ) + 1 / 10 ^ 30)
    let sum_squares1 := sum_squares0 - total_return * total_return
    let sum_squares := if sum_squares1 < 1 / 10 ^ 20 then 1 / 10 ^ 20 else sum_squares1
    let sr := total_return / sqrt sum_squares
    if sr > b.best_perf then
      { best_perf := sr, arg := some (ilook, ithresh, s.position) }
    else b
  else b

/-- Body of the `ithresh` loop: run one trial and update the best-so-far record. -/
def optTrial (which_crit all_bars nprices : ℤ) (sqrt : ℚ → ℚ) (prices : ℤ → ℚ)
    (max_lookback ilook ithresh : ℤ) (b : Best) : Best :=
  optKeep which_crit sqrt ilook ithresh
    (optScan all_bars nprices prices max_lookback ilook ithresh) b

/-- Result of `opt_params`: the returned `best_perf` and the three output
parameters, `none` when the source would copy unassigned locals to them. -/
structure OptOut where
  best_perf : ℚ
  out : Option (ℤ × ℚ × ℤ)
  deriving DecidableEq, Repr

/-- The function `opt_params` (source lines 30-152). -/
def opt_params (which_crit all_bars nprices : ℤ) (sqrt : ℚ → ℚ) (prices : ℤ → ℚ)
    (max_lookback : ℤ) : OptOut :=
  let b : Best :=
    forUp (fun ilook b =>
        forUp (fun ithresh b =>
            optTrial which_crit all_bars nprices sqrt prices max_lookback ilook ithresh b)
          1 (10 + 1) b)
      2 (max_lookback + 1) { best_perf := -(10 ^ 60), arg := none }
  { best_perf := b.best_perf,
    out := b.arg.map (fun a => (a.1, (1 / 100) * (a.2.1 : ℚ), a.2.2)) }

/-! ## comp_return -/

/-- Locals of `comp_return`; `returns` is the output array filled so far
(`nret` is its length) and `asserts_ok` records whether every `assert` met so
far held. -/
structure CompState where
  MA_sum : ℚ
  MA_mean : ℚ
  position : ℤ
  prior_position : ℤ
  open_price : ℚ
  ret : ℚ
  returns : List ℚ
  asserts_ok : Bool
  deriving DecidableEq, Repr

/-- Locals before the bar loop of `comp_return` (source lines 190-193). -/
def compInit (last_pos : ℤ) : CompState :=
  { MA_sum := 0, MA_mean := 0, position := last_pos, prior_position := 0,
    open_price := 0, ret := 0, returns := [], asserts_ok := true }

/-- Body of the bar loop of `comp_return` (source lines 195-254), decision bar `i`. -/
def compBar (ret_type nprices : ℤ) (prices : ℤ → ℚ) (istart ntest lookback : ℤ)
    (thresh : ℚ) (i : ℤ) (s : CompState) : CompState :=
  let trial_thresh : ℚ := 1 + thresh
  let ma : ℚ × Bool :=
    if i = istart - 1 then
      forDown (fun j (a : ℚ × Bool) => (a.1 + prices j, a.2 && decide (0 ≤ j)))
        i (i - lookback) (0, s.asserts_ok)
    else
      (s.MA_sum + (prices i - prices (i - lookback)), s.asserts_ok)
  let MA_sum : ℚ := ma.1
  let MA_mean : ℚ := MA_sum / (lookback : ℚ)
  let asserts_ok : Bool := ma.2 && decide (i + 1 < nprices)
  let position : ℤ :=
    if prices i > trial_thresh * MA_mean then 1
    else if prices i < MA_mean then 0
    else s.position
  let ret : ℚ := if position ≠ 0 then prices (i + 1) - prices i else 0
  let s1 : CompState :=
    { s with MA_sum := MA_sum, MA_mean := MA_mean, position := position, ret := ret,
             asserts_ok := asserts_ok }
  let s2 : CompState :=
    if ret_type = 0 then
      { s1 with returns := s1.returns ++ [ret] }
    else if ret_type = 1 then
      if position ≠ 0 then { s1 with returns := s1.returns ++ [ret] } else s1
    else if ret_type = 2 then
      if position ≠ 0 ∧ ¬ (s.prior_position ≠ 0) then
        { s1 with open_price := prices i }
      else if s.prior_position ≠ 0 ∧ ¬ (position ≠ 0) then
        { s1 with returns := s1.returns ++ [prices i - s.open_price] }
      else if position ≠ 0 ∧ i = istart - 2 + ntest then
        { s1 with returns := s1.returns ++ [prices (i + 1) - s.open_price] }
      else s1
    else s1
  { s2 with prior_position := position }

/-- The locals of `comp_return` after its bar loop
`for (i = istart-1 ; i < istart-1+ntest ; i++)`. -/
def compScan (ret_type nprices : ℤ) (prices : ℤ → ℚ) (istart ntest lookback : ℤ)
    (thresh : ℚ) (last_pos : ℤ) : CompState :=
  forUp (compBar ret_type nprices prices istart ntest lookback thresh)
    (istart - 1) (istart - 1 + ntest) (compInit last_pos)

/-- The function `comp_return` (source lines 174-257): the returns written to
`returns[0 .. *n_returns)`. -/
def comp_return (ret_type nprices : ℤ) (prices : ℤ → ℚ) (istart ntest lookback : ℤ)
    (thresh : ℚ) (last_pos : ℤ) : List ℚ :=
  (compScan ret_type nprices prices istart ntest lookback thresh last_pos).returns

/-! ## main: configuration checks, walk-forward loop and final statistic -/

/-- The two lines `main` prints for one fold: `IS at train_start Lookback=..
Thresh=.. Crit=..` and `OOS testing n from istart had n_returns returns,
total=nret`. -/
structure FoldLog where
  train_start : ℤ
  lookback : ℤ
  thresh : ℚ
  crit : ℚ
  n : ℤ
  istart : ℤ
  n_returns : ℤ
  nret : ℤ
  deriving DecidableEq, Repr

/-- Variables of `main` that live across folds: `train_start`, the filled part
of `returns` (its length is `nret`) and the lines printed so far. -/
structure WFState where
  train_start : ℤ
  returns : List ℚ
  log : List FoldLog
  deriving DecidableEq, Repr

/-- Command-line parameters of `main` after `atoi`. -/
structure Config where
  which_crit : ℤ
  all_bars : ℤ
  ret_type : ℤ
  max_lookback : ℤ
  n_train : ℤ
  n_test : ℤ
  deriving DecidableEq, Repr

/-- The scale factor `mult` (source lines 419-424). -/
def mult (c : Config) : ℤ := if c.which_crit = 0 then 25200 else 1

/-- Body of the walk-forward loop up to `train_start += n` (source lines
436-455). `indet` stands for the values `opt_params` hands back when it copies
unassigned locals to its output parameters. -/
def foldBody (c : Config) (sqrt : ℚ → ℚ) (indet : ℤ × ℚ × ℤ) (nprices : ℤ) (prices : ℤ → ℚ)
    (s : WFState) : WFState :=
  let r := opt_params c.which_crit c.all_bars c.n_train sqrt (shift prices s.train_start)
    c.max_lookback
  let crit := r.best_perf
  let o := r.out.getD indet
  let lookback := o.1
  let thresh := o.2.1
  let last_pos := o.2.2
  let n := if c.n_test > nprices - s.train_start - c.n_train then
      nprices - s.train_start - c.n_train else c.n_test
  let rets := comp_return c.ret_type nprices prices (s.train_start + c.n_train) n lookback
    thresh last_pos
  let returns := s.returns ++ rets
  { train_start := s.train_start + n,
    returns := returns,
    log := s.log ++ [{ train_start := s.train_start, lookback := lookback, thresh := thresh,
                       crit := (mult c : ℚ) * crit, n := n,
                       istart := s.train_start + c.n_train,
                       n_returns := rets.length, nret := returns.length }] }

/-- The loop `for (;;) { ... if (train_start + n_train >= nprices) break ; }`
run for at most `fuel` folds; the flag tells whether the `break` was reached. -/
def wfLoop (c : Config) (sqrt : ℚ → ℚ) (indet : ℤ × ℚ × ℤ) (nprices : ℤ) (prices : ℤ → ℚ) :
    ℕ → WFState → WFState × Bool
  | 0, s => (s, false)
  | fuel + 1, s =>
    let s1 := foldBody c sqrt indet nprices prices s
    if s1.train_start + c.n_train ≥ nprices then (s1, true)
    else wfLoop c sqrt indet nprices prices fuel s1

/-- State of `main` when the walk-forward loop is entered (source lines 426-427). -/
def wfInit : WFState := { train_start := 0, returns := [], log := [] }

/-- The OOS statistic `main` prints after the loop (source lines 467-500);
`none` when `which_crit` is none of 0, 1, 2 and nothing is printed. -/
def oosStat (which_crit : ℤ) (sqrt : ℚ → ℚ) (returns : List ℚ) : Option ℚ :=
  if which_crit = 0 then
    let crit := returns.foldl (fun acc r => acc + r) 0
    let crit := crit / ((returns.length : ℚ) + 1 / 10 ^ 60)
    some (25200 * crit)
  else if which_crit = 1 then
    let ws := returns.foldl
      (fun (a : ℚ × ℚ) r => if r > 0 then (a.1 + r, a.2) else if r < 0 then (a.1, a.2 - r) else a)
      (1 / 10 ^ 60, 1 / 10 ^ 60)
    some (ws.1 / ws.2)
  else if which_crit = 2 then
    let ss := returns.foldl (fun (a : ℚ × ℚ) r => (a.1 + r, a.2 + r * r)) (0, 0)
    let sum := ss.1 / ((returns.length : ℚ) + 1 / 10 ^ 60)
    let sum_squares0 := ss.2 / ((returns.length : ℚ) + 1 / 10 ^ 60)
    let sum_squares1 := sum_squares0 - sum * sum
    let sum_squares := if sum_squares1 < 1 / 10 ^ 20 then 1 / 10 ^ 20 else sum_squares1
    some (sum / sqrt sum_squares)
  else none

/-- How a run of `main` ends. -/
inductive Outcome where
  /-- Line 313: `exit(1)`, n_train must be at least 10 greater than max_lookback. -/
  | errTrain
  /-- Lines 323-392: the market file could not be read, `exit(1)`. -/
  | errMarket
  /-- Line 403: `exit(1)`, n_train + n_test must not exceed n_prices. -/
  | errHistory
  /-- The fold loop was still running when the fuel ran out. -/
  | running (s : WFState)
  /-- The fold loop ended and the final statistic was printed, `exit(0)`. -/
  | finished (s : WFState) (stat : Option ℚ)
  deriving DecidableEq, Repr

/-- The routine `main` from line 313 on, for a command line with the seven
parameters. `market` is what reading the market file gives: `none` when it
fails, else `nprices` and the log prices; memory allocation is taken to
succeed. The fold loop runs for at most `fuel` folds. -/
def main_ (c : Config) (sqrt : ℚ → ℚ) (indet : ℤ × ℚ × ℤ) (market : Option (ℤ × (ℤ → ℚ)))
    (fuel : ℕ) : Outcome :=
  if c.n_train - c.max_lookback < 10 then Outcome.errTrain
  else
    match market with
    | none => Outcome.errMarket
    | some (nprices, prices) =>
      if c.n_train + c.n_test > nprices then Outcome.errHistory
      else
        let r := wfLoop c sqrt indet nprices prices fuel wfInit
        if r.2 then Outcome.finished r.1 (oosStat c.which_crit sqrt r.1.returns)
        else Outcome.running r.1

/-- The run ended in one of the `exit(1)` branches that precede the fold loop. -/
def Outcome.aborted : Outcome → Bool
  | Outcome.errTrain => true
  | Outcome.errMarket => true
  | Outcome.errHistory => true
  | _ => false

/-- The fold lines printed by the run. -/
def Outcome.folds : Outcome → List FoldLog
  | Outcome.running s => s.log
  | Outcome.finished s _ => s.log
  | _ => []

/-! ## States inside a scan -/

/-- Locals of the trial `(ilook, ithresh)` of `opt_params` right after the loop
body has been run for decision bar `i`. For `i = max_lookback - 2` these are
the locals before the first bar. -/
def optAt (all_bars : ℤ) (prices : ℤ → ℚ) (max_lookback ilook ithresh i : ℤ) : OptState :=
  forUp (optBar all_bars prices max_lookback ilook ithresh) (max_lookback - 1) (i + 1) optInit

/-- Locals of `comp_return` right after the loop body has been run for decision
bar `i`. For `i = istart - 2` these are the locals before the first bar. -/
def compAt (ret_type nprices : ℤ) (prices : ℤ → ℚ) (istart ntest lookback : ℤ)
    (thresh : ℚ) (last_pos i : ℤ) : CompState :=
  forUp (compBar ret_type nprices prices istart ntest lookback thresh)
    (istart - 1) (i + 1) (compInit last_pos)

/-- The value a finished trial is compared with `best_perf` on (source lines
113, 122 and 130-135). -/
def optScore (which_crit : ℤ) (sqrt : ℚ → ℚ) (s : OptState) : ℚ :=
  if which_crit = 0 then s.total_return / ((s.n_trades : ℚ) + 1 / 10 ^ 30)
  else if which_crit = 1 then s.win_sum / s.lose_sum
  else
    let total_return := s.total_return / ((s.n_trades : ℚ) + 1 / 10 ^ 30)
    let sum_squares0 := s.sum_squares / ((s.n_trades : ℚ) + 1 / 10 ^ 30)
    let sum_squares1 := sum_squares0 - total_return * total_return
    let sum_squares := if sum_squares1 < 1 / 10 ^ 20 then 1 / 10 ^ 20 else sum_squares1
    total_return / sqrt sum_squares

/-- Score of the candidate `(ilook, ithresh)` on the window. -/
def candScore (which_crit all_bars nprices : ℤ) (sqrt : ℚ → ℚ) (prices : ℤ → ℚ)
    (max_lookback ilook ithresh : ℤ) : ℚ :=
  optScore which_crit sqrt (optScan all_bars nprices prices max_lookback ilook ithresh)

/-- Sum of the `L` prices `prices[i-L+1 .. i]`, summed afresh. -/
def windowSum (prices : ℤ → ℚ) (i L : ℤ) : ℚ :=
  ∑ j ∈ Finset.range L.toNat, prices (i - (j : ℤ))

/-- Mean of the `L` most recent prices ending at bar `i`. -/
def windowMean (prices : ℤ → ℚ) (i L : ℤ) : ℚ := windowSum prices i L / (L : ℚ)

/-- A price array given by its first entries; entries outside the list are `0`. -/
def ofList (l : List ℚ) : ℤ → ℚ := fun j => if 0 ≤ j then l.getD j.toNat 0 else 0

/-- The identity, used where a run does not reach `sqrt`. -/
def noSqrt : ℚ → ℚ := fun x => x

/-- Candidate `(l, t)` of the grid comes before `(L, T)` in the enumeration order of
`opt_params` (`ilook` ascending, then `ithresh` ascending). -/
def Before (max_lookback L T l t : ℤ) : Prop :=
  2 ≤ l ∧ l ≤ max_lookback ∧ 1 ≤ t ∧ t ≤ 10 ∧ (l < L ∨ (l = L ∧ t < T))

/-- What the best-so-far record of `opt_params` satisfies when the candidates before `(L, T)`
have been tried: `best_perf` bounds their scores, and the recorded candidate, if any, is the
first of them that attains `best_perf`. -/
def BestInv (score : ℤ → ℤ → ℚ) (pos : ℤ → ℤ → ℤ) (max_lookback L T : ℤ) (b : Best) : Prop :=
  -(10 ^ 60 : ℚ) ≤ b.best_perf ∧
  (∀ l t, Before max_lookback L T l t → score l t ≤ b.best_perf) ∧
  (b.arg = none → b.best_perf = -(10 ^ 60 : ℚ)) ∧
  (∀ l t z, b.arg = some (l, t, z) →
    Before max_lookback L T l t ∧ b.best_perf = score l t ∧ z = pos l t ∧
    -(10 ^ 60 : ℚ) < score l t ∧
    ∀ l' t', Before max_lookback l t l' t' → score l' t' < score l t)

/-- The index part of a fold line: `train_start`, the start `istart` of the OOS window and
its length `n`. -/
def FoldLog.window (f : FoldLog) : ℤ × ℤ × ℤ := (f.train_start, f.istart, f.n)

/-- Number of folds of a walk-forward run as the claim states it:
`ceil((nprices - n_train) / n_test)`. -/
def nFolds (nprices n_train n_test : ℤ) : ℕ :=
  (⌈((nprices - n_train : ℤ) : ℚ) / (n_test : ℚ)⌉).toNat

/-- Start of the OOS window of fold `k` as the claim states it: `k*n_test + n_train`. -/
def oosStart (n_train n_test : ℤ) (k : ℕ) : ℤ := (k : ℤ) * n_test + n_train

/-- Length of the OOS window of fold `k` as the claim states it:
`min(n_test, nprices - k*n_test - n_train)`. -/
def oosLen (nprices n_train n_test : ℤ) (k : ℕ) : ℤ :=
  min n_test (nprices - (k : ℤ) * n_test - n_train)

/-- Decision bar `max_lookback-1+k` of a trial scan is counted in its performance figures
(source line 97: `all_bars || position`). -/
def qualifies (all_bars : ℤ) (prices : ℤ → ℚ) (max_lookback ilook ithresh : ℤ) (k : ℕ) : Bool :=
  decide (all_bars ≠ 0 ∨ (optAt all_bars prices max_lookback ilook ithresh
    (max_lookback - 1 + k)).position ≠ 0)

/-- Bar returns, in bar order, of the counted bars among the first `m` decision bars
`max_lookback-1 .. max_lookback-2+m` of a trial scan. -/
def qualRetsUpTo (all_bars : ℤ) (prices : ℤ → ℚ) (max_lookback ilook ithresh : ℤ) (m : ℕ) :
    List ℚ :=
  ((List.range m).filter (qualifies all_bars prices max_lookback ilook ithresh)).map
    (fun k : ℕ => (optAt all_bars prices max_lookback ilook ithresh (max_lookback - 1 + k)).ret)

/-- Bar returns of the counted bars of the whole trial scan, whose decision bars are
`max_lookback-1 .. nprices-2`. -/
def qualRets (all_bars nprices : ℤ) (prices : ℤ → ℚ) (max_lookback ilook ithresh : ℤ) :
    List ℚ :=
  qualRetsUpTo all_bars prices max_lookback ilook ithresh (nprices - max_lookback).toNat

/-- Profit factor of a return sequence as the spec states it: `(1e-60 + sum of positive
returns) / (1e-60 + sum of absolute negative returns)`. -/
def profitFactor (rets : List ℚ) : ℚ :=
  (1 / 10 ^ 60 + (rets.filter (fun r => decide (r > 0))).sum)
    / (1 / 10 ^ 60 + ((rets.filter (fun r => decide (r < 0))).map (fun r => -r)).sum)

/-- State of `main` at the start of fold `k` (counted from 0), as long as the loop has not
left through its `break`. -/
def foldState (c : Config) (sqrt : ℚ → ℚ) (indet : ℤ × ℚ × ℤ) (nprices : ℤ)
    (prices : ℤ → ℚ) (k : ℕ) : WFState :=
  (foldBody c sqrt indet nprices prices)^[k] wfInit

/-- Whether every `assert` of the `comp_return` call of the fold run from state `s` holds
(the call of source lines 447-448, with the arguments `foldBody` gives it). -/
def foldAsserts (c : Config) (sqrt : ℚ → ℚ) (indet : ℤ × ℚ × ℤ) (nprices : ℤ)
    (prices : ℤ → ℚ) (s : WFState) : Bool :=
  let r := opt_params c.which_crit c.all_bars c.n_train sqrt (shift prices s.train_start)
    c.max_lookback
  let o := r.out.getD indet
  let n := if c.n_test > nprices - s.train_start - c.n_train then
      nprices - s.train_start - c.n_train else c.n_test
  (compScan c.ret_type nprices prices (s.train_start + c.n_train) n o.1 o.2.1 o.2.2).asserts_ok

end PerWhat

/-!
# DRAWDOWN: drawdown of a trade sequence and quantile indices

Shallow embedding of `drawdown`, `find_quantile`, the quantile part of
`drawdown_quantiles` and the parameter checks of `main` in
`src/DRAWDOWN/DRAWDOWN.CPP`, with the conventions above. The conversion `(int) x`
of a double is truncation toward zero; a value outside the range of `int` is not
modelled.
-/

namespace Drawdown

/-- Locals of `drawdown`; `loss` is unassigned until the first bar that is no new peak. -/
structure DDState where
  cumulative : ℚ
  max_price : ℚ
  loss : ℚ
  dd : ℚ
  deriving DecidableEq, Repr

/-- Locals of `drawdown` before its loop (source lines 126-127). -/
def ddInit (trades : ℤ → ℚ) : DDState :=
  { cumulative := trades 0, max_price := trades 0, loss := 0, dd := 0 }

/-- Body of the loop of `drawdown` (source lines 129-138), trade `icase`. -/
def ddBody (trades : ℤ → ℚ) (icase : ℤ) (s : DDState) : DDState :=
  let cumulative : ℚ := s.cumulative + trades icase
  if cumulative > s.max_price then
    { s with cumulative := cumulative, max_price := cumulative }
  else
    let loss : ℚ := s.max_price - cumulative
    if loss > s.dd then
      { s with cumulative := cumulative, loss := loss, dd := loss }
    else
      { s with cumulative := cumulative, loss := loss }

/-- The function `drawdown` (source lines 118-141). -/
def drawdown (n : ℤ) (trades : ℤ → ℚ) : ℚ :=
  (PerWhat.forUp (ddBody trades) 1 n (ddInit trades)).dd

/-- The conversion `(int) x` of a double `x`: truncation toward zero. -/
def truncInt (x : ℚ) : ℤ := if 0 ≤ x then ⌊x⌋ else ⌈x⌉

/-- The index `k` of `find_quantile` (source lines 213-215):
`k = (int) (frac * (n+1)) - 1 ; if (k < 0) k = 0`. -/
def quantileIndex (n : ℤ) (frac : ℚ) : ℤ :=
  let k : ℤ := truncInt (frac * ((n + 1 : ℤ) : ℚ)) - 1
  if k < 0 then 0 else k

/-- The function `find_quantile` (source lines 209-217). -/
def find_quantile (n : ℤ) (data : ℤ → ℚ) (frac : ℚ) : ℚ := data (quantileIndex n frac)

/-- The quantile part of `drawdown_quantiles` (source lines 177-197), on the array `work`
as `qsortd` leaves it: the four indices `k`, for 0.999, 0.99, 0.95 and 0.90, and the values
`*q001`, `*q01`, `*q05`, `*q10` read at them. -/
def drawdown_quantiles (nboot : ℤ) (work : ℤ → ℚ) : (ℤ × ℤ × ℤ × ℤ) × (ℚ × ℚ × ℚ × ℚ) :=
  let k1 : ℤ := truncInt ((999 / 1000) * ((nboot + 1 : ℤ) : ℚ)) - 1
  let k1 : ℤ := if k1 < 0 then 0 else k1
  let k2 : ℤ := truncInt ((99 / 100) * ((nboot + 1 : ℤ) : ℚ)) - 1
  let k2 : ℤ := if k2 < 0 then 0 else k2
  let k3 : ℤ := truncInt ((95 / 100) * ((nboot + 1 : ℤ) : ℚ)) - 1
  let k3 : ℤ := if k3 < 0 then 0 else k3
  let k4 : ℤ := truncInt ((90 / 100) * ((nboot + 1 : ℤ) : ℚ)) - 1
  let k4 : ℤ := if k4 < 0 then 0 else k4
  ((k1, k2, k3, k4), (work k1, work k2, work k3, work k4))

/-- Command-line parameters of `main` after `atoi` and `atof`. -/
structure DDConfig where
  n_changes : ℤ
  n_trades : ℤ
  win_prob : ℚ
  bound_conf : ℚ
  bootstrap_reps : ℤ
  quantile_reps : ℤ
  test_reps : ℤ
  deriving DecidableEq, Repr

/-- The parameter checks of `main` (source lines 281-314): `true` when none of them ends
the run. -/
def main_checks (c : DDConfig) : Bool :=
  if c.n_changes < 2 then false
  else if c.n_trades < 2 then false
  else if c.n_trades > c.n_changes then false
  else if c.win_prob < 0 ∨ c.win_prob > 1 then false
  else if c.bootstrap_reps < 10 then false
  else if c.quantile_reps < 10 then false
  else if c.test_reps < 1 then false
  else true

/-- The indices at which `main` reads the sorted arrays of `bootstrap_reps` bounds (source
lines 401-404): `find_quantile` with `1.0 - (1.0 - bound_conf) / 2.0` for `correct_q001` and
`correct_q01`, with `bound_conf` for `correct_q05` and `correct_q10`. -/
def main_bound_indices (c : DDConfig) : ℤ × ℤ :=
  (quantileIndex c.bootstrap_reps (1 - (1 - c.bound_conf) / 2),
   quantileIndex c.bootstrap_reps c.bound_conf)

/-- Cumulative trade sum as the claim states it: `S_m = trades[0] + ... + trades[m]`. -/
def cumSum (trades : ℤ → ℚ) (m : ℕ) : ℚ := ∑ i ∈ Finset.range (m + 1), trades (i : ℤ)

end Drawdown

/-!
# PER_WHAT in machine arithmetic

Second embedding of `opt_params`, `comp_return` and `main` of
`src/PER_WHAT/PER_WHAT.CPP`, with the number formats of the compiled program. It is
used where a claim depends on rounding, on overflow or on a failing `assert`.

Modelling conventions
* A C `double` is a `Dbl`: a finite binary64 number (given by its rational value),
  `+inf`, `-inf` or NaN. Every operation computes the exact result and rounds it to
  the nearest binary64 number, ties to even (`rnd`), each operation on its own (no
  extended precision, no fused multiply-add). The sign of a zero is not kept; a zero
  divisor counts as `+0`. A decimal literal is the nearest binary64 number. The
  library function `sqrt` is a parameter.
* A C `int` is an integer in `[-2^31, 2^31)`; `+` and `-` on `int` wrap around
  (`wrap`). A loop counter is incremented without `wrap` where the loop test keeps it
  below the bound; the loop `for (ilook=2 ; ilook<=max_lookback ; ilook++)` is
  modelled for `max_lookback < 2^31 - 1` (at `2^31 - 1` its test never fails).
* A failing `assert` ends the run. `comp_return` records whether every `assert` it met
  held, and `main` stops at a fold whose `comp_return` call met a failing one.
* Price arrays, pointers, loops and unassigned locals are modelled as in the exact
  reading above.
-/

namespace Machine

/-! ## Binary64 numbers -/

/-- A value of the C type `double`: a finite number `fin q` (a binary64 number when it is
the result of an operation), `+inf`, `-inf` or NaN. -/
inductive Dbl where
  /-- A finite number with rational value `q`. -/
  | fin (q : ℚ)
  /-- Positive infinity. -/
  | pinf
  /-- Negative infinity. -/
  | ninf
  /-- Not a number. -/
  | nan
  deriving DecidableEq, Repr

/-- Helper of `log2`: at most `fuel` halvings. -/
def log2Aux : ℕ → ℕ → ℕ
  | 0, _ => 0
  | fuel + 1, n => if n < 2 then 0 else log2Aux fuel (n / 2) + 1

/-- Floor of the binary logarithm of a natural number `n ≥ 1` (and `0` for `n = 0`). -/
def log2 (n : ℕ) : ℕ := log2Aux n n

/-- Binary exponent of a rational `q ≠ 0`: the integer `k` with `2^k ≤ |q| < 2^(k+1)`. -/
def expo (q : ℚ) : ℤ :=
  let k : ℤ := (log2 q.num.natAbs : ℤ) - (log2 q.den : ℤ)
  if (2 : ℚ) ^ k ≤ |q| then k else k - 1

/-- Nearest integer, ties to the even one. -/
def rne (x : ℚ) : ℤ :=
  let f : ℤ := ⌊x⌋
  let r : ℚ := x - (f : ℚ)
  if r < 1 / 2 then f
  else if r > 1 / 2 then f + 1
  else if f % 2 = 0 then f else f + 1

/-- Rounding of an exact result to binary64, round to nearest, ties to even: 53 significant
bits, least exponent `-1022` (below it the spacing stays `2^-1074`), and `±inf` when the
rounded magnitude reaches `2^1024`. -/
def rnd (q : ℚ) : Dbl :=
  if q = 0 then Dbl.fin 0
  else
    let e : ℤ := max (expo q) (-1022) - 52
    let r : ℚ := (rne (|q| / (2 : ℚ) ^ e) : ℚ) * (2 : ℚ) ^ e
    if r ≥ (2 : ℚ) ^ (1024 : ℤ) then (if q > 0 then Dbl.pinf else Dbl.ninf)
    else Dbl.fin (if q > 0 then r else -r)

/-- A decimal literal of the source, such as `1.e-60` or `0.01`. -/
def Dbl.lit (q : ℚ) : Dbl := rnd q

/-- Conversion of an `int` to `double`. -/
def Dbl.ofInt (n : ℤ) : Dbl := rnd (n : ℚ)

/-- Unary minus. -/
def Dbl.neg : Dbl → Dbl
  | Dbl.fin a => Dbl.fin (-a)
  | Dbl.pinf => Dbl.ninf
  | Dbl.ninf => Dbl.pinf
  | Dbl.nan => Dbl.nan

/-- Addition of two doubles. -/
def Dbl.add : Dbl → Dbl → Dbl
  | Dbl.fin a, Dbl.fin b => rnd (a + b)
  | Dbl.fin _, Dbl.pinf => Dbl.pinf
  | Dbl.fin _, Dbl.ninf => Dbl.ninf
  | Dbl.pinf, Dbl.fin _ => Dbl.pinf
  | Dbl.pinf, Dbl.pinf => Dbl.pinf
  | Dbl.ninf, Dbl.fin _ => Dbl.ninf
  | Dbl.ninf, Dbl.ninf => Dbl.ninf
  | _, _ => Dbl.nan

/-- Subtraction of two doubles. -/
def Dbl.sub (a b : Dbl) : Dbl := Dbl.add a (Dbl.neg b)

/-- Multiplication of two doubles. -/
def Dbl.mul : Dbl → Dbl → Dbl
  | Dbl.fin a, Dbl.fin b => rnd (a * b)
  | Dbl.fin a, Dbl.pinf => if a = 0 then Dbl.nan else if a > 0 then Dbl.pinf else Dbl.ninf
  | Dbl.fin a, Dbl.ninf => if a = 0 then Dbl.nan else if a > 0 then Dbl.ninf else Dbl.pinf
  | Dbl.pinf, Dbl.fin b => if b = 0 then Dbl.nan else if b > 0 then Dbl.pinf else Dbl.ninf
  | Dbl.ninf, Dbl.fin b => if b = 0 then Dbl.nan else if b > 0 then Dbl.ninf else Dbl.pinf
  | Dbl.pinf, Dbl.pinf => Dbl.pinf
  | Dbl.ninf, Dbl.ninf => Dbl.pinf
  | Dbl.pinf, Dbl.ninf => Dbl.ninf
  | Dbl.ninf, Dbl.pinf => Dbl.ninf
  | _, _ => Dbl.nan

/-- Division of two doubles. -/
def Dbl.div : Dbl → Dbl → Dbl
  | Dbl.fin a, Dbl.fin b =>
    if b = 0 then (if a = 0 then Dbl.nan else if a > 0 then Dbl.pinf else Dbl.ninf)
    else rnd (a / b)
  | Dbl.fin _, Dbl.pinf => Dbl.fin 0
  | Dbl.fin _, Dbl.ninf => Dbl.fin 0
  | Dbl.pinf, Dbl.fin b => if b ≥ 0 then Dbl.pinf else Dbl.ninf
  | Dbl.ninf, Dbl.fin b => if b ≥ 0 then Dbl.ninf else Dbl.pinf
  | _, _ => Dbl.nan

/-- The comparison `a < b` of two doubles; false when one of them is NaN. -/
def Dbl.lt : Dbl → Dbl → Bool
  | Dbl.fin a, Dbl.fin b => decide (a < b)
  | Dbl.fin _, Dbl.pinf => true
  | Dbl.ninf, Dbl.fin _ => true
  | Dbl.ninf, Dbl.pinf => true
  | _, _ => false

instance : Neg Dbl := ⟨Dbl.neg⟩

instance : Add Dbl := ⟨Dbl.add⟩

instance : Sub Dbl := ⟨Dbl.sub⟩

instance : Mul Dbl := ⟨Dbl.mul⟩

instance : Div Dbl := ⟨Dbl.div⟩

instance : LT Dbl := ⟨fun a b => Dbl.lt a b = true⟩

instance (a b : Dbl) : Decidable (a < b) := inferInstanceAs (Decidable (Dbl.lt a b = true))

/-- The result of `+` or `-` on two `int` values: the sum taken modulo `2^32` into
`[-2^31, 2^31)`. -/
def wrap (x : ℤ) : ℤ := (x + 2147483648) % 4294967296 - 2147483648

/-- A price array given by its first entries; entries outside the list are `0`. -/
def ofList (l : List Dbl) : ℤ → Dbl := fun j => if 0 ≤ j then l.getD j.toNat (Dbl.fin 0) else Dbl.fin 0

/-- The pointer `prices + k`. -/
def shift (prices : ℤ → Dbl) (k : ℤ) : ℤ → Dbl := fun j => prices (k + j)

/-! ## opt_params -/

/-- Locals of one trial (one `ilook`, `ithresh` pair) of `opt_params`. -/
structure OptState where
  MA_sum : Dbl
  MA_mean : Dbl
  position : ℤ
  ret : Dbl
  total_return : Dbl
  win_sum : Dbl
  lose_sum : Dbl
  sum_squares : Dbl
  n_trades : ℤ
  deriving DecidableEq, Repr

/-- Locals at the start of a trial (source lines 58-62). -/
def optInit : OptState :=
  { MA_sum := Dbl.fin 0, MA_mean := Dbl.fin 0, position := 0, ret := Dbl.fin 0,
    total_return := Dbl.fin 0, win_sum := Dbl.lit (1 / 10 ^ 60),
    lose_sum := Dbl.lit (1 / 10 ^ 60), sum_squares := Dbl.lit (1 / 10 ^ 60), n_trades := 0 }

/-- Body of the bar loop of `opt_params` (source lines 64-107), decision bar `i`. -/
def optBar (all_bars : ℤ) (prices : ℤ → Dbl) (max_lookback ilook ithresh : ℤ)
    (i : ℤ) (s : OptState) : OptState :=
  let MA_sum : Dbl :=
    if i = wrap (max_lookback - 1) then
      PerWhat.forDown (fun j acc => acc + prices j) i (wrap (i - ilook)) (Dbl.fin 0)
    else
      s.MA_sum + (prices i - prices (wrap (i - ilook)))
  let MA_mean : Dbl := MA_sum / Dbl.ofInt ilook
  let trial_thresh : Dbl := Dbl.fin 1 + Dbl.lit (1 / 100) * Dbl.ofInt ithresh
  let position : ℤ :=
    if prices i > trial_thresh * MA_mean then 1
    else if prices i < MA_mean then 0
    else s.position
  let ret : Dbl := if position ≠ 0 then prices (wrap (i + 1)) - prices i else Dbl.fin 0
  if all_bars ≠ 0 ∨ position ≠ 0 then
    { MA_sum := MA_sum, MA_mean := MA_mean, position := position, ret := ret,
      total_return := s.total_return + ret,
      win_sum := if ret > Dbl.fin 0 then s.win_sum + ret else s.win_sum,
      lose_sum := if ret > Dbl.fin 0 then s.lose_sum else s.lose_sum - ret,
      sum_squares := s.sum_squares + ret * ret,
      n_trades := wrap (s.n_trades + 1) }
  else
    { s with MA_sum := MA_sum, MA_mean := MA_mean, position := position, ret := ret }

/-- The bar loop of one trial: `for (i = max_lookback-1 ; i < nprices-1 ; i++)`. -/
def optScan (all_bars nprices : ℤ) (prices : ℤ → Dbl) (max_lookback ilook ithresh : ℤ) :
    OptState :=
  PerWhat.forUp (optBar all_bars prices max_lookback ilook ithresh)
    (wrap (max_lookback - 1)) (wrap (nprices - 1)) optInit

/-- Best-so-far record of `opt_params`: `best_perf` and, once assigned,
`(ibestlook, ibestthresh, last_position_of_best)`. -/
structure Best where
  best_perf : Dbl
  arg : Option (ℤ × ℤ × ℤ)
  deriving DecidableEq, Repr

/-- Source lines 112-142: score the finished trial and keep it if it is strictly better. -/
def optKeep (which_crit : ℤ) (sqrt : Dbl → Dbl) (ilook ithresh : ℤ) (s : OptState) (b : Best) :
    Best :=
  if which_crit = 0 then
    let total_return := s.total_return / (Dbl.ofInt s.n_trades + Dbl.lit (1 / 10 ^ 30))
    if total_return > b.best_perf then
      { best_perf := total_return, arg := some (ilook, ithresh, s.position) }
    else b
  else if which_crit = 1 ∧ s.win_sum / s.lose_sum > b.best_perf then
    { best_perf := s.win_sum / s.lose_sum, arg := some (ilook, ithresh, s.position) }
  else if which_crit = 2 then
    let total_return := s.total_return / (Dbl.ofInt s.n_trades + Dbl.lit (1 / 10 ^ 30))
    let sum_squares0 := s.sum_squares / (Dbl.ofInt s.n_trades + Dbl.lit (1 / 10 ^ 30))
    let sum_squares1 := sum_squares0 - total_return * total_return
    let sum_squares :=
      if sum_squares1 < Dbl.lit (1 / 10 ^ 20) then Dbl.lit (1 / 10 ^ 20) else sum_squares1
    let sr := total_return / sqrt sum_squares
    if sr > b.best_perf then
      { best_perf := sr, arg := some (ilook, ithresh, s.position) }
    else b
  else b

/-- Body of the `ithresh` loop: run one trial and update the best-so-far record. -/
def optTrial (which_crit all_bars nprices : ℤ) (sqrt : Dbl → Dbl) (prices : ℤ → Dbl)
    (max_lookback ilook ithresh : ℤ) (b : Best) : Best :=
  optKeep which_crit sqrt ilook ithresh
    (optScan all_bars nprices prices max_lookback ilook ithresh) b

/-- Result of `opt_params`: the returned `best_perf` and the three output
parameters, `none` when the source copies unassigned locals to them. -/
structure OptOut where
  best_perf : Dbl
  out : Option (ℤ × Dbl × ℤ)
  deriving DecidableEq, Repr

/-- The function `opt_params` (source lines 30-152). -/
def opt_params (which_crit all_bars nprices : ℤ) (sqrt : Dbl → Dbl) (prices : ℤ → Dbl)
    (max_lookback : ℤ) : OptOut :=
  let b : Best :=
    PerWhat.forUp (fun ilook b =>
        PerWhat.forUp (fun ithresh b =>
            optTrial which_crit all_bars nprices sqrt prices max_lookback ilook ithresh b)
          1 (10 + 1) b)
      2 (max_lookback + 1) { best_perf := Dbl.lit (-(10 ^ 60)), arg := none }
  { best_perf := b.best_perf,
    out := b.arg.map (fun a => (a.1, Dbl.lit (1 / 100) * Dbl.ofInt a.2.1, a.2.2)) }

/-! ## comp_return -/

/-- Locals of `comp_return`; `returns` is the output array filled so far (`nret` is its
length) and `asserts_ok` records whether every `assert` met so far held. -/
structure CompState where
  MA_sum : Dbl
  MA_mean : Dbl
  position : ℤ
  prior_position : ℤ
  open_price : Dbl
  ret : Dbl
  returns : List Dbl
  asserts_ok : Bool
  deriving DecidableEq, Repr

/-- Locals before the bar loop of `comp_return` (source lines 190-193). -/
def compInit (last_pos : ℤ) : CompState :=
  { MA_sum := Dbl.fin 0, MA_mean := Dbl.fin 0, position := last_pos, prior_position := 0,
    open_price := Dbl.fin 0, ret := Dbl.fin 0, returns := [], asserts_ok := true }

/-- Body of the bar loop of `comp_return` (source lines 195-254), decision bar `i`. -/
def compBar (ret_type nprices : ℤ) (prices : ℤ → Dbl) (istart ntest lookback : ℤ)
    (thresh : Dbl) (i : ℤ) (s : CompState) : CompState :=
  let trial_thresh : Dbl := Dbl.fin 1 + thresh
  let ma : Dbl × Bool :=
    if i = wrap (istart - 1) then
      PerWhat.forDown (fun j (a : Dbl × Bool) => (a.1 + prices j, a.2 && decide (0 ≤ j)))
        i (wrap (i - lookback)) (Dbl.fin 0, s.asserts_ok)
    else
      (s.MA_sum + (prices i - prices (wrap (i - lookback))), s.asserts_ok)
  let MA_sum : Dbl := ma.1
  let MA_mean : Dbl := MA_sum / Dbl.ofInt lookback
  let asserts_ok : Bool := ma.2 && decide (wrap (i + 1) < nprices)
  let position : ℤ :=
    if prices i > trial_thresh * MA_mean then 1
    else if prices i < MA_mean then 0
    else s.position
  let ret : Dbl := if position ≠ 0 then prices (wrap (i + 1)) - prices i else Dbl.fin 0
  let s1 : CompState :=
    { s with MA_sum := MA_sum, MA_mean := MA_mean, position := position, ret := ret,
             asserts_ok := asserts_ok }
  let s2 : CompState :=
    if ret_type = 0 then
      { s1 with returns := s1.returns ++ [ret] }
    else if ret_type = 1 then
      if position ≠ 0 then { s1 with returns := s1.returns ++ [ret] } else s1
    else if ret_type = 2 then
      if position ≠ 0 ∧ ¬ (s.prior_position ≠ 0) then
        { s1 with open_price := prices i }
      else if s.prior_position ≠ 0 ∧ ¬ (position ≠ 0) then
        { s1 with returns := s1.returns ++ [prices i - s.open_price] }
      else if position ≠ 0 ∧ i = wrap (wrap (istart - 2) + ntest) then
        { s1 with returns := s1.returns ++ [prices (wrap (i + 1)) - s.open_price] }
      else s1
    else s1
  { s2 with prior_position := position }

/-- The locals of `comp_return` after its bar loop
`for (i = istart-1 ; i < istart-1+ntest ; i++)`. -/
def compScan (ret_type nprices : ℤ) (prices : ℤ → Dbl) (istart ntest lookback : ℤ)
    (thresh : Dbl) (last_pos : ℤ) : CompState :=
  PerWhat.forUp (compBar ret_type nprices prices istart ntest lookback thresh)
    (wrap (istart - 1)) (wrap (wrap (istart - 1) + ntest)) (compInit last_pos)

/-- The function `comp_return` (source lines 174-257): the returns written to
`returns[0 .. *n_returns)`, or `none` when an `assert` failed. -/
def comp_return (ret_type nprices : ℤ) (prices : ℤ → Dbl) (istart ntest lookback : ℤ)
    (thresh : Dbl) (last_pos : ℤ) : Option (List Dbl) :=
  let s := compScan ret_type nprices prices istart ntest lookback thresh last_pos
  if s.asserts_ok then some s.returns else none

/-! ## main: configuration checks, walk-forward loop and final statistic -/

/-- The two lines `main` prints for one fold: `IS at train_start Lookback=..
Thresh=.. Crit=..` and `OOS testing n from istart had n_returns returns,
total=nret`. -/
structure FoldLog where
  train_start : ℤ
  lookback : ℤ
  thresh : Dbl
  crit : Dbl
  n : ℤ
  istart : ℤ
  n_returns : ℤ
  nret : ℤ
  deriving DecidableEq, Repr

/-- Variables of `main` that live across folds: `train_start`, the filled part
of `returns` (its length is `nret`) and the lines printed so far. -/
structure WFState where
  train_start : ℤ
  returns : List Dbl
  log : List FoldLog
  deriving DecidableEq, Repr

/-- Body of the walk-forward loop up to `train_start += n` (source lines 436-455), or
`none` when an `assert` of the `comp_return` call fails. `indet` stands for the values
`opt_params` hands back when it copies unassigned locals to its output parameters. -/
def foldBody (c : PerWhat.Config) (sqrt : Dbl → Dbl) (indet : ℤ × Dbl × ℤ) (nprices : ℤ)
    (prices : ℤ → Dbl) (s : WFState) : Option WFState :=
  let r := opt_params c.which_crit c.all_bars c.n_train sqrt (shift prices s.train_start)
    c.max_lookback
  let crit := r.best_perf
  let o := r.out.getD indet
  let lookback := o.1
  let thresh := o.2.1
  let last_pos := o.2.2
  let n := if c.n_test > wrap (wrap (nprices - s.train_start) - c.n_train) then
      wrap (wrap (nprices - s.train_start) - c.n_train) else c.n_test
  match comp_return c.ret_type nprices prices (wrap (s.train_start + c.n_train)) n lookback
      thresh last_pos with
  | none => none
  | some rets =>
    let returns := s.returns ++ rets
    some { train_start := wrap (s.train_start + n),
           returns := returns,
           log := s.log ++ [{ train_start := s.train_start, lookback := lookback,
                              thresh := thresh,
                              crit := Dbl.ofInt (PerWhat.mult c) * crit, n := n,
                              istart := wrap (s.train_start + c.n_train),
                              n_returns := rets.length, nret := returns.length }] }

/-- How the walk-forward loop was left. -/
inductive LoopEnd where
  /-- The `break` was reached. -/
  | done
  /-- An `assert` of `comp_return` failed. -/
  | assertFailed
  /-- The loop was still running when the fuel ran out. -/
  | fuelOut
  deriving DecidableEq, Repr

/-- The loop `for (;;) { ... if (train_start + n_train >= nprices) break ; }` run for at
most `fuel` folds. When an `assert` fails the state is the one at the start of that fold. -/
def wfLoop (c : PerWhat.Config) (sqrt : Dbl → Dbl) (indet : ℤ × Dbl × ℤ) (nprices : ℤ)
    (prices : ℤ → Dbl) : ℕ → WFState → WFState × LoopEnd
  | 0, s => (s, LoopEnd.fuelOut)
  | fuel + 1, s =>
    match foldBody c sqrt indet nprices prices s with
    | none => (s, LoopEnd.assertFailed)
    | some s1 =>
      if wrap (s1.train_start + c.n_train) ≥ nprices then (s1, LoopEnd.done)
      else wfLoop c sqrt indet nprices prices fuel s1

/-- State of `main` when the walk-forward loop is entered (source lines 426-427). -/
def wfInit : WFState := { train_start := 0, returns := [], log := [] }

/-- The profit-factor sums of the final statistic (source lines 476-482). -/
def oosSums (returns : List Dbl) : Dbl × Dbl :=
  returns.foldl
    (fun (a : Dbl × Dbl) r =>
      if r > Dbl.fin 0 then (a.1 + r, a.2) else if r < Dbl.fin 0 then (a.1, a.2 - r) else a)
    (Dbl.lit (1 / 10 ^ 60), Dbl.lit (1 / 10 ^ 60))

/-- The OOS statistic `main` prints after the loop (source lines 467-500);
`none` when `which_crit` is none of 0, 1, 2 and nothing is printed. -/
def oosStat (which_crit : ℤ) (sqrt : Dbl → Dbl) (returns : List Dbl) : Option Dbl :=
  if which_crit = 0 then
    let crit := returns.foldl (fun acc r => acc + r) (Dbl.fin 0)
    let crit := crit / (Dbl.ofInt returns.length + Dbl.lit (1 / 10 ^ 60))
    some (Dbl.ofInt 25200 * crit)
  else if which_crit = 1 then
    some ((oosSums returns).1 / (oosSums returns).2)
  else if which_crit = 2 then
    let ss := returns.foldl (fun (a : Dbl × Dbl) r => (a.1 + r, a.2 + r * r))
      (Dbl.fin 0, Dbl.fin 0)
    let sum := ss.1 / (Dbl.ofInt returns.length + Dbl.lit (1 / 10 ^ 60))
    let sum_squares0 := ss.2 / (Dbl.ofInt returns.length + Dbl.lit (1 / 10 ^ 60))
    let sum_squares1 := sum_squares0 - sum * sum
    let sum_squares :=
      if sum_squares1 < Dbl.lit (1 / 10 ^ 20) then Dbl.lit (1 / 10 ^ 20) else sum_squares1
    some (sum / sqrt sum_squares)
  else none

/-- How a run of `main` ends. -/
inductive Outcome where
  /-- Line 313: `exit(1)`, n_train must be at least 10 greater than max_lookback. -/
  | errTrain
  /-- Lines 323-392: the market file could not be read, `exit(1)`. -/
  | errMarket
  /-- Line 403: `exit(1)`, n_train + n_test must not exceed n_prices. -/
  | errHistory
  /-- An `assert` of `comp_return` failed in the fold that starts from state `s`. -/
  | assertFailed (s : WFState)
  /-- The fold loop was still running when the fuel ran out. -/
  | running (s : WFState)
  /-- The fold loop ended and the final statistic was printed, `exit(0)`. -/
  | finished (s : WFState) (stat : Option Dbl)
  deriving DecidableEq, Repr

/-- The routine `main` from line 313 on, for a command line with the seven
parameters. `market` is what reading the market file gives: `none` when it
fails, else `nprices` and the log prices; memory allocation is taken to
succeed. The fold loop runs for at most `fuel` folds. -/
def main_ (c : PerWhat.Config) (sqrt : Dbl → Dbl) (indet : ℤ × Dbl × ℤ)
    (market : Option (ℤ × (ℤ → Dbl))) (fuel : ℕ) : Outcome :=
  if wrap (c.n_train - c.max_lookback) < 10 then Outcome.errTrain
  else
    match market with
    | none => Outcome.errMarket
    | some (nprices, prices) =>
      if wrap (c.n_train + c.n_test) > nprices then Outcome.errHistory
      else
        match wfLoop c sqrt indet nprices prices fuel wfInit with
        | (s, LoopEnd.done) => Outcome.finished s (oosStat c.which_crit sqrt s.returns)
        | (s, LoopEnd.assertFailed) => Outcome.assertFailed s
        | (s, LoopEnd.fuelOut) => Outcome.running s

/-- The run ended in one of the `exit(1)` branches that precede the fold loop. -/
def Outcome.aborted : Outcome → Bool
  | Outcome.errTrain => true
  | Outcome.errMarket => true
  | Outcome.errHistory => true
  | _ => false

/-- The fold lines printed by the run, for the folds that ran to their end. -/
def Outcome.folds : Outcome → List FoldLog
  | Outcome.assertFailed s => s.log
  | Outcome.running s => s.log
  | Outcome.finished s _ => s.log
  | _ => []

/-! ## States inside a scan, scores -/

/-- Locals of the trial `(ilook, ithresh)` of `opt_params` right after the loop
body has been run for decision bar `i`. -/
def optAt (all_bars : ℤ) (prices : ℤ → Dbl) (max_lookback ilook ithresh i : ℤ) : OptState :=
  PerWhat.forUp (optBar all_bars prices max_lookback ilook ithresh) (wrap (max_lookback - 1))
    (i + 1) optInit

/-- Locals of `comp_return` right after the loop body has been run for decision bar `i`. -/
def compAt (ret_type nprices : ℤ) (prices : ℤ → Dbl) (istart ntest lookback : ℤ)
    (thresh : Dbl) (last_pos i : ℤ) : CompState :=
  PerWhat.forUp (compBar ret_type nprices prices istart ntest lookback thresh)
    (wrap (istart - 1)) (i + 1) (compInit last_pos)

/-- The value a finished trial is compared with `best_perf` on (source lines
113, 122 and 130-135). -/
def optScore (which_crit : ℤ) (sqrt : Dbl → Dbl) (s : OptState) : Dbl :=
  if which_crit = 0 then s.total_return / (Dbl.ofInt s.n_trades + Dbl.lit (1 / 10 ^ 30))
  else if which_crit = 1 then s.win_sum / s.lose_sum
  else
    let total_return := s.total_return / (Dbl.ofInt s.n_trades + Dbl.lit (1 / 10 ^ 30))
    let sum_squares0 := s.sum_squares / (Dbl.ofInt s.n_trades + Dbl.lit (1 / 10 ^ 30))
    let sum_squares1 := sum_squares0 - total_return * total_return
    let sum_squares :=
      if sum_squares1 < Dbl.lit (1 / 10 ^ 20) then Dbl.lit (1 / 10 ^ 20) else sum_squares1
    total_return / sqrt sum_squares

/-- Score of the candidate `(ilook, ithresh)` on the window. -/
def candScore (which_crit all_bars nprices : ℤ) (sqrt : Dbl → Dbl) (prices : ℤ → Dbl)
    (max_lookback ilook ithresh : ℤ) : Dbl :=
  optScore which_crit sqrt (optScan all_bars nprices prices max_lookback ilook ithresh)

/-- What the best-so-far record of `opt_params` satisfies when the candidates before `(L, T)`
have been tried: `best_perf` is not NaN and not below the sentinel, no candidate tried scores
above it, and the recorded candidate, if any, is the first of them that attains `best_perf`. -/
def BestInv (score : ℤ → ℤ → Dbl) (pos : ℤ → ℤ → ℤ) (max_lookback L T : ℤ) (b : Best) : Prop :=
  (b.best_perf = Dbl.lit (-(10 ^ 60)) ∨ Dbl.lit (-(10 ^ 60)) < b.best_perf) ∧
  (∀ l t, PerWhat.Before max_lookback L T l t → ¬ (b.best_perf < score l t)) ∧
  (b.arg = none → b.best_perf = Dbl.lit (-(10 ^ 60))) ∧
  (∀ l t z, b.arg = some (l, t, z) →
    PerWhat.Before max_lookback L T l t ∧ b.best_perf = score l t ∧ z = pos l t ∧
    Dbl.lit (-(10 ^ 60)) < score l t ∧
    ∀ l' t', PerWhat.Before max_lookback l t l' t' →
      ¬ (score l t < score l' t') ∧ score l' t' ≠ score l t)

/-- The index part of a fold line: `train_start`, the start `istart` of the OOS window and
its length `n`. -/
def FoldLog.window (f : FoldLog) : ℤ × ℤ × ℤ := (f.train_start, f.istart, f.n)

/-- The double `x` is `+inf` or a finite number not below `lo`. -/
def Dbl.AtLeast (lo : ℚ) (x : Dbl) : Prop := x = Dbl.pinf ∨ ∃ y, x = Dbl.fin y ∧ lo ≤ y

/-- Rational value of the double nearest to `1e-60`, the literal `1.e-60` of the source. -/
def eps60 : ℚ := 3618502788666131 / 2 ^ 251

/-- A double that is an actual number: finite or infinite, not NaN. -/
def Dbl.isNum : Dbl → Bool
  | Dbl.nan => false
  | _ => true

end Machine

namespace PerWhat

/-! ## Loop lemmas -/

theorem iterUp_succ_last {σ : Type} (body : ℤ → σ → σ) (n : ℕ) (i : ℤ) (s : σ) :
    iterUp body (n + 1) i s = body (i + n) (iterUp body n i s) := by
  induction n generalizing i s with
  | zero => simp [iterUp]
  | succ n ih =>
    rw [iterUp, ih (i + 1) (body i s)]
    have h : i + 1 + (n : ℤ) = i + ((n + 1 : ℕ) : ℤ) := by push_cast; ring
    rw [h]
    rfl

theorem iterUp_add {σ : Type} (body : ℤ → σ → σ) (m n : ℕ) (i : ℤ) (s : σ) :
    iterUp body (m + n) i s = iterUp body n (i + m) (iterUp body m i s) := by
  induction m generalizing i s with
  | zero => simp [iterUp]
  | succ m ih =>
    have h : m + 1 + n = (m + n) + 1 := by omega
    rw [h, iterUp, ih, iterUp]
    have h2 : i + 1 + (m : ℤ) = i + ((m + 1 : ℕ) : ℤ) := by push_cast; ring
    rw [h2]

theorem iterUp_congr {σ : Type} (f g : ℤ → σ → σ) (n : ℕ) (i : ℤ) (s : σ)
    (h : ∀ m : ℕ, m < n → ∀ t, f (i + m) t = g (i + m) t) :
    iterUp f n i s = iterUp g n i s := by
  induction n generalizing i s with
  | zero => rfl
  | succ n ih =>
    have h0 := h 0 (Nat.succ_pos n) s
    simp only [Nat.cast_zero, add_zero] at h0
    rw [iterUp, iterUp, h0]
    apply ih
    intro m hm t
    have := h (m + 1) (by omega) t
    have e : i + 1 + (m : ℤ) = i + ((m + 1 : ℕ) : ℤ) := by push_cast; ring
    rw [e]
    exact this

theorem iterDown_congr {σ : Type} (f g : ℤ → σ → σ) (n : ℕ) (j : ℤ) (s : σ)
    (h : ∀ m : ℕ, m < n → ∀ t, f (j - m) t = g (j - m) t) :
    iterDown f n j s = iterDown g n j s := by
  induction n generalizing j s with
  | zero => rfl
  | succ n ih =>
    have h0 := h 0 (Nat.succ_pos n) s
    simp only [Nat.cast_zero, sub_zero] at h0
    rw [iterDown, iterDown, h0]
    apply ih
    intro m hm t
    have := h (m + 1) (by omega) t
    have e : j - 1 - (m : ℤ) = j - ((m + 1 : ℕ) : ℤ) := by push_cast; ring
    rw [e]
    exact this

/-- Loop invariant rule for an upward loop. -/
theorem iterUp_inv {σ : Type} (P : ℤ → σ → Prop) (body : ℤ → σ → σ) (n : ℕ) (i : ℤ) (s : σ)
    (h0 : P i s)
    (hstep : ∀ m : ℕ, m < n → ∀ t, P (i + m) t → P (i + m + 1) (body (i + m) t)) :
    P (i + n) (iterUp body n i s) := by
  induction n with
  | zero => simpa [iterUp] using h0
  | succ n ih =>
    rw [iterUp_succ_last]
    have h1 := ih (fun m hm t ht => hstep m (by omega) t ht)
    have h2 := hstep n (by omega) _ h1
    have e : i + ((n + 1 : ℕ) : ℤ) = i + n + 1 := by push_cast; ring
    rw [e]
    exact h2

theorem forUp_empty {σ : Type} (body : ℤ → σ → σ) (lo hi : ℤ) (s : σ) (h : hi ≤ lo) :
    forUp body lo hi s = s := by
  have : (hi - lo).toNat = 0 := by omega
  simp [forUp, this, iterUp]

theorem forUp_succ {σ : Type} (body : ℤ → σ → σ) (lo i : ℤ) (s : σ) (h : lo ≤ i) :
    forUp body lo (i + 1) s = body i (forUp body lo i s) := by
  have e : (i + 1 - lo).toNat = (i - lo).toNat + 1 := by omega
  have e2 : lo + ((i - lo).toNat : ℤ) = i := by omega
  rw [forUp, forUp, e, iterUp_succ_last, e2]

theorem forUp_split {σ : Type} (body : ℤ → σ → σ) (lo m hi : ℤ) (s : σ) (h1 : lo ≤ m)
    (h2 : m ≤ hi) : forUp body lo hi s = forUp body m hi (forUp body lo m s) := by
  have e : (hi - lo).toNat = (m - lo).toNat + (hi - m).toNat := by omega
  have e2 : lo + ((m - lo).toNat : ℤ) = m := by omega
  rw [forUp, forUp, forUp, e, iterUp_add, e2]

/-- Loop invariant rule for `for (i = lo ; i < hi ; i++)`. -/
theorem forUp_inv {σ : Type} (P : ℤ → σ → Prop) (body : ℤ → σ → σ) (lo hi : ℤ) (s : σ)
    (hle : lo ≤ hi) (h0 : P lo s)
    (hstep : ∀ i, lo ≤ i → i < hi → ∀ t, P i t → P (i + 1) (body i t)) :
    P hi (forUp body lo hi s) := by
  have e : lo + ((hi - lo).toNat : ℤ) = hi := by omega
  have := iterUp_inv P body (hi - lo).toNat lo s h0
    (fun m hm t ht => hstep (lo + m) (by omega) (by omega) t ht)
  rw [e] at this
  exact this

theorem forUp_congr {σ : Type} (f g : ℤ → σ → σ) (lo hi : ℤ) (s : σ)
    (h : ∀ i, lo ≤ i → i < hi → ∀ t, f i t = g i t) :
    forUp f lo hi s = forUp g lo hi s := by
  unfold forUp
  apply iterUp_congr
  intro m hm t
  exact h (lo + m) (by omega) (by omega) t

theorem iterDown_sum (p : ℤ → ℚ) (n : ℕ) (j : ℤ) (a : ℚ) :
    iterDown (fun j acc => acc + p j) n j a = a + ∑ k ∈ Finset.range n, p (j - (k : ℤ)) := by
  induction n generalizing j a with
  | zero => simp [iterDown]
  | succ n ih =>
    rw [iterDown, ih, Finset.sum_range_succ']
    have e : ∀ k : ℕ, j - 1 - (k : ℤ) = j - ((k + 1 : ℕ) : ℤ) := by
      intro k; push_cast; ring
    simp only [e, Nat.cast_zero, sub_zero]
    ring

theorem forDown_sum (p : ℤ → ℚ) (i L : ℤ) :
    forDown (fun j acc => acc + p j) i (i - L) 0 = windowSum p i L := by
  have e : (i - (i - L)).toNat = L.toNat := by congr 1; ring
  rw [forDown, e, iterDown_sum, windowSum, zero_add]

theorem iterDown_pair_fst (p : ℤ → ℚ) (n : ℕ) (j : ℤ) (a : ℚ × Bool) :
    (iterDown (fun j (a : ℚ × Bool) => (a.1 + p j, a.2 && decide (0 ≤ j))) n j a).1
      = iterDown (fun j acc => acc + p j) n j a.1 := by
  induction n generalizing j a with
  | zero => rfl
  | succ n ih => rw [iterDown, iterDown, ih]

theorem forDown_pair_fst (p : ℤ → ℚ) (i L : ℤ) (b : Bool) :
    (forDown (fun j (a : ℚ × Bool) => (a.1 + p j, a.2 && decide (0 ≤ j))) i (i - L) (0, b)).1
      = windowSum p i L := by
  rw [← forDown_sum, forDown, forDown, iterDown_pair_fst]

theorem windowSum_succ (p : ℤ → ℚ) (i L : ℤ) (hL : 0 ≤ L) :
    windowSum p (i + 1) L = windowSum p i L + (p (i + 1) - p (i + 1 - L)) := by
  unfold windowSum
  obtain ⟨n, rfl⟩ := Int.eq_ofNat_of_zero_le hL
  simp only [Int.toNat_ofNat]
  cases n with
  | zero => simp
  | succ m =>
    rw [Finset.sum_range_succ', Finset.sum_range_succ]
    have e : ∀ k : ℕ, i + 1 - ((k + 1 : ℕ) : ℤ) = i - (k : ℤ) := by
      intro k; push_cast; ring
    have e2 : i + 1 - ((m + 1 : ℕ) : ℤ) = i - (m : ℤ) := e m
    simp only [e, e2, Nat.cast_zero, sub_zero]
    ring

theorem windowSum_congr (p q : ℤ → ℚ) (i L : ℤ)
    (h : ∀ j, i - L < j → j ≤ i → p j = q j) : windowSum p i L = windowSum q i L := by
  unfold windowSum
  apply Finset.sum_congr rfl
  intro k hk
  have := Finset.mem_range.mp hk
  exact h _ (by omega) (by omega)

/-- Induction upwards from `m` on the integers. -/
theorem int_ge_induction (P : ℤ → Prop) (m : ℤ) (h0 : P m)
    (h1 : ∀ n : ℤ, m ≤ n → P n → P (n + 1)) : ∀ n : ℤ, m ≤ n → P n :=
  fun n hn => Int.le_induction h0 h1 n hn

/-! ## One bar of the trial scan of opt_params -/

theorem optBar_MA_sum (ab : ℤ) (p : ℤ → ℚ) (ml il it i : ℤ) (s : OptState) :
    (optBar ab p ml il it i s).MA_sum
      = if i = ml - 1 then windowSum p i il else s.MA_sum + (p i - p (i - il)) := by
  simp only [optBar, forDown_sum, apply_ite OptState.MA_sum, ite_self]

theorem optBar_MA_mean (ab : ℤ) (p : ℤ → ℚ) (ml il it i : ℤ) (s : OptState) :
    (optBar ab p ml il it i s).MA_mean = (optBar ab p ml il it i s).MA_sum / (il : ℚ) := by
  simp only [optBar, apply_ite OptState.MA_sum, apply_ite OptState.MA_mean, ite_self]

theorem optBar_position (ab : ℤ) (p : ℤ → ℚ) (ml il it i : ℤ) (s : OptState) :
    (optBar ab p ml il it i s).position
      = if p i > (1 + (1 / 100) * (it : ℚ)) * (optBar ab p ml il it i s).MA_mean then 1
        else if p i < (optBar ab p ml il it i s).MA_mean then 0
        else s.position := by
  simp only [optBar, apply_ite OptState.position, apply_ite OptState.MA_mean, ite_self]

theorem optBar_ret (ab : ℤ) (p : ℤ → ℚ) (ml il it i : ℤ) (s : OptState) :
    (optBar ab p ml il it i s).ret
      = if (optBar ab p ml il it i s).position ≠ 0 then p (i + 1) - p i else 0 := by
  simp only [optBar, apply_ite OptState.position, apply_ite OptState.ret, ite_self]

theorem optAt_before (ab : ℤ) (p : ℤ → ℚ) (ml il it i : ℤ) (h : i < ml - 1) :
    optAt ab p ml il it i = optInit := by
  unfold optAt
  exact forUp_empty _ _ _ _ (by omega)

theorem optAt_succ (ab : ℤ) (p : ℤ → ℚ) (ml il it i : ℤ) (h : ml - 1 ≤ i) :
    optAt ab p ml il it i = optBar ab p ml il it i (optAt ab p ml il it (i - 1)) := by
  unfold optAt
  rw [forUp_succ _ _ _ _ h, sub_add_cancel]

theorem optScan_eq_optAt (ab np : ℤ) (p : ℤ → ℚ) (ml il it : ℤ) :
    optScan ab np p ml il it = optAt ab p ml il it (np - 2) := by
  unfold optScan optAt
  have e : np - 2 + 1 = np - 1 := by ring
  rw [e]

/-- The trial scan passes through the locals `optAt .. i` of every decision bar `i`. -/
theorem optScan_through (ab np : ℤ) (p : ℤ → ℚ) (ml il it i : ℤ) (h1 : ml - 1 ≤ i)
    (h2 : i ≤ np - 2) :
    optScan ab np p ml il it
      = forUp (optBar ab p ml il it) (i + 1) (np - 1) (optAt ab p ml il it i) := by
  unfold optScan optAt
  exact forUp_split _ _ _ _ _ (by omega) (by omega)

theorem optAt_MA_sum (ab : ℤ) (p : ℤ → ℚ) (ml il it i : ℤ) (hil : 0 ≤ il) (h : ml - 1 ≤ i) :
    (optAt ab p ml il it i).MA_sum = windowSum p i il := by
  refine int_ge_induction (fun i => (optAt ab p ml il it i).MA_sum = windowSum p i il)
    (ml - 1) ?_ ?_ i h
  · show (optAt ab p ml il it (ml - 1)).MA_sum = windowSum p (ml - 1) il
    rw [optAt_succ _ _ _ _ _ _ le_rfl, optBar_MA_sum, if_pos rfl]
  · intro i hi ih
    show (optAt ab p ml il it (i + 1)).MA_sum = windowSum p (i + 1) il
    rw [optAt_succ _ _ _ _ _ _ (by omega), optBar_MA_sum, if_neg (by omega), add_sub_cancel_right,
      ih, windowSum_succ _ _ _ hil]

theorem optAt_MA_mean (ab : ℤ) (p : ℤ → ℚ) (ml il it i : ℤ) (hil : 0 ≤ il) (h : ml - 1 ≤ i) :
    (optAt ab p ml il it i).MA_mean = windowMean p i il := by
  have e := optAt_MA_sum ab p ml il it i hil h
  rw [optAt_succ _ _ _ _ _ _ h] at e ⊢
  rw [optBar_MA_mean, e, windowMean]

theorem optAt_position (ab : ℤ) (p : ℤ → ℚ) (ml il it i : ℤ) (hil : 0 ≤ il) (h : ml - 1 ≤ i) :
    (optAt ab p ml il it i).position
      = if p i > (1 + (1 / 100) * (it : ℚ)) * windowMean p i il then 1
        else if p i < windowMean p i il then 0
        else (optAt ab p ml il it (i - 1)).position := by
  have e := optAt_MA_mean ab p ml il it i hil h
  rw [optAt_succ _ _ _ _ _ _ h] at e ⊢
  rw [optBar_position, e]

theorem optAt_ret (ab : ℤ) (p : ℤ → ℚ) (ml il it i : ℤ) (h : ml - 1 ≤ i) :
    (optAt ab p ml il it i).ret
      = if (optAt ab p ml il it i).position ≠ 0 then p (i + 1) - p i else 0 := by
  rw [optAt_succ _ _ _ _ _ _ h, optBar_ret]

theorem windowMean_congr (p q : ℤ → ℚ) (i L : ℤ)
    (h : ∀ j, i - L < j → j ≤ i → p j = q j) : windowMean p i L = windowMean q i L := by
  rw [windowMean, windowMean, windowSum_congr p q i L h]

/-- The position after bar `i` of a trial scan depends on the prices up to bar `i` only. -/
theorem optAt_position_congr (ab : ℤ) (p q : ℤ → ℚ) (ml il it i : ℤ) (hil : 0 ≤ il)
    (h : ∀ j, j ≤ i → p j = q j) :
    (optAt ab p ml il it i).position = (optAt ab q ml il it i).position := by
  by_cases hi : ml - 1 ≤ i
  · refine int_ge_induction (fun i => (∀ j, j ≤ i → p j = q j) →
      (optAt ab p ml il it i).position = (optAt ab q ml il it i).position) (ml - 1) ?_ ?_ i hi h
    · intro h
      rw [optAt_position _ _ _ _ _ _ hil le_rfl, optAt_position _ _ _ _ _ _ hil le_rfl,
        optAt_before _ p _ _ _ _ (by omega), optAt_before _ q _ _ _ _ (by omega),
        windowMean_congr p q _ _ (fun j _ hj => h j hj), h _ le_rfl]
    · intro i hi ih h
      have hm := windowMean_congr p q (i + 1) il (fun j _ hj => h j hj)
      rw [optAt_position _ _ _ _ _ _ hil (by omega), optAt_position _ q _ _ _ _ hil (by omega),
        hm, h _ le_rfl, add_sub_cancel_right, ih (fun j hj => h j (by omega))]
  · rw [optAt_before _ _ _ _ _ _ (by omega), optAt_before _ _ _ _ _ _ (by omega)]

/-! ## One bar of the scan of comp_return -/

theorem compBar_MA_sum (rt np : ℤ) (p : ℤ → ℚ) (is nt lb : ℤ) (th : ℚ) (i : ℤ)
    (s : CompState) :
    (compBar rt np p is nt lb th i s).MA_sum
      = if i = is - 1 then windowSum p i lb else s.MA_sum + (p i - p (i - lb)) := by
  simp only [compBar, apply_ite CompState.MA_sum, ite_self, apply_ite Prod.fst,
    forDown_pair_fst]

theorem compBar_MA_mean (rt np : ℤ) (p : ℤ → ℚ) (is nt lb : ℤ) (th : ℚ) (i : ℤ)
    (s : CompState) :
    (compBar rt np p is nt lb th i s).MA_mean
      = (compBar rt np p is nt lb th i s).MA_sum / (lb : ℚ) := by
  simp only [compBar, apply_ite CompState.MA_sum, apply_ite CompState.MA_mean, ite_self]

theorem compBar_position (rt np : ℤ) (p : ℤ → ℚ) (is nt lb : ℤ) (th : ℚ) (i : ℤ)
    (s : CompState) :
    (compBar rt np p is nt lb th i s).position
      = if p i > (1 + th) * (compBar rt np p is nt lb th i s).MA_mean then 1
        else if p i < (compBar rt np p is nt lb th i s).MA_mean then 0
        else s.position := by
  simp only [compBar, apply_ite CompState.position, apply_ite CompState.MA_mean, ite_self]

theorem compBar_ret (rt np : ℤ) (p : ℤ → ℚ) (is nt lb : ℤ) (th : ℚ) (i : ℤ)
    (s : CompState) :
    (compBar rt np p is nt lb th i s).ret
      = if (compBar rt np p is nt lb th i s).position ≠ 0 then p (i + 1) - p i else 0 := by
  simp only [compBar, apply_ite CompState.position, apply_ite CompState.ret, ite_self]

theorem compBar_prior_position (rt np : ℤ) (p : ℤ → ℚ) (is nt lb : ℤ) (th : ℚ) (i : ℤ)
    (s : CompState) :
    (compBar rt np p is nt lb th i s).prior_position
      = (compBar rt np p is nt lb th i s).position := by
  simp only [compBar, apply_ite CompState.position, ite_self]

theorem compBar_returns_all (np : ℤ) (p : ℤ → ℚ) (is nt lb : ℤ) (th : ℚ) (i : ℤ)
    (s : CompState) :
    (compBar 0 np p is nt lb th i s).returns
      = s.returns ++ [(compBar 0 np p is nt lb th i s).ret] := by
  simp only [compBar, if_true]

theorem compBar_returns_pos (np : ℤ) (p : ℤ → ℚ) (is nt lb : ℤ) (th : ℚ) (i : ℤ)
    (s : CompState) :
    (compBar 1 np p is nt lb th i s).returns
      = if (compBar 1 np p is nt lb th i s).position ≠ 0 then
          s.returns ++ [(compBar 1 np p is nt lb th i s).ret]
        else s.returns := by
  simp only [compBar, one_ne_zero, if_false, if_true, apply_ite CompState.position,
    apply_ite CompState.returns, apply_ite CompState.ret, ite_self]

theorem compAt_before (rt np : ℤ) (p : ℤ → ℚ) (is nt lb : ℤ) (th : ℚ) (lp i : ℤ)
    (h : i < is - 1) : compAt rt np p is nt lb th lp i = compInit lp := by
  unfold compAt
  exact forUp_empty _ _ _ _ (by omega)

theorem compAt_succ (rt np : ℤ) (p : ℤ → ℚ) (is nt lb : ℤ) (th : ℚ) (lp i : ℤ)
    (h : is - 1 ≤ i) :
    compAt rt np p is nt lb th lp i
      = compBar rt np p is nt lb th i (compAt rt np p is nt lb th lp (i - 1)) := by
  unfold compAt
  rw [forUp_succ _ _ _ _ h, sub_add_cancel]

theorem compScan_eq_compAt (rt np : ℤ) (p : ℤ → ℚ) (is nt lb : ℤ) (th : ℚ) (lp : ℤ) :
    compScan rt np p is nt lb th lp = compAt rt np p is nt lb th lp (is - 2 + nt) := by
  unfold compScan compAt
  have e : is - 2 + nt + 1 = is - 1 + nt := by ring
  rw [e]

/-- The scan of `comp_return` passes through the locals `compAt .. i` of every decision bar. -/
theorem compScan_through (rt np : ℤ) (p : ℤ → ℚ) (is nt lb : ℤ) (th : ℚ) (lp i : ℤ)
    (h1 : is - 1 ≤ i) (h2 : i ≤ is - 2 + nt) :
    compScan rt np p is nt lb th lp
      = forUp (compBar rt np p is nt lb th) (i + 1) (is - 1 + nt)
          (compAt rt np p is nt lb th lp i) := by
  unfold compScan compAt
  exact forUp_split _ _ _ _ _ (by omega) (by omega)

theorem compAt_MA_sum (rt np : ℤ) (p : ℤ → ℚ) (is nt lb : ℤ) (th : ℚ) (lp i : ℤ)
    (hlb : 0 ≤ lb) (h : is - 1 ≤ i) :
    (compAt rt np p is nt lb th lp i).MA_sum = windowSum p i lb := by
  refine int_ge_induction
    (fun i => (compAt rt np p is nt lb th lp i).MA_sum = windowSum p i lb) (is - 1) ?_ ?_ i h
  · show (compAt rt np p is nt lb th lp (is - 1)).MA_sum = windowSum p (is - 1) lb
    rw [compAt_succ _ _ _ _ _ _ _ _ _ le_rfl, compBar_MA_sum, if_pos rfl]
  · intro i hi ih
    show (compAt rt np p is nt lb th lp (i + 1)).MA_sum = windowSum p (i + 1) lb
    rw [compAt_succ _ _ _ _ _ _ _ _ _ (by omega), compBar_MA_sum, if_neg (by omega),
      add_sub_cancel_right, ih, windowSum_succ _ _ _ hlb]

theorem compAt_MA_mean (rt np : ℤ) (p : ℤ → ℚ) (is nt lb : ℤ) (th : ℚ) (lp i : ℤ)
    (hlb : 0 ≤ lb) (h : is - 1 ≤ i) :
    (compAt rt np p is nt lb th lp i).MA_mean = windowMean p i lb := by
  have e := compAt_MA_sum rt np p is nt lb th lp i hlb h
  rw [compAt_succ _ _ _ _ _ _ _ _ _ h] at e ⊢
  rw [compBar_MA_mean, e, windowMean]

theorem compAt_position (rt np : ℤ) (p : ℤ → ℚ) (is nt lb : ℤ) (th : ℚ) (lp i : ℤ)
    (hlb : 0 ≤ lb) (h : is - 1 ≤ i) :
    (compAt rt np p is nt lb th lp i).position
      = if p i > (1 + th) * windowMean p i lb then 1
        else if p i < windowMean p i lb then 0
        else (compAt rt np p is nt lb th lp (i - 1)).position := by
  have e := compAt_MA_mean rt np p is nt lb th lp i hlb h
  rw [compAt_succ _ _ _ _ _ _ _ _ _ h] at e ⊢
  rw [compBar_position, e]

theorem compAt_ret (rt np : ℤ) (p : ℤ → ℚ) (is nt lb : ℤ) (th : ℚ) (lp i : ℤ)
    (h : is - 1 ≤ i) :
    (compAt rt np p is nt lb th lp i).ret
      = if (compAt rt np p is nt lb th lp i).position ≠ 0 then p (i + 1) - p i else 0 := by
  rw [compAt_succ _ _ _ _ _ _ _ _ _ h, compBar_ret]

theorem compAt_prior_position (rt np : ℤ) (p : ℤ → ℚ) (is nt lb : ℤ) (th : ℚ) (lp i : ℤ)
    (h : is - 1 ≤ i) :
    (compAt rt np p is nt lb th lp i).prior_position
      = (compAt rt np p is nt lb th lp i).position := by
  rw [compAt_succ _ _ _ _ _ _ _ _ _ h, compBar_prior_position]

/-- The position after bar `i` of a `comp_return` scan depends on the prices up to bar `i`
only. -/
theorem compAt_position_congr (rt np : ℤ) (p q : ℤ → ℚ) (is nt lb : ℤ) (th : ℚ) (lp i : ℤ)
    (hlb : 0 ≤ lb) (h : ∀ j, j ≤ i → p j = q j) :
    (compAt rt np p is nt lb th lp i).position = (compAt rt np q is nt lb th lp i).position := by
  by_cases hi : is - 1 ≤ i
  · refine int_ge_induction (fun i => (∀ j, j ≤ i → p j = q j) →
      (compAt rt np p is nt lb th lp i).position = (compAt rt np q is nt lb th lp i).position)
      (is - 1) ?_ ?_ i hi h
    · intro h
      rw [compAt_position _ _ _ _ _ _ _ _ _ hlb le_rfl,
        compAt_position _ _ _ _ _ _ _ _ _ hlb le_rfl,
        compAt_before _ _ p _ _ _ _ _ _ (by omega), compAt_before _ _ q _ _ _ _ _ _ (by omega),
        windowMean_congr p q _ _ (fun j _ hj => h j hj), h _ le_rfl]
    · intro i hi ih h
      have hm := windowMean_congr p q (i + 1) lb (fun j _ hj => h j hj)
      rw [compAt_position _ _ _ _ _ _ _ _ _ hlb (by omega),
        compAt_position _ _ q _ _ _ _ _ _ hlb (by omega),
        hm, h _ le_rfl, add_sub_cancel_right, ih (fun j hj => h j (by omega))]
  · rw [compAt_before _ _ _ _ _ _ _ _ _ (by omega), compAt_before _ _ _ _ _ _ _ _ _ (by omega)]

/-! ## The decisions of comp_return do not depend on the accounting convention -/

theorem compAt_core (rt rt' np np' : ℤ) (p : ℤ → ℚ) (is nt nt' lb : ℤ) (th : ℚ) (lp i : ℤ) :
    (compAt rt np p is nt lb th lp i).MA_sum = (compAt rt' np' p is nt' lb th lp i).MA_sum ∧
    (compAt rt np p is nt lb th lp i).position
      = (compAt rt' np' p is nt' lb th lp i).position := by
  by_cases hi : is - 1 ≤ i
  · refine int_ge_induction (fun i =>
      (compAt rt np p is nt lb th lp i).MA_sum = (compAt rt' np' p is nt' lb th lp i).MA_sum ∧
      (compAt rt np p is nt lb th lp i).position
        = (compAt rt' np' p is nt' lb th lp i).position) (is - 1) ?_ ?_ i hi
    · have hs : (compAt rt np p is nt lb th lp (is - 1)).MA_sum
          = (compAt rt' np' p is nt' lb th lp (is - 1)).MA_sum := by
        rw [compAt_succ _ _ _ _ _ _ _ _ _ le_rfl, compAt_succ _ _ _ _ _ _ _ _ _ le_rfl,
          compBar_MA_sum, compBar_MA_sum, if_pos rfl, if_pos rfl]
      refine ⟨hs, ?_⟩
      rw [compAt_succ _ _ _ _ _ _ _ _ _ le_rfl, compAt_succ rt' _ _ _ _ _ _ _ _ le_rfl] at hs ⊢
      rw [compBar_position, compBar_position, compBar_MA_mean, compBar_MA_mean, hs,
        compAt_before _ _ _ _ _ _ _ _ _ (by omega), compAt_before _ _ _ _ _ _ _ _ _ (by omega)]
    · intro i hi ih
      have hs : (compAt rt np p is nt lb th lp (i + 1)).MA_sum
          = (compAt rt' np' p is nt' lb th lp (i + 1)).MA_sum := by
        rw [compAt_succ _ _ _ _ _ _ _ _ _ (by omega), compAt_succ rt' _ _ _ _ _ _ _ _ (by omega),
          compBar_MA_sum, compBar_MA_sum, add_sub_cancel_right, ih.1]
      refine ⟨hs, ?_⟩
      rw [compAt_succ _ _ _ _ _ _ _ _ _ (by omega),
        compAt_succ rt' _ _ _ _ _ _ _ _ (by omega)] at hs ⊢
      rw [compBar_position, compBar_position, compBar_MA_mean, compBar_MA_mean, hs,
        add_sub_cancel_right, ih.2]
  · rw [compAt_before _ _ _ _ _ _ _ _ _ (by omega), compAt_before _ _ _ _ _ _ _ _ _ (by omega)]
    exact ⟨rfl, rfl⟩

theorem compAt_position_eq (rt rt' np np' : ℤ) (p : ℤ → ℚ) (is nt nt' lb : ℤ) (th : ℚ)
    (lp i : ℤ) :
    (compAt rt np p is nt lb th lp i).position
      = (compAt rt' np' p is nt' lb th lp i).position :=
  (compAt_core rt rt' np np' p is nt nt' lb th lp i).2

theorem compAt_ret_eq (rt rt' np np' : ℤ) (p : ℤ → ℚ) (is nt nt' lb : ℤ) (th : ℚ)
    (lp i : ℤ) :
    (compAt rt np p is nt lb th lp i).ret = (compAt rt' np' p is nt' lb th lp i).ret := by
  by_cases hi : is - 1 ≤ i
  · rw [compAt_ret _ _ _ _ _ _ _ _ _ hi, compAt_ret rt' _ _ _ _ _ _ _ _ hi,
      compAt_position_eq rt rt' np np' p is nt nt']
  · rw [compAt_before _ _ _ _ _ _ _ _ _ (by omega), compAt_before _ _ _ _ _ _ _ _ _ (by omega)]

theorem compAt_prior_eq (rt rt' np np' : ℤ) (p : ℤ → ℚ) (is nt nt' lb : ℤ) (th : ℚ)
    (lp i : ℤ) :
    (compAt rt np p is nt lb th lp i).prior_position
      = (compAt rt' np' p is nt' lb th lp i).prior_position := by
  by_cases hi : is - 1 ≤ i
  · rw [compAt_prior_position _ _ _ _ _ _ _ _ _ hi, compAt_prior_position rt' _ _ _ _ _ _ _ _ hi,
      compAt_position_eq rt rt' np np' p is nt nt']
  · rw [compAt_before _ _ _ _ _ _ _ _ _ (by omega), compAt_before _ _ _ _ _ _ _ _ _ (by omega)]

/-! ## Output of comp_return for ret_type 0 and 1 -/

theorem compAt_step (rt np : ℤ) (p : ℤ → ℚ) (is nt lb : ℤ) (th : ℚ) (lp : ℤ) (m : ℕ) :
    compAt rt np p is nt lb th lp (is - 1 + m)
      = compBar rt np p is nt lb th (is - 1 + m) (compAt rt np p is nt lb th lp (is - 2 + m)) := by
  have e2 : is - 1 + (m : ℤ) - 1 = is - 2 + (m : ℤ) := by ring
  rw [compAt_succ _ _ _ _ _ _ _ _ _ (by omega), e2]

theorem compAt_returns_all (np : ℤ) (p : ℤ → ℚ) (is nt lb : ℤ) (th : ℚ) (lp : ℤ) (m : ℕ) :
    (compAt 0 np p is nt lb th lp (is - 2 + m)).returns
      = (List.range m).map (fun k : ℕ => (compAt 0 np p is nt lb th lp (is - 1 + k)).ret) := by
  induction m with
  | zero =>
    rw [compAt_before _ _ _ _ _ _ _ _ _ (by simp)]
    rfl
  | succ m ih =>
    have e : is - 2 + ((m + 1 : ℕ) : ℤ) = is - 1 + (m : ℤ) := by push_cast; ring
    rw [e, compAt_step, compBar_returns_all, ← compAt_step, ih, List.range_succ,
      List.map_append]
    rfl

theorem compAt_returns_pos (np : ℤ) (p : ℤ → ℚ) (is nt lb : ℤ) (th : ℚ) (lp : ℤ) (m : ℕ) :
    (compAt 1 np p is nt lb th lp (is - 2 + m)).returns
      = ((List.range m).filter
          (fun k : ℕ => decide ((compAt 0 np p is nt lb th lp (is - 1 + k)).position ≠ 0))).map
          (fun k : ℕ => (compAt 0 np p is nt lb th lp (is - 1 + k)).ret) := by
  induction m with
  | zero =>
    rw [compAt_before _ _ _ _ _ _ _ _ _ (by simp)]
    rfl
  | succ m ih =>
    have e : is - 2 + ((m + 1 : ℕ) : ℤ) = is - 1 + (m : ℤ) := by push_cast; ring
    have hp := compAt_position_eq 1 0 np np p is nt nt lb th lp (is - 1 + m)
    have hr := compAt_ret_eq 1 0 np np p is nt nt lb th lp (is - 1 + m)
    rw [e, compAt_step, compBar_returns_pos, ← compAt_step, ih, hp, hr,
      List.range_succ, List.filter_append, List.map_append]
    by_cases hc : (compAt 0 np p is nt lb th lp (is - 1 + m)).position ≠ 0
    · rw [if_pos hc]
      simp [List.filter, hc]
    · rw [if_neg hc]
      simp [List.filter, hc]

theorem sum_map_filter_of_zero {α : Type} (l : List α) (f : α → ℚ) (P : α → Bool)
    (h : ∀ x, P x = false → f x = 0) : ((l.filter P).map f).sum = (l.map f).sum := by
  induction l with
  | nil => rfl
  | cons a l ih =>
    cases hP : P a with
    | true => simp [List.filter, hP, ih]
    | false => simp [List.filter, hP, ih, h a hP]

/-! ## Completed trades against position bars -/

theorem compBar_returns_trades (np : ℤ) (p : ℤ → ℚ) (is nt lb : ℤ) (th : ℚ) (i : ℤ)
    (s : CompState) :
    (compBar 2 np p is nt lb th i s).returns
      = if (compBar 2 np p is nt lb th i s).position ≠ 0 ∧ ¬ s.prior_position ≠ 0 then
          s.returns
        else if s.prior_position ≠ 0 ∧ ¬ (compBar 2 np p is nt lb th i s).position ≠ 0 then
          s.returns ++ [p i - s.open_price]
        else if (compBar 2 np p is nt lb th i s).position ≠ 0 ∧ i = is - 2 + nt then
          s.returns ++ [p (i + 1) - s.open_price]
        else s.returns := by
  have h20 : ¬ ((2 : ℤ) = 0) := by decide
  have h21 : ¬ ((2 : ℤ) = 1) := by decide
  simp only [compBar, h20, h21, if_false, if_true, apply_ite CompState.position,
    apply_ite CompState.returns, ite_self]

theorem compBar_open_price (np : ℤ) (p : ℤ → ℚ) (is nt lb : ℤ) (th : ℚ) (i : ℤ)
    (s : CompState) :
    (compBar 2 np p is nt lb th i s).open_price
      = if (compBar 2 np p is nt lb th i s).position ≠ 0 ∧ ¬ s.prior_position ≠ 0 then p i
        else s.open_price := by
  have h20 : ¬ ((2 : ℤ) = 0) := by decide
  have h21 : ¬ ((2 : ℤ) = 1) := by decide
  simp only [compBar, h20, h21, if_false, if_true, apply_ite CompState.position,
    apply_ite CompState.open_price, ite_self]

/-- Before the final bar of the window, the completed-trade total plus the open position
marked to the next price equals the position-bar total. -/
theorem recon_inv (np : ℤ) (p : ℤ → ℚ) (is nt lb : ℤ) (th : ℚ) (lp i : ℤ) (h1 : is - 2 ≤ i)
    (h2 : i < is - 2 + nt) :
    (compAt 2 np p is nt lb th lp i).returns.sum
      + (if (compAt 2 np p is nt lb th lp i).prior_position ≠ 0 then
          p (i + 1) - (compAt 2 np p is nt lb th lp i).open_price else 0)
      = (compAt 1 np p is nt lb th lp i).returns.sum := by
  refine int_ge_induction (fun i => i < is - 2 + nt →
    (compAt 2 np p is nt lb th lp i).returns.sum
      + (if (compAt 2 np p is nt lb th lp i).prior_position ≠ 0 then
          p (i + 1) - (compAt 2 np p is nt lb th lp i).open_price else 0)
      = (compAt 1 np p is nt lb th lp i).returns.sum) (is - 2) ?_ ?_ i h1 h2
  · intro _
    rw [compAt_before _ _ _ _ _ _ _ _ _ (by omega), compAt_before _ _ _ _ _ _ _ _ _ (by omega)]
    simp [compInit]
  · intro i hi ih hlt
    have ih := ih (by omega)
    have hge : is - 1 ≤ i + 1 := by omega
    have hpos := compAt_position_eq 1 2 np np p is nt nt lb th lp (i + 1)
    have hret := compAt_ret 1 np p is nt lb th lp (i + 1) hge
    have hprior := compAt_prior_position 2 np p is nt lb th lp (i + 1) hge
    have hne : ¬ (i + 1 = is - 2 + nt) := by omega
    have e1 := compAt_succ 1 np p is nt lb th lp (i + 1) hge
    have e2 := compAt_succ 2 np p is nt lb th lp (i + 1) hge
    rw [add_sub_cancel_right] at e1 e2
    have hR1 := compBar_returns_pos np p is nt lb th (i + 1) (compAt 1 np p is nt lb th lp i)
    have hR2 := compBar_returns_trades np p is nt lb th (i + 1) (compAt 2 np p is nt lb th lp i)
    have hO2 := compBar_open_price np p is nt lb th (i + 1) (compAt 2 np p is nt lb th lp i)
    rw [← e1] at hR1
    rw [← e2] at hR2 hO2
    rw [hR1, hR2, hO2, hprior, hret, hpos]
    by_cases hp : (compAt 2 np p is nt lb th lp (i + 1)).position ≠ 0
    · by_cases hq : (compAt 2 np p is nt lb th lp i).prior_position ≠ 0
      · simp only [hp, hq, hne, not_true_eq_false, and_false, and_true, if_false, if_true,
          List.sum_append, List.sum_cons, List.sum_nil, ne_eq, not_false_eq_true] at ih ⊢
        linarith
      · simp only [hp, hq, hne, not_true_eq_false, and_false, and_true, if_false, if_true,
          List.sum_append, List.sum_cons, List.sum_nil, ne_eq, not_false_eq_true, and_self] at ih ⊢
        linarith
    · by_cases hq : (compAt 2 np p is nt lb th lp i).prior_position ≠ 0
      · simp only [hp, hq, hne, not_true_eq_false, and_false, and_true, if_false, if_true,
          List.sum_append, List.sum_cons, List.sum_nil, ne_eq, not_false_eq_true, and_self,
          false_and] at ih ⊢
        linarith
      · simp only [hp, hq, hne, not_true_eq_false, and_false, and_true, if_false, if_true,
          List.sum_append, List.sum_cons, List.sum_nil, ne_eq, not_false_eq_true, and_self,
          false_and] at ih ⊢
        linarith

/-- At the final bar `f = istart-2+ntest` of a non-empty window the position-bar total
exceeds the completed-trade total by `prices[f+1] - prices[f]` when the position was opened
at bar `f` itself, and the two totals are equal otherwise. -/
theorem recon_final (np : ℤ) (p : ℤ → ℚ) (is nt lb : ℤ) (th : ℚ) (lp : ℤ) (hnt : 1 ≤ nt) :
    (comp_return 1 np p is nt lb th lp).sum - (comp_return 2 np p is nt lb th lp).sum
      = if (compAt 2 np p is nt lb th lp (is - 2 + nt)).position ≠ 0 ∧
            ¬ (compAt 2 np p is nt lb th lp (is - 2 + nt - 1)).prior_position ≠ 0 then
          p (is - 2 + nt + 1) - p (is - 2 + nt)
        else 0 := by
  have hge : is - 1 ≤ is - 2 + nt := by omega
  have ih := recon_inv np p is nt lb th lp (is - 2 + nt - 1) (by omega) (by omega)
  rw [sub_add_cancel] at ih
  have hpos := compAt_position_eq 1 2 np np p is nt nt lb th lp (is - 2 + nt)
  have hret := compAt_ret 1 np p is nt lb th lp (is - 2 + nt) hge
  have e1 := compAt_succ 1 np p is nt lb th lp (is - 2 + nt) hge
  have e2 := compAt_succ 2 np p is nt lb th lp (is - 2 + nt) hge
  have hR1 := compBar_returns_pos np p is nt lb th (is - 2 + nt)
    (compAt 1 np p is nt lb th lp (is - 2 + nt - 1))
  have hR2 := compBar_returns_trades np p is nt lb th (is - 2 + nt)
    (compAt 2 np p is nt lb th lp (is - 2 + nt - 1))
  rw [← e1] at hR1
  rw [← e2] at hR2
  rw [comp_return, comp_return, compScan_eq_compAt, compScan_eq_compAt, hR1, hR2, hret, hpos]
  by_cases hp : (compAt 2 np p is nt lb th lp (is - 2 + nt)).position ≠ 0
  · by_cases hq : (compAt 2 np p is nt lb th lp (is - 2 + nt - 1)).prior_position ≠ 0
    · simp only [hp, hq, not_true_eq_false, and_false, and_true, if_false, if_true,
        List.sum_append, List.sum_cons, List.sum_nil, ne_eq, not_false_eq_true] at ih ⊢
      linarith
    · simp only [hp, hq, not_true_eq_false, and_false, and_true, if_false, if_true,
        List.sum_append, List.sum_cons, List.sum_nil, ne_eq, not_false_eq_true, and_self] at ih ⊢
      linarith
  · by_cases hq : (compAt 2 np p is nt lb th lp (is - 2 + nt - 1)).prior_position ≠ 0
    · simp only [hp, hq, not_true_eq_false, and_false, and_true, if_false, if_true,
        List.sum_append, List.sum_cons, List.sum_nil, ne_eq, not_false_eq_true, and_self,
        false_and] at ih ⊢
      linarith
    · simp only [hp, hq, not_true_eq_false, and_false, and_true, if_false, if_true,
        List.sum_append, List.sum_cons, List.sum_nil, ne_eq, not_false_eq_true, and_self,
        false_and] at ih ⊢
      linarith

theorem comp_return_empty (rt np : ℤ) (p : ℤ → ℚ) (is nt lb : ℤ) (th : ℚ) (lp : ℤ)
    (h : nt ≤ 0) : comp_return rt np p is nt lb th lp = [] := by
  rw [comp_return, compScan_eq_compAt, compAt_before _ _ _ _ _ _ _ _ _ (by omega)]
  rfl

/-! ## Claims on the scans -/

/-- C6. Incremental moving average equals the fresh sum. In the trial scan of `opt_params`,
for `2 ≤ ilook ≤ max_lookback` and a decision bar `max_lookback-1 ≤ i ≤ nprices-2`, the scan
passes through the locals of bar `i`, where `MA_sum` is the sum of `prices[i-ilook+1 .. i]`
and `MA_mean` their mean; in `comp_return`, for `1 ≤ lookback ≤ istart` and a decision bar
`istart-1 ≤ i' ≤ istart-2+ntest`, likewise with `lookback`. -/
theorem ma_incremental_eq_fresh (all_bars nprices : ℤ) (prices : ℤ → ℚ)
    (max_lookback ilook ithresh i : ℤ) (ret_type nprices' istart ntest lookback : ℤ)
    (thresh : ℚ) (last_pos i' : ℤ)
    (h1 : 2 ≤ ilook) (_h2 : ilook ≤ max_lookback) (h3 : max_lookback - 1 ≤ i)
    (h4 : i ≤ nprices - 2)
    (g1 : 1 ≤ lookback) (_g2 : lookback ≤ istart) (g3 : istart - 1 ≤ i')
    (g4 : i' ≤ istart - 2 + ntest) :
    (optScan all_bars nprices prices max_lookback ilook ithresh
        = forUp (optBar all_bars prices max_lookback ilook ithresh) (i + 1) (nprices - 1)
            (optAt all_bars prices max_lookback ilook ithresh i) ∧
      (optAt all_bars prices max_lookback ilook ithresh i).MA_sum = windowSum prices i ilook ∧
      (optAt all_bars prices max_lookback ilook ithresh i).MA_mean
        = windowMean prices i ilook) ∧
    (compScan ret_type nprices' prices istart ntest lookback thresh last_pos
        = forUp (compBar ret_type nprices' prices istart ntest lookback thresh) (i' + 1)
            (istart - 1 + ntest)
            (compAt ret_type nprices' prices istart ntest lookback thresh last_pos i') ∧
      (compAt ret_type nprices' prices istart ntest lookback thresh last_pos i').MA_sum
        = windowSum prices i' lookback ∧
      (compAt ret_type nprices' prices istart ntest lookback thresh last_pos i').MA_mean
        = windowMean prices i' lookback) :=
  ⟨⟨optScan_through _ _ _ _ _ _ _ h3 h4, optAt_MA_sum _ _ _ _ _ _ (by omega) h3,
      optAt_MA_mean _ _ _ _ _ _ (by omega) h3⟩,
    ⟨compScan_through _ _ _ _ _ _ _ _ _ g3 g4,
      compAt_MA_sum _ _ _ _ _ _ _ _ _ (by omega) g3,
      compAt_MA_mean _ _ _ _ _ _ _ _ _ (by omega) g3⟩⟩

/-- Witness of C6 on the prices 1..8 with lookbacks 3 and 2. -/
theorem ma_incremental_eq_fresh_witness :
    (optAt 0 (ofList [1, 2, 3, 4, 5, 6, 7, 8]) 3 3 1 4).MA_sum
        = windowSum (ofList [1, 2, 3, 4, 5, 6, 7, 8]) 4 3 ∧
      (compAt 0 8 (ofList [1, 2, 3, 4, 5, 6, 7, 8]) 5 3 2 (1 / 100) 0 6).MA_sum
        = windowSum (ofList [1, 2, 3, 4, 5, 6, 7, 8]) 6 2 :=
  have h := ma_incremental_eq_fresh 0 8 (ofList [1, 2, 3, 4, 5, 6, 7, 8]) 3 3 1 4 0 8 5 3 2
    (1 / 100) 0 6 (by decide) (by decide) (by decide) (by decide) (by decide) (by decide)
    (by decide) (by decide)
  ⟨h.1.2.1, h.2.2.1⟩

/-- C3, amended. Decision rule and bar return, in exact arithmetic. At a decision bar `i` of
the trial scan of `opt_params` (threshold `1 + 0.01*ithresh`) and at a decision bar `i'` of
`comp_return` (threshold `1 + thresh`), with `m` the mean of the `lookback` prices ending at
the bar: the position after the bar is 1 (Long) if `p > t*m`, otherwise 0 (Flat) if `p < m`,
otherwise the position before the bar; the bar return is `p_{i+1} - p_i` when the position
after the bar is Long and 0 when it is Flat. (In doubles the program compares with its
rounded running mean and can decide differently near a tie.) -/
theorem decision_rule (all_bars : ℤ) (prices : ℤ → ℚ) (max_lookback ilook ithresh i : ℤ)
    (ret_type nprices istart ntest lookback : ℤ) (thresh : ℚ) (last_pos i' : ℤ)
    (h1 : 2 ≤ ilook) (h3 : max_lookback - 1 ≤ i)
    (g1 : 1 ≤ lookback) (g3 : istart - 1 ≤ i') :
    ((optAt all_bars prices max_lookback ilook ithresh i).position
        = (if prices i > (1 + (1 / 100) * (ithresh : ℚ)) * windowMean prices i ilook then 1
           else if prices i < windowMean prices i ilook then 0
           else (optAt all_bars prices max_lookback ilook ithresh (i - 1)).position) ∧
      (optAt all_bars prices max_lookback ilook ithresh i).ret
        = (if (optAt all_bars prices max_lookback ilook ithresh i).position ≠ 0 then
            prices (i + 1) - prices i else 0)) ∧
    ((compAt ret_type nprices prices istart ntest lookback thresh last_pos i').position
        = (if prices i' > (1 + thresh) * windowMean prices i' lookback then 1
           else if prices i' < windowMean prices i' lookback then 0
           else (compAt ret_type nprices prices istart ntest lookback thresh last_pos
              (i' - 1)).position) ∧
      (compAt ret_type nprices prices istart ntest lookback thresh last_pos i').ret
        = (if (compAt ret_type nprices prices istart ntest lookback thresh last_pos
              i').position ≠ 0 then
            prices (i' + 1) - prices i' else 0)) :=
  ⟨⟨optAt_position _ _ _ _ _ _ (by omega) h3, optAt_ret _ _ _ _ _ _ h3⟩,
    ⟨compAt_position _ _ _ _ _ _ _ _ _ (by omega) g3, compAt_ret _ _ _ _ _ _ _ _ _ g3⟩⟩

/-- Witness of the amended C3 on the prices 1..8. -/
theorem decision_rule_witness :
    (optAt 0 (ofList [1, 2, 3, 4, 5, 6, 7, 8]) 3 3 1 4).ret
        = (if (optAt 0 (ofList [1, 2, 3, 4, 5, 6, 7, 8]) 3 3 1 4).position ≠ 0 then
            ofList [1, 2, 3, 4, 5, 6, 7, 8] (4 + 1) - ofList [1, 2, 3, 4, 5, 6, 7, 8] 4
           else 0) ∧
      (compAt 0 8 (ofList [1, 2, 3, 4, 5, 6, 7, 8]) 5 3 2 (1 / 100) 0 6).ret
        = (if (compAt 0 8 (ofList [1, 2, 3, 4, 5, 6, 7, 8]) 5 3 2 (1 / 100) 0 6).position ≠ 0
           then ofList [1, 2, 3, 4, 5, 6, 7, 8] (6 + 1) - ofList [1, 2, 3, 4, 5, 6, 7, 8] 6
           else 0) :=
  have h := decision_rule 0 (ofList [1, 2, 3, 4, 5, 6, 7, 8]) 3 3 1 4 0 8 5 3 2 (1 / 100) 0 6
    (by decide) (by decide) (by decide) (by decide)
  ⟨h.1.2, h.2.2⟩

/-- C4. No look-ahead in the decision. If two price arrays agree on all indices `≤ i`, then
for lookbacks `ilook ≥ 2` (trial scan of `opt_params`) and `lookback ≥ 1` (`comp_return`),
every threshold and every seed position, the position after the decision at bar `i` is the
same for both arrays; the realized return of bar `i` is the same as soon as the arrays also
agree at index `i+1`. -/
theorem no_lookahead (all_bars : ℤ) (p q : ℤ → ℚ) (max_lookback ilook ithresh i : ℤ)
    (ret_type nprices istart ntest lookback : ℤ) (thresh : ℚ) (last_pos : ℤ)
    (h1 : 2 ≤ ilook) (g1 : 1 ≤ lookback) (hagree : ∀ j, j ≤ i → p j = q j) :
    ((optAt all_bars p max_lookback ilook ithresh i).position
        = (optAt all_bars q max_lookback ilook ithresh i).position ∧
      (p (i + 1) = q (i + 1) →
        (optAt all_bars p max_lookback ilook ithresh i).ret
          = (optAt all_bars q max_lookback ilook ithresh i).ret)) ∧
    ((compAt ret_type nprices p istart ntest lookback thresh last_pos i).position
        = (compAt ret_type nprices q istart ntest lookback thresh last_pos i).position ∧
      (p (i + 1) = q (i + 1) →
        (compAt ret_type nprices p istart ntest lookback thresh last_pos i).ret
          = (compAt ret_type nprices q istart ntest lookback thresh last_pos i).ret)) := by
  have ho := optAt_position_congr all_bars p q max_lookback ilook ithresh i (by omega) hagree
  have hc := compAt_position_congr ret_type nprices p q istart ntest lookback thresh last_pos i
    (by omega) hagree
  refine ⟨⟨ho, fun hn => ?_⟩, ⟨hc, fun hn => ?_⟩⟩
  · by_cases hi : max_lookback - 1 ≤ i
    · rw [optAt_ret _ _ _ _ _ _ hi, optAt_ret _ q _ _ _ _ hi, ho, hn, hagree i le_rfl]
    · rw [optAt_before _ _ _ _ _ _ (by omega), optAt_before _ _ _ _ _ _ (by omega)]
  · by_cases hi : istart - 1 ≤ i
    · rw [compAt_ret _ _ _ _ _ _ _ _ _ hi, compAt_ret _ _ q _ _ _ _ _ _ hi, hc, hn,
        hagree i le_rfl]
    · rw [compAt_before _ _ _ _ _ _ _ _ _ (by omega),
        compAt_before _ _ _ _ _ _ _ _ _ (by omega)]

/-- Witness of C4: the prices 1..8 against the same prices cut off after bar 4. -/
theorem no_lookahead_witness :
    (optAt 0 (ofList [1, 2, 3, 4, 5, 6, 7, 8]) 3 3 1 4).position
        = (optAt 0 (fun j => if j ≤ 4 then ofList [1, 2, 3, 4, 5, 6, 7, 8] j else 0)
            3 3 1 4).position ∧
      (compAt 0 8 (ofList [1, 2, 3, 4, 5, 6, 7, 8]) 4 3 2 (1 / 100) 0 4).position
        = (compAt 0 8 (fun j => if j ≤ 4 then ofList [1, 2, 3, 4, 5, 6, 7, 8] j else 0)
            4 3 2 (1 / 100) 0 4).position :=
  have h := no_lookahead 0 (ofList [1, 2, 3, 4, 5, 6, 7, 8])
    (fun j => if j ≤ 4 then ofList [1, 2, 3, 4, 5, 6, 7, 8] j else 0) 3 3 1 4 0 8 4 3 2
    (1 / 100) 0 (by decide) (by decide) (fun j hj => (if_pos hj).symm)
  ⟨h.1.1, h.2.1⟩

/-- C7. All-bars and position-bars accounting. For `ntest ≥ 0`, `comp_return` with
`ret_type = 0` outputs exactly `ntest` returns, the `k`-th being the bar return of decision
bar `istart-1+k`, which is `prices[i+1] - prices[i]` when the position is Long and 0 when it
is Flat; with `ret_type = 1`, on the same input, it outputs the subsequence of those returns
at the bars where the position is Long, in the same order, so the number of returns is the
number of Long bars, and the two outputs have equal sums. -/
theorem all_bars_and_position_bars (nprices : ℤ) (prices : ℤ → ℚ) (istart ntest lookback : ℤ)
    (thresh : ℚ) (last_pos : ℤ) (hnt : 0 ≤ ntest) :
    comp_return 0 nprices prices istart ntest lookback thresh last_pos
        = (List.range ntest.toNat).map (fun k : ℕ =>
            (compAt 0 nprices prices istart ntest lookback thresh last_pos (istart - 1 + k)).ret) ∧
    ((comp_return 0 nprices prices istart ntest lookback thresh last_pos).length : ℤ) = ntest ∧
    (∀ k : ℕ,
      (compAt 0 nprices prices istart ntest lookback thresh last_pos (istart - 1 + k)).ret
        = if (compAt 0 nprices prices istart ntest lookback thresh last_pos
              (istart - 1 + k)).position ≠ 0
          then prices (istart - 1 + k + 1) - prices (istart - 1 + k) else 0) ∧
    comp_return 1 nprices prices istart ntest lookback thresh last_pos
        = ((List.range ntest.toNat).filter (fun k : ℕ => decide
            ((compAt 0 nprices prices istart ntest lookback thresh last_pos
              (istart - 1 + k)).position ≠ 0))).map (fun k : ℕ =>
            (compAt 0 nprices prices istart ntest lookback thresh last_pos (istart - 1 + k)).ret) ∧
    (comp_return 1 nprices prices istart ntest lookback thresh last_pos).length
        = (List.range ntest.toNat).countP (fun k : ℕ => decide
            ((compAt 0 nprices prices istart ntest lookback thresh last_pos
              (istart - 1 + k)).position ≠ 0)) ∧
    (comp_return 1 nprices prices istart ntest lookback thresh last_pos).sum
        = (comp_return 0 nprices prices istart ntest lookback thresh last_pos).sum := by
  have e : istart - 2 + ntest = istart - 2 + ((ntest.toNat : ℕ) : ℤ) := by
    rw [Int.toNat_of_nonneg hnt]
  have h0 : comp_return 0 nprices prices istart ntest lookback thresh last_pos
      = (List.range ntest.toNat).map (fun k : ℕ =>
          (compAt 0 nprices prices istart ntest lookback thresh last_pos (istart - 1 + k)).ret) := by
    rw [comp_return, compScan_eq_compAt, e, compAt_returns_all]
  have h1 : comp_return 1 nprices prices istart ntest lookback thresh last_pos
      = ((List.range ntest.toNat).filter (fun k : ℕ => decide
          ((compAt 0 nprices prices istart ntest lookback thresh last_pos
            (istart - 1 + k)).position ≠ 0))).map (fun k : ℕ =>
          (compAt 0 nprices prices istart ntest lookback thresh last_pos (istart - 1 + k)).ret) := by
    rw [comp_return, compScan_eq_compAt, e, compAt_returns_pos]
  have hret : ∀ k : ℕ,
      (compAt 0 nprices prices istart ntest lookback thresh last_pos (istart - 1 + k)).ret
        = if (compAt 0 nprices prices istart ntest lookback thresh last_pos
              (istart - 1 + k)).position ≠ 0
          then prices (istart - 1 + k + 1) - prices (istart - 1 + k) else 0 :=
    fun k => compAt_ret _ _ _ _ _ _ _ _ _ (by omega)
  refine ⟨h0, ?_, hret, h1, ?_, ?_⟩
  · rw [h0, List.length_map, List.length_range, Int.toNat_of_nonneg hnt]
  · rw [h1, List.length_map, List.countP_eq_length_filter]
  · rw [h1, h0]
    apply sum_map_filter_of_zero
    intro k hk
    rw [hret k, if_neg]
    simpa using hk

/-- Witness of C7: prices 10,10,10,10,12,13,9,9 with a three-bar test window. -/
theorem all_bars_and_position_bars_witness :
    (comp_return 1 8 (ofList [10, 10, 10, 10, 12, 13, 9, 9]) 4 3 2 (1 / 100) 0).sum
      = (comp_return 0 8 (ofList [10, 10, 10, 10, 12, 13, 9, 9]) 4 3 2 (1 / 100) 0).sum :=
  (all_bars_and_position_bars 8 (ofList [10, 10, 10, 10, 12, 13, 9, 9]) 4 3 2 (1 / 100) 0
    (by decide)).2.2.2.2.2

/-- C8. Reconciliation when the window ends Flat. If the seed position is Flat and the
position after the final decision bar is Flat, the returns output with `ret_type = 2`
(completed trades) and with `ret_type = 1` (position bars) have the same sum. -/
theorem reconciliation_flat (nprices : ℤ) (prices : ℤ → ℚ) (istart ntest lookback : ℤ)
    (thresh : ℚ) (last_pos : ℤ) (_hseed : last_pos = 0)
    (hend : (compScan 2 nprices prices istart ntest lookback thresh last_pos).position = 0) :
    (comp_return 2 nprices prices istart ntest lookback thresh last_pos).sum
      = (comp_return 1 nprices prices istart ntest lookback thresh last_pos).sum := by
  by_cases hnt : 1 ≤ ntest
  · have h := recon_final nprices prices istart ntest lookback thresh last_pos hnt
    rw [compScan_eq_compAt] at hend
    rw [if_neg (by simp [hend])] at h
    linarith
  · rw [comp_return_empty _ _ _ _ _ _ _ _ (by omega), comp_return_empty _ _ _ _ _ _ _ _ (by omega)]

/-- Witness of C8: prices 10,10,10,10,12,13,9,9, one trade opened at bar 4 and closed at
bar 6, the last bar of a four-bar window. -/
theorem reconciliation_flat_witness :
    (comp_return 2 8 (ofList [10, 10, 10, 10, 12, 13, 9, 9]) 4 4 2 (1 / 100) 0).sum
      = (comp_return 1 8 (ofList [10, 10, 10, 10, 12, 13, 9, 9]) 4 4 2 (1 / 100) 0).sum :=
  reconciliation_flat 8 (ofList [10, 10, 10, 10, 12, 13, 9, 9]) 4 4 2 (1 / 100) 0 rfl
    (by decide!)

/-- C9, the code at the failing input. Prices 10,10,10,10,12,13 and the window of the two
decision bars 3 and 4 (`istart = 4`, `ntest = 2`), seed Flat: the position is opened at the
final bar 4 and is Long after it, every assertion holds, and `comp_return` with
`ret_type = 2` emits no return at all, while with `ret_type = 1` it emits the return
`prices[5] - prices[4] = 1` of that bar. -/
theorem forced_close_skips_position_opened_at_final_bar :
    (compScan 2 6 (ofList [10, 10, 10, 10, 12, 13]) 4 2 2 (1 / 100) 0).position = 1 ∧
    (compScan 2 6 (ofList [10, 10, 10, 10, 12, 13]) 4 2 2 (1 / 100) 0).asserts_ok = true ∧
    comp_return 2 6 (ofList [10, 10, 10, 10, 12, 13]) 4 2 2 (1 / 100) 0 = [] ∧
    comp_return 1 6 (ofList [10, 10, 10, 10, 12, 13]) 4 2 2 (1 / 100) 0 = [1] := by
  decide!

/-! ## The grid search of opt_params -/

theorem optKeep_eq (wc : ℤ) (sqrt : ℚ → ℚ) (il it : ℤ) (s : OptState) (b : Best)
    (hc : wc = 0 ∨ wc = 1 ∨ wc = 2) :
    optKeep wc sqrt il it s b
      = if optScore wc sqrt s > b.best_perf then
          { best_perf := optScore wc sqrt s, arg := some (il, it, s.position) }
        else b := by
  rcases hc with rfl | rfl | rfl
  · simp only [optKeep, optScore, if_true]
  · have h10 : ¬ ((1 : ℤ) = 0) := by decide
    have h12 : ¬ ((1 : ℤ) = 2) := by decide
    simp only [optKeep, optScore, h10, h12, if_false, if_true, true_and]
  · have h20 : ¬ ((2 : ℤ) = 0) := by decide
    have h21 : ¬ ((2 : ℤ) = 1) := by decide
    simp only [optKeep, optScore, h20, h21, if_false, if_true, false_and]

theorem BestInv_of_iff (score : ℤ → ℤ → ℚ) (pos : ℤ → ℤ → ℤ) (ml L T L' T' : ℤ) (b : Best)
    (h : ∀ l t, Before ml L T l t ↔ Before ml L' T' l t) (hb : BestInv score pos ml L T b) :
    BestInv score pos ml L' T' b := by
  obtain ⟨h1, h2, h3, h4⟩ := hb
  refine ⟨h1, fun l t hlt => h2 l t ((h l t).2 hlt), h3, fun l t z hz => ?_⟩
  obtain ⟨k1, k2⟩ := h4 l t z hz
  exact ⟨(h l t).1 k1, k2⟩

theorem BestInv_step (score : ℤ → ℤ → ℚ) (pos : ℤ → ℤ → ℤ) (ml L T : ℤ) (b : Best)
    (hL : 2 ≤ L) (hL' : L ≤ ml) (hT : 1 ≤ T) (hT' : T ≤ 10)
    (hb : BestInv score pos ml L T b) :
    BestInv score pos ml L (T + 1)
      (if score L T > b.best_perf then
        { best_perf := score L T, arg := some (L, T, pos L T) } else b) := by
  obtain ⟨h1, h2, h3, h4⟩ := hb
  have hcase : ∀ l t, Before ml L (T + 1) l t → Before ml L T l t ∨ (l = L ∧ t = T) := by
    intro l t h
    unfold Before at h ⊢
    omega
  have hmono : ∀ l t, Before ml L T l t → Before ml L (T + 1) l t := by
    intro l t h
    unfold Before at h ⊢
    omega
  have hself : Before ml L (T + 1) L T := by
    unfold Before
    omega
  by_cases hgt : score L T > b.best_perf
  · rw [if_pos hgt]
    refine ⟨le_of_lt (lt_of_le_of_lt h1 hgt), ?_, ?_, ?_⟩
    · intro l t hlt
      rcases hcase l t hlt with hp | ⟨rfl, rfl⟩
      · exact le_of_lt (lt_of_le_of_lt (h2 l t hp) hgt)
      · exact le_rfl
    · intro hn
      cases hn
    · intro l t z hz
      simp only [Option.some.injEq, Prod.mk.injEq] at hz
      obtain ⟨rfl, rfl, rfl⟩ := hz
      exact ⟨hself, rfl, rfl, lt_of_le_of_lt h1 hgt,
        fun l' t' hp => lt_of_le_of_lt (h2 l' t' hp) hgt⟩
  · rw [if_neg hgt]
    refine ⟨h1, ?_, h3, ?_⟩
    · intro l t hlt
      rcases hcase l t hlt with hp | ⟨rfl, rfl⟩
      · exact h2 l t hp
      · exact not_lt.mp hgt
    · intro l t z hz
      obtain ⟨k1, k2⟩ := h4 l t z hz
      exact ⟨hmono l t k1, k2⟩

/-- The record after the two grid loops of `opt_params` satisfies `BestInv` for the whole
grid. -/
theorem grid_inv (wc ab np : ℤ) (sqrt : ℚ → ℚ) (p : ℤ → ℚ) (ml : ℤ)
    (hc : wc = 0 ∨ wc = 1 ∨ wc = 2) (hml : 2 ≤ ml) :
    BestInv (candScore wc ab np sqrt p ml) (fun l t => (optScan ab np p ml l t).position)
      ml (ml + 1) 1
      (forUp (fun ilook b =>
          forUp (fun ithresh b => optTrial wc ab np sqrt p ml ilook ithresh b) 1 (10 + 1) b)
        2 (ml + 1) { best_perf := -(10 ^ 60), arg := none }) := by
  refine forUp_inv
    (fun L b => BestInv (candScore wc ab np sqrt p ml)
      (fun l t => (optScan ab np p ml l t).position) ml L 1 b) _ 2 (ml + 1) _ (by omega) ?_ ?_
  · refine ⟨le_rfl, ?_, fun _ => rfl, ?_⟩
    · intro l t h
      unfold Before at h
      omega
    · intro l t z h
      cases h
  · intro L hL hL' b hb
    have hrow := forUp_inv
      (fun T b => BestInv (candScore wc ab np sqrt p ml)
        (fun l t => (optScan ab np p ml l t).position) ml L T b)
      (fun ithresh b => optTrial wc ab np sqrt p ml L ithresh b) 1 (10 + 1) b (by decide) hb
      (by
        intro T hT hT' b' hb'
        have := BestInv_step (candScore wc ab np sqrt p ml)
          (fun l t => (optScan ab np p ml l t).position) ml L T b' hL (by omega) hT
          (by omega) hb'
        simpa only [optTrial, optKeep_eq _ _ _ _ _ _ hc, candScore] using this)
    refine BestInv_of_iff _ _ ml L (10 + 1) (L + 1) 1 _ ?_ hrow
    intro l t
    unfold Before
    constructor <;> intro h <;> omega

/-! ## In-sample isolation -/

theorem optBar_congr (ab : ℤ) (p q : ℤ → ℚ) (ml il it i : ℤ) (s : OptState)
    (hi : p i = q i) (hi1 : p (i + 1) = q (i + 1))
    (hw : i = ml - 1 → windowSum p i il = windowSum q i il)
    (hb : i ≠ ml - 1 → p (i - il) = q (i - il)) :
    optBar ab p ml il it i s = optBar ab q ml il it i s := by
  by_cases h : i = ml - 1
  · simp only [optBar, forDown_sum, if_pos h, hw h, hi, hi1]
  · simp only [optBar, if_neg h, hb h, hi, hi1]

theorem optScan_congr (ab np : ℤ) (p q : ℤ → ℚ) (ml il it : ℤ) (h1 : 1 ≤ il) (h2 : il ≤ ml)
    (h : ∀ j, 0 ≤ j → j < np → p j = q j) :
    optScan ab np p ml il it = optScan ab np q ml il it := by
  unfold optScan
  apply forUp_congr
  intro i hlo hhi t
  apply optBar_congr
  · exact h i (by omega) (by omega)
  · exact h (i + 1) (by omega) (by omega)
  · intro _
    exact windowSum_congr p q i il (fun j hj1 hj2 => h j (by omega) (by omega))
  · intro hne
    exact h (i - il) (by omega) (by omega)

theorem opt_params_congr (wc ab np : ℤ) (sqrt : ℚ → ℚ) (p q : ℤ → ℚ) (ml : ℤ)
    (h : ∀ j, 0 ≤ j → j < np → p j = q j) :
    opt_params wc ab np sqrt p ml = opt_params wc ab np sqrt q ml := by
  have e : forUp (fun ilook b =>
        forUp (fun ithresh b => optTrial wc ab np sqrt p ml ilook ithresh b) 1 (10 + 1) b)
        2 (ml + 1) { best_perf := -(10 ^ 60), arg := none }
      = forUp (fun ilook b =>
        forUp (fun ithresh b => optTrial wc ab np sqrt q ml ilook ithresh b) 1 (10 + 1) b)
        2 (ml + 1) { best_perf := -(10 ^ 60), arg := none } := by
    apply forUp_congr
    intro il hlo hhi b
    apply forUp_congr
    intro it _ _ b'
    simp only [optTrial]
    rw [optScan_congr ab np p q ml il it (by omega) (by omega) h]
  unfold opt_params
  simp only [e]

/-- C5. In-sample isolation of the optimizer. If two price histories agree on the indices
`[train_start, train_start + n_train)`, the call
`opt_params(which_crit, all_bars, n_train, prices + train_start, max_lookback, ..)` of the
fold returns the same score, lookback, threshold and last position for both, and the fold
prints the same lookback, threshold and criterion, whatever the prices elsewhere are. -/
theorem in_sample_isolation (c : Config) (sqrt : ℚ → ℚ) (indet : ℤ × ℚ × ℤ) (nprices : ℤ)
    (p q : ℤ → ℚ) (s : WFState)
    (h : ∀ j, s.train_start ≤ j → j < s.train_start + c.n_train → p j = q j) :
    opt_params c.which_crit c.all_bars c.n_train sqrt (shift p s.train_start) c.max_lookback
      = opt_params c.which_crit c.all_bars c.n_train sqrt (shift q s.train_start)
          c.max_lookback ∧
    (foldBody c sqrt indet nprices p s).log.map (fun f => (f.lookback, f.thresh, f.crit))
      = (foldBody c sqrt indet nprices q s).log.map (fun f => (f.lookback, f.thresh, f.crit)) := by
  have e := opt_params_congr c.which_crit c.all_bars c.n_train sqrt (shift p s.train_start)
    (shift q s.train_start) c.max_lookback
    (fun j h0 h1 => h (s.train_start + j) (by omega) (by omega))
  refine ⟨e, ?_⟩
  simp only [foldBody, e, List.map_append, List.map_cons, List.map_nil]

/-- Witness of C5: prices 1..8 against the same prices with everything from index 4 on
replaced, training window `[0, 4)`. -/
theorem in_sample_isolation_witness :
    opt_params 0 0 4 noSqrt (shift (ofList [1, 2, 3, 4, 5, 6, 7, 8]) 0) 2
      = opt_params 0 0 4 noSqrt
          (shift (fun j => if j < 0 + 4 then ofList [1, 2, 3, 4, 5, 6, 7, 8] j else 0) 0) 2 :=
  (in_sample_isolation
    { which_crit := 0, all_bars := 0, ret_type := 0, max_lookback := 2, n_train := 4,
      n_test := 2 }
    noSqrt (0, 0, 0) 8 (ofList [1, 2, 3, 4, 5, 6, 7, 8])
    (fun j => if j < 0 + 4 then ofList [1, 2, 3, 4, 5, 6, 7, 8] j else 0)
    { train_start := 0, returns := [], log := [] }
    (fun _ _ hj => (if_pos hj).symm)).1

/-! ## The walk-forward loop -/

theorem foldBody_train_start (c : Config) (sqrt : ℚ → ℚ) (indet : ℤ × ℚ × ℤ) (np : ℤ)
    (p : ℤ → ℚ) (s : WFState) :
    (foldBody c sqrt indet np p s).train_start
      = s.train_start + (if c.n_test > np - s.train_start - c.n_train then
          np - s.train_start - c.n_train else c.n_test) := rfl

theorem foldBody_log (c : Config) (sqrt : ℚ → ℚ) (indet : ℤ × ℚ × ℤ) (np : ℤ)
    (p : ℤ → ℚ) (s : WFState) :
    ∃ f : FoldLog, (foldBody c sqrt indet np p s).log = s.log ++ [f] ∧
      f.window = (s.train_start, s.train_start + c.n_train,
        if c.n_test > np - s.train_start - c.n_train then
          np - s.train_start - c.n_train else c.n_test) :=
  ⟨_, rfl, rfl⟩

theorem wfLoop_succ (c : Config) (sqrt : ℚ → ℚ) (indet : ℤ × ℚ × ℤ) (np : ℤ)
    (p : ℤ → ℚ) (fuel : ℕ) (s : WFState) :
    wfLoop c sqrt indet np p (fuel + 1) s
      = if (foldBody c sqrt indet np p s).train_start + c.n_train ≥ np then
          (foldBody c sqrt indet np p s, true)
        else wfLoop c sqrt indet np p fuel (foldBody c sqrt indet np p s) := rfl

theorem wfLoop_log_prefix (c : Config) (sqrt : ℚ → ℚ) (indet : ℤ × ℚ × ℤ) (np : ℤ)
    (p : ℤ → ℚ) (fuel : ℕ) (s : WFState) :
    ∃ rest, (wfLoop c sqrt indet np p fuel s).1.log = s.log ++ rest := by
  induction fuel generalizing s with
  | zero => exact ⟨[], by simp [wfLoop]⟩
  | succ fuel ih =>
    obtain ⟨f, hf, _⟩ := foldBody_log c sqrt indet np p s
    rw [wfLoop_succ]
    split_ifs
    · exact ⟨[f], hf⟩
    · obtain ⟨rest, hr⟩ := ih (foldBody c sqrt indet np p s)
      exact ⟨f :: rest, by rw [hr, hf, List.append_assoc, List.singleton_append]⟩

theorem wfLoop_first (c : Config) (sqrt : ℚ → ℚ) (indet : ℤ × ℚ × ℤ) (np : ℤ)
    (p : ℤ → ℚ) (fuel : ℕ) :
    ∃ f rest, (wfLoop c sqrt indet np p (fuel + 1) wfInit).1.log = f :: rest ∧
      f.train_start = 0 ∧ f.istart = c.n_train := by
  obtain ⟨f, hf, hw⟩ := foldBody_log c sqrt indet np p wfInit
  have h1 : f.train_start = 0 := congrArg Prod.fst hw
  have h2 : f.istart = 0 + c.n_train := congrArg (fun w => w.2.1) hw
  rw [zero_add] at h2
  rw [wfLoop_succ]
  split_ifs
  · exact ⟨f, [], hf, h1, h2⟩
  · obtain ⟨rest, hr⟩ := wfLoop_log_prefix c sqrt indet np p fuel (foldBody c sqrt indet np p wfInit)
    exact ⟨f, rest, by rw [hr, hf]; rfl, h1, h2⟩

/-- With `m + 1` folds left to cover the remaining history, the loop runs exactly these
folds and then leaves through the `break`. -/
theorem wfLoop_run (c : Config) (sqrt : ℚ → ℚ) (indet : ℤ × ℚ × ℤ) (np : ℤ) (p : ℤ → ℚ)
    (h1 : 1 ≤ c.n_test) :
    ∀ (m : ℕ) (s : WFState) (fuel : ℕ), m + 1 ≤ fuel →
      (m : ℤ) * c.n_test < np - s.train_start - c.n_train →
      np - s.train_start - c.n_train ≤ ((m : ℤ) + 1) * c.n_test →
      (wfLoop c sqrt indet np p fuel s).2 = true ∧
      (wfLoop c sqrt indet np p fuel s).1.log.map FoldLog.window
        = s.log.map FoldLog.window ++ (List.range (m + 1)).map (fun k : ℕ =>
            (s.train_start + (k : ℤ) * c.n_test,
              s.train_start + (k : ℤ) * c.n_test + c.n_train,
              min c.n_test (np - (s.train_start + (k : ℤ) * c.n_test) - c.n_train))) := by
  intro m
  induction m with
  | zero =>
    intro s fuel hf hlo hhi
    obtain ⟨fuel, rfl⟩ : ∃ f, fuel = f + 1 := ⟨fuel - 1, by omega⟩
    simp only [Nat.cast_zero, zero_mul, zero_add, one_mul] at hlo hhi
    obtain ⟨f, hlog, hw⟩ := foldBody_log c sqrt indet np p s
    have hn : (if c.n_test > np - s.train_start - c.n_train then
        np - s.train_start - c.n_train else c.n_test) = np - s.train_start - c.n_train := by
      split_ifs <;> omega
    have hts := foldBody_train_start c sqrt indet np p s
    rw [hn] at hts hw
    rw [wfLoop_succ, if_pos (by rw [hts]; omega)]
    refine ⟨rfl, ?_⟩
    have hmin : min c.n_test (np - s.train_start - c.n_train)
        = np - s.train_start - c.n_train := min_eq_right hhi
    have hr : List.range (0 + 1) = [0] := rfl
    simp only [hlog, List.map_append, List.map_cons, List.map_nil, hw, hr,
      Nat.cast_zero, zero_mul, add_zero, hmin]
  | succ m ih =>
    intro s fuel hf hlo hhi
    obtain ⟨fuel, rfl⟩ : ∃ f, fuel = f + 1 := ⟨fuel - 1, by omega⟩
    have hm0 : (0 : ℤ) ≤ (m : ℤ) * c.n_test :=
      mul_nonneg (Int.ofNat_nonneg m) (by omega)
    have e1 : ((m + 1 : ℕ) : ℤ) * c.n_test = (m : ℤ) * c.n_test + c.n_test := by
      push_cast; ring
    have e2 : (((m + 1 : ℕ) : ℤ) + 1) * c.n_test = (m : ℤ) * c.n_test + c.n_test + c.n_test := by
      push_cast; ring
    have e3 : ((m : ℤ) + 1) * c.n_test = (m : ℤ) * c.n_test + c.n_test := by ring
    rw [e1] at hlo
    rw [e2] at hhi
    obtain ⟨f, hlog, hw⟩ := foldBody_log c sqrt indet np p s
    have hn : (if c.n_test > np - s.train_start - c.n_train then
        np - s.train_start - c.n_train else c.n_test) = c.n_test := by
      split_ifs <;> omega
    have hts := foldBody_train_start c sqrt indet np p s
    rw [hn] at hts hw
    rw [wfLoop_succ, if_neg (by rw [hts]; omega)]
    obtain ⟨r1, r2⟩ := ih (foldBody c sqrt indet np p s) fuel (by omega)
      (by rw [hts]; omega) (by rw [hts, e3]; omega)
    refine ⟨r1, ?_⟩
    have hmin : min c.n_test (np - s.train_start - c.n_train) = c.n_test :=
      min_eq_left (by omega)
    rw [r2, hlog, hts, List.range_succ_eq_map (m + 1)]
    simp only [List.map_append, List.map_cons, List.map_nil, hw, List.append_assoc,
      List.singleton_append, List.map_map, Nat.cast_zero, zero_mul, add_zero, hmin]
    congr 2
    apply List.map_congr_left
    intro k _
    have e4 : ((k + 1 : ℕ) : ℤ) * c.n_test = c.n_test + (k : ℤ) * c.n_test := by
      push_cast; ring
    simp only [Function.comp, e4, add_assoc]

theorem nFolds_spec (np nt ns : ℤ) (h1 : 1 ≤ ns) (h2 : nt + ns ≤ np) :
    1 ≤ nFolds np nt ns ∧ ((nFolds np nt ns : ℤ) - 1) * ns < np - nt ∧
      np - nt ≤ (nFolds np nt ns : ℤ) * ns := by
  have hn : (0 : ℚ) < (ns : ℚ) := by exact_mod_cast (by omega : (0 : ℤ) < ns)
  have hD : (0 : ℚ) < ((np - nt : ℤ) : ℚ) := by exact_mod_cast (by omega : (0 : ℤ) < np - nt)
  have hpos : 0 < ⌈((np - nt : ℤ) : ℚ) / (ns : ℚ)⌉ := Int.ceil_pos.mpr (div_pos hD hn)
  have hK : ((nFolds np nt ns : ℕ) : ℤ) = ⌈((np - nt : ℤ) : ℚ) / (ns : ℚ)⌉ := by
    unfold nFolds
    exact Int.toNat_of_nonneg (le_of_lt hpos)
  have hup : ((np - nt : ℤ) : ℚ) ≤ ((⌈((np - nt : ℤ) : ℚ) / (ns : ℚ)⌉ * ns : ℤ) : ℚ) := by
    have := Int.le_ceil (((np - nt : ℤ) : ℚ) / (ns : ℚ))
    rw [div_le_iff₀ hn] at this
    push_cast at this ⊢
    exact this
  have hlo : (((⌈((np - nt : ℤ) : ℚ) / (ns : ℚ)⌉ - 1) * ns : ℤ) : ℚ) < ((np - nt : ℤ) : ℚ) := by
    have : ((⌈((np - nt : ℤ) : ℚ) / (ns : ℚ)⌉ - 1 : ℤ) : ℚ) < ((np - nt : ℤ) : ℚ) / (ns : ℚ) :=
      Int.lt_ceil.mp (by omega)
    rw [lt_div_iff₀ hn] at this
    push_cast at this ⊢
    exact this
  have hup' := Int.cast_le.mp hup
  have hlo' := Int.cast_lt.mp hlo
  rw [hK]
  refine ⟨?_, hlo', hup'⟩
  omega

/-- The OOS windows `[oosStart k, oosStart k + oosLen k)`, `k < K = nFolds`, tile
`[n_train, nprices)`: every window but the last has length `n_test`, the last has a length
between 1 and `n_test` and ends at `nprices`, consecutive windows are adjacent, and an index
lies in `[n_train, nprices)` if and only if it lies in one of the windows, in at most one. -/
theorem oos_windows_tile (nprices n_train n_test : ℤ) (h1 : 1 ≤ n_test)
    (h2 : n_train + n_test ≤ nprices) :
    (∀ k : ℕ, k + 1 < nFolds nprices n_train n_test →
      oosLen nprices n_train n_test k = n_test ∧
      oosStart n_train n_test (k + 1)
        = oosStart n_train n_test k + oosLen nprices n_train n_test k) ∧
    (∀ k : ℕ, k + 1 = nFolds nprices n_train n_test →
      1 ≤ oosLen nprices n_train n_test k ∧ oosLen nprices n_train n_test k ≤ n_test ∧
      oosStart n_train n_test k + oosLen nprices n_train n_test k = nprices) ∧
    oosStart n_train n_test 0 = n_train ∧
    (∀ j : ℤ, (n_train ≤ j ∧ j < nprices) ↔
      ∃ k : ℕ, k < nFolds nprices n_train n_test ∧ oosStart n_train n_test k ≤ j ∧
        j < oosStart n_train n_test k + oosLen nprices n_train n_test k) ∧
    (∀ (j : ℤ) (k k' : ℕ),
      oosStart n_train n_test k ≤ j →
      j < oosStart n_train n_test k + oosLen nprices n_train n_test k →
      oosStart n_train n_test k' ≤ j →
      j < oosStart n_train n_test k' + oosLen nprices n_train n_test k' → k = k') := by
  obtain ⟨hK1, hlo, hup⟩ := nFolds_spec nprices n_train n_test h1 h2
  generalize nFolds nprices n_train n_test = K at hK1 hlo hup ⊢
  have hn0 : (0 : ℤ) ≤ n_test := by omega
  have hmul : ∀ a b : ℤ, a ≤ b → a * n_test ≤ b * n_test :=
    fun a b h => mul_le_mul_of_nonneg_right h hn0
  obtain ⟨m, rfl⟩ : ∃ m, K = m + 1 := ⟨K - 1, by omega⟩
  have em : ((m + 1 : ℕ) : ℤ) = (m : ℤ) + 1 := by push_cast; ring
  rw [em] at hlo hup
  rw [add_sub_cancel_right] at hlo
  have hlen : ∀ k : ℕ, k + 1 < m + 1 → oosLen nprices n_train n_test k = n_test := by
    intro k hk
    have hk' : ((k : ℤ) + 1) * n_test ≤ (m : ℤ) * n_test :=
      hmul _ _ (by exact_mod_cast (by omega : k + 1 ≤ m))
    have e : ((k : ℤ) + 1) * n_test = (k : ℤ) * n_test + n_test := by ring
    unfold oosLen
    apply min_eq_left
    omega
  refine ⟨?_, ?_, ?_, ?_, ?_⟩
  · intro k hk
    refine ⟨hlen k hk, ?_⟩
    rw [hlen k hk]
    unfold oosStart
    push_cast
    ring
  · intro k hk
    have hkm : k = m := by omega
    subst hkm
    have e : ((k : ℤ) + 1) * n_test = (k : ℤ) * n_test + n_test := by ring
    have hmin : oosLen nprices n_train n_test k
        = nprices - (k : ℤ) * n_test - n_train := by
      unfold oosLen
      apply min_eq_right
      omega
    rw [hmin]
    unfold oosStart
    omega
  · simp [oosStart]
  · intro j
    constructor
    · rintro ⟨hj1, hj2⟩
      have hq0 : 0 ≤ (j - n_train) / n_test := Int.ediv_nonneg (by omega) hn0
      have hq1 : (j - n_train) / n_test * n_test ≤ j - n_train :=
        Int.ediv_mul_le _ (by omega)
      have hq2 : j - n_train < ((j - n_train) / n_test + 1) * n_test :=
        Int.lt_ediv_add_one_mul_self _ (by omega)
      have e : ((j - n_train) / n_test + 1) * n_test
          = (j - n_train) / n_test * n_test + n_test := by ring
      have hqK : (j - n_train) / n_test < (m : ℤ) + 1 := by
        by_contra hcon
        have := hmul _ _ (not_lt.mp hcon)
        omega
      refine ⟨((j - n_train) / n_test).toNat, by omega, ?_, ?_⟩
      · unfold oosStart
        rw [Int.toNat_of_nonneg hq0]
        omega
      · unfold oosStart oosLen
        rw [Int.toNat_of_nonneg hq0]
        rcases min_choice n_test
          (nprices - (j - n_train) / n_test * n_test - n_train) with h | h
        · rw [h]; omega
        · rw [h]; omega
    · rintro ⟨k, hk, hj1, hj2⟩
      have hk0 : (0 : ℤ) ≤ (k : ℤ) * n_test := mul_nonneg (Int.ofNat_nonneg k) hn0
      have hle : oosLen nprices n_train n_test k
          ≤ nprices - (k : ℤ) * n_test - n_train := min_le_right _ _
      unfold oosStart at hj1 hj2
      omega
  · intro j k k' a1 a2 b1 b2
    have hle : ∀ x : ℕ, oosLen nprices n_train n_test x ≤ n_test :=
      fun x => min_le_left _ _
    have key : ∀ x y : ℕ, x < y →
        oosStart n_train n_test x ≤ j →
        j < oosStart n_train n_test x + oosLen nprices n_train n_test x →
        oosStart n_train n_test y ≤ j → False := by
      intro x y hxy c1 c2 c3
      have hxy' : ((x : ℤ) + 1) * n_test ≤ (y : ℤ) * n_test :=
        hmul _ _ (by exact_mod_cast (by omega : x + 1 ≤ y))
      have e : ((x : ℤ) + 1) * n_test = (x : ℤ) * n_test + n_test := by ring
      have := hle x
      unfold oosStart at c1 c2 c3
      omega
    rcases lt_trichotomy k k' with h | h | h
    · exact absurd (key k k' h a1 a2 b1) id
    · exact h
    · exact absurd (key k' k h b1 b2 a1) id


/-! ## Configuration codes and the n_test = 0 loop -/

/-- C11, counterexample. With `which_crit = 7`, `ret_type = 5` and `max_lookback = 0`
(`n_train = 10`, `n_test = 2`, twelve prices) both checks of `main` pass and a fold is
executed, although none of the three values is in the range the claim names. -/
theorem unvalidated_codes_run_a_fold :
    (main_ { which_crit := 7, all_bars := 0, ret_type := 5, max_lookback := 0, n_train := 10,
             n_test := 2 } noSqrt (0, 0, 0)
        (some (12, ofList [1, 2, 3, 4, 5, 6, 7, 8, 9, 10, 11, 12])) 1).folds.length = 1 ∧
    ¬ ((7 : ℤ) = 0 ∨ (7 : ℤ) = 1 ∨ (7 : ℤ) = 2) ∧ ¬ ((5 : ℤ) = 0 ∨ (5 : ℤ) = 1 ∨ (5 : ℤ) = 2) ∧
    ¬ ((2 : ℤ) ≤ 0) := by
  decide!

/-- C11, amended. Before the first fold `main` validates only
`n_train - max_lookback ≥ 10` and `n_train + n_test ≤ nprices`: when both hold and the
market file was read, the first fold is executed whatever values `which_crit` and `ret_type`
have, and `max_lookback` is bounded from above only. -/
theorem only_two_checks_guard_folds (c : Config) (wc rt : ℤ) (sqrt : ℚ → ℚ)
    (indet : ℤ × ℚ × ℤ) (nprices : ℤ) (prices : ℤ → ℚ) (fuel : ℕ)
    (h1 : 10 ≤ c.n_train - c.max_lookback) (h2 : c.n_train + c.n_test ≤ nprices) :
    (main_ { c with which_crit := wc, ret_type := rt } sqrt indet (some (nprices, prices))
        (fuel + 1)).aborted = false ∧
    ∃ f rest,
      (main_ { c with which_crit := wc, ret_type := rt } sqrt indet (some (nprices, prices))
        (fuel + 1)).folds = f :: rest ∧ f.train_start = 0 ∧ f.istart = c.n_train := by
  have e : main_ { c with which_crit := wc, ret_type := rt } sqrt indet
        (some (nprices, prices)) (fuel + 1)
      = if (wfLoop { c with which_crit := wc, ret_type := rt } sqrt indet nprices prices
              (fuel + 1) wfInit).2 then
          Outcome.finished (wfLoop { c with which_crit := wc, ret_type := rt } sqrt indet
              nprices prices (fuel + 1) wfInit).1
            (oosStat wc sqrt (wfLoop { c with which_crit := wc, ret_type := rt } sqrt indet
              nprices prices (fuel + 1) wfInit).1.returns)
        else Outcome.running (wfLoop { c with which_crit := wc, ret_type := rt } sqrt indet
              nprices prices (fuel + 1) wfInit).1 := by
    have n1 : ¬ (c.n_train - c.max_lookback < 10) := by omega
    have n2 : ¬ (c.n_train + c.n_test > nprices) := by omega
    simp only [main_, if_neg n1, if_neg n2]
  obtain ⟨f, rest, hf, hf1, hf2⟩ :=
    wfLoop_first { c with which_crit := wc, ret_type := rt } sqrt indet nprices prices fuel
  rw [e]
  split_ifs
  · exact ⟨rfl, f, rest, hf, hf1, hf2⟩
  · exact ⟨rfl, f, rest, hf, hf1, hf2⟩

/-- Witness of the amended C11: the codes 7 and 5 on twelve prices. -/
theorem only_two_checks_guard_folds_witness :
    (main_ { which_crit := 7, all_bars := 0, ret_type := 5, max_lookback := 0, n_train := 10,
             n_test := 2 } noSqrt (0, 0, 0)
        (some (12, ofList [1, 2, 3, 4, 5, 6, 7, 8, 9, 10, 11, 12])) (0 + 1)).aborted = false :=
  (only_two_checks_guard_folds
    { which_crit := 0, all_bars := 0, ret_type := 0, max_lookback := 0, n_train := 10,
      n_test := 2 } 7 5 noSqrt (0, 0, 0) 12 (ofList [1, 2, 3, 4, 5, 6, 7, 8, 9, 10, 11, 12]) 0
    (by decide) (by decide)).1
theorem wfLoop_stuck (c : Config) (sqrt : ℚ → ℚ) (indet : ℤ × ℚ × ℤ) (np : ℤ) (p : ℤ → ℚ)
    (h0 : c.n_test = 0) (h : c.n_train < np) :
    ∀ (fuel : ℕ) (s : WFState), s.train_start = 0 →
      (wfLoop c sqrt indet np p fuel s).2 = false ∧
      (wfLoop c sqrt indet np p fuel s).1.train_start = 0 ∧
      (wfLoop c sqrt indet np p fuel s).1.log.map FoldLog.window
        = s.log.map FoldLog.window ++ List.replicate fuel (0, c.n_train, 0) := by
  intro fuel
  induction fuel with
  | zero =>
    intro s hs
    exact ⟨rfl, hs, by simp [wfLoop]⟩
  | succ fuel ih =>
    intro s hs
    obtain ⟨f, hlog, hw⟩ := foldBody_log c sqrt indet np p s
    have hn : (if c.n_test > np - s.train_start - c.n_train then
        np - s.train_start - c.n_train else c.n_test) = 0 := by
      split_ifs <;> omega
    have hts := foldBody_train_start c sqrt indet np p s
    rw [hn] at hts hw
    rw [hs, add_zero] at hts
    rw [hs, zero_add] at hw
    rw [wfLoop_succ, if_neg (by rw [hts]; omega)]
    obtain ⟨r1, r2, r3⟩ := ih (foldBody c sqrt indet np p s) hts
    refine ⟨r1, r2, ?_⟩
    rw [r3, hlog, List.map_append, List.map_singleton, hw, List.append_assoc,
      List.replicate_succ]
    rfl

/-- C20. Non-termination for `n_test = 0`. A configuration `c` with `n_test = 0`,
`n_train - max_lookback ≥ 10` and `n_train < nprices` passes both configuration checks; in
the fold loop every iteration prints `n = 0` at `train_start = 0`, the `break` is never
reached whatever the number of folds run, and `main` is still in the loop for every amount
of fuel. A configuration `c'` that passes both checks and has `n_test ≥ 1` leaves the loop
and finishes. -/
theorem n_test_zero_never_terminates (c c' : Config) (sqrt : ℚ → ℚ) (indet : ℤ × ℚ × ℤ)
    (nprices nprices' : ℤ) (prices prices' : ℤ → ℚ)
    (h0 : c.n_test = 0) (h1 : 10 ≤ c.n_train - c.max_lookback) (h2 : c.n_train < nprices)
    (g0 : 1 ≤ c'.n_test) (g1 : 10 ≤ c'.n_train - c'.max_lookback)
    (g2 : c'.n_train + c'.n_test ≤ nprices') :
    (¬ (c.n_train - c.max_lookback < 10) ∧ ¬ (c.n_train + c.n_test > nprices)) ∧
    (∀ fuel : ℕ,
      (wfLoop c sqrt indet nprices prices fuel wfInit).2 = false ∧
      (wfLoop c sqrt indet nprices prices fuel wfInit).1.train_start = 0 ∧
      (wfLoop c sqrt indet nprices prices fuel wfInit).1.log.map FoldLog.window
        = List.replicate fuel (0, c.n_train, 0) ∧
      main_ c sqrt indet (some (nprices, prices)) fuel
        = Outcome.running (wfLoop c sqrt indet nprices prices fuel wfInit).1) ∧
    (∃ (fuel : ℕ) (s : WFState) (stat : Option ℚ),
      main_ c' sqrt indet (some (nprices', prices')) fuel = Outcome.finished s stat) := by
  refine ⟨⟨by omega, by omega⟩, ?_, ?_⟩
  · intro fuel
    obtain ⟨r1, r2, r3⟩ := wfLoop_stuck c sqrt indet nprices prices h0 h2 fuel wfInit rfl
    refine ⟨r1, r2, ?_, ?_⟩
    · rw [r3]
      rfl
    · have n1 : ¬ (c.n_train - c.max_lookback < 10) := by omega
      have n2 : ¬ (c.n_train + c.n_test > nprices) := by omega
      simp only [main_, if_neg n1, if_neg n2, r1]
      rfl
  · obtain ⟨hK1, hlo, hup⟩ := nFolds_spec nprices' c'.n_train c'.n_test g0 g2
    obtain ⟨m, hm⟩ : ∃ m, nFolds nprices' c'.n_train c'.n_test = m + 1 :=
      ⟨nFolds nprices' c'.n_train c'.n_test - 1, by omega⟩
    rw [hm] at hlo hup
    have em : ((m + 1 : ℕ) : ℤ) = (m : ℤ) + 1 := by push_cast; ring
    rw [em] at hlo hup
    rw [add_sub_cancel_right] at hlo
    have run := wfLoop_run c' sqrt indet nprices' prices' g0 m wfInit (m + 1) le_rfl
      (by simp only [wfInit]; omega) (by simp only [wfInit]; omega)
    have n1 : ¬ (c'.n_train - c'.max_lookback < 10) := by omega
    have n2 : ¬ (c'.n_train + c'.n_test > nprices') := by omega
    refine ⟨m + 1, (wfLoop c' sqrt indet nprices' prices' (m + 1) wfInit).1,
      oosStat c'.which_crit sqrt (wfLoop c' sqrt indet nprices' prices' (m + 1) wfInit).1.returns,
      ?_⟩
    simp only [main_, if_neg n1, if_neg n2, run.1]
    rfl

/-- Witness of C20: `n_train = 12`, `max_lookback = 2`, sixteen prices, `n_test = 0`
against `n_test = 2`. -/
theorem n_test_zero_never_terminates_witness :
    (wfLoop { which_crit := 0, all_bars := 0, ret_type := 0, max_lookback := 2, n_train := 12,
              n_test := 0 } noSqrt (0, 0, 0) 16
        (ofList [1, 2, 3, 4, 5, 6, 7, 8, 9, 10, 11, 12, 13, 14, 15, 16]) 5 wfInit).2
      = false :=
  ((n_test_zero_never_terminates
    { which_crit := 0, all_bars := 0, ret_type := 0, max_lookback := 2, n_train := 12,
      n_test := 0 }
    { which_crit := 0, all_bars := 0, ret_type := 0, max_lookback := 2, n_train := 12,
      n_test := 2 }
    noSqrt (0, 0, 0) 16 16 (ofList [1, 2, 3, 4, 5, 6, 7, 8, 9, 10, 11, 12, 13, 14, 15, 16])
    (ofList [1, 2, 3, 4, 5, 6, 7, 8, 9, 10, 11, 12, 13, 14, 15, 16])
    rfl (by decide) (by decide) (by decide) (by decide) (by decide)).2.1 5).1

/-! ## Seed of the in-sample scans -/

/-- C12, counterexample. Sixteen prices (eleven times 10, then 12, 13, 14, 15, 16),
`max_lookback = 2`, `n_train = 12`, `n_test = 2`: the run has two folds; the OOS evaluation
of the first fold (lookback 2, threshold 0.01, seed 0) ends Long, yet the scan of candidate
`(2, 1)` of the second fold (window start 2) starts with position 0, and it is still 0 after
its first decision bar, where neither rule fires. -/
theorem second_fold_scan_starts_flat :
    (main_ { which_crit := 0, all_bars := 0, ret_type := 0, max_lookback := 2, n_train := 12,
             n_test := 2 } noSqrt (0, 0, 0)
        (some (16, ofList [10, 10, 10, 10, 10, 10, 10, 10, 10, 10, 10, 12, 13, 14, 15, 16]))
        2).folds.map (fun f => (f.train_start, f.lookback, f.thresh, f.istart, f.n))
      = [(0, 2, 1 / 100, 12, 2), (2, 2, 1 / 100, 14, 2)] ∧
    (opt_params 0 0 12 noSqrt
        (shift (ofList [10, 10, 10, 10, 10, 10, 10, 10, 10, 10, 10, 12, 13, 14, 15, 16]) 0)
        2).out = some (2, 1 / 100, 0) ∧
    (compScan 0 16 (ofList [10, 10, 10, 10, 10, 10, 10, 10, 10, 10, 10, 12, 13, 14, 15, 16])
        12 2 2 (1 / 100) 0).position = 1 ∧
    (optAt 0 (shift (ofList [10, 10, 10, 10, 10, 10, 10, 10, 10, 10, 10, 12, 13, 14, 15, 16]) 2)
        2 2 1 (2 - 2)).position = 0 ∧
    (optAt 0 (shift (ofList [10, 10, 10, 10, 10, 10, 10, 10, 10, 10, 10, 12, 13, 14, 15, 16]) 2)
        2 2 1 (2 - 1)).position = 0 := by
  decide!

/-- C12, amended. On every fold, the first and every later one, every candidate scan of the
optimizer starts from position 0 (Flat), whatever state the run is in: the scan of candidate
`(ilook, ithresh)` on the window starting at `train_start` runs from the initial locals,
whose position is 0, and after its first decision bar the position is 1 if the entry rule
fires and 0 otherwise. -/
theorem optimizer_scans_start_flat (c : Config) (prices : ℤ → ℚ) (s : WFState)
    (ilook ithresh : ℤ) (h : 2 ≤ ilook) :
    optScan c.all_bars c.n_train (shift prices s.train_start) c.max_lookback ilook ithresh
      = forUp (optBar c.all_bars (shift prices s.train_start) c.max_lookback ilook ithresh)
          (c.max_lookback - 1) (c.n_train - 1) optInit ∧
    optInit.position = 0 ∧
    (optAt c.all_bars (shift prices s.train_start) c.max_lookback ilook ithresh
        (c.max_lookback - 2)).position = 0 ∧
    (optAt c.all_bars (shift prices s.train_start) c.max_lookback ilook ithresh
        (c.max_lookback - 1)).position
      = if shift prices s.train_start (c.max_lookback - 1)
            > (1 + (1 / 100) * (ithresh : ℚ))
              * windowMean (shift prices s.train_start) (c.max_lookback - 1) ilook
        then 1 else 0 := by
  refine ⟨rfl, rfl, ?_, ?_⟩
  · rw [optAt_before _ _ _ _ _ _ (by omega)]
    rfl
  · rw [optAt_position _ _ _ _ _ _ (by omega) le_rfl, optAt_before _ _ _ _ _ _ (by omega)]
    split_ifs <;> rfl

/-- Witness of the amended C12: the second fold of the sixteen-price run. -/
theorem optimizer_scans_start_flat_witness :
    (optAt 0 (shift (ofList [10, 10, 10, 10, 10, 10, 10, 10, 10, 10, 10, 12, 13, 14, 15, 16]) 2)
        2 2 1 (2 - 2)).position = 0 :=
  (optimizer_scans_start_flat
    { which_crit := 0, all_bars := 0, ret_type := 0, max_lookback := 2, n_train := 12,
      n_test := 2 }
    (ofList [10, 10, 10, 10, 10, 10, 10, 10, 10, 10, 10, 12, 13, 14, 15, 16])
    { train_start := 2, returns := [], log := [] } 2 1 (by decide)).2.2.1
/-! ## Performance figures of a trial -/

theorem optBar_total_return (ab : ℤ) (p : ℤ → ℚ) (ml il it i : ℤ) (s : OptState) :
    (optBar ab p ml il it i s).total_return
      = if ab ≠ 0 ∨ (optBar ab p ml il it i s).position ≠ 0 then
          s.total_return + (optBar ab p ml il it i s).ret
        else s.total_return := by
  simp only [optBar, apply_ite OptState.position, apply_ite OptState.ret,
    apply_ite OptState.total_return, ite_self]

theorem optBar_n_trades (ab : ℤ) (p : ℤ → ℚ) (ml il it i : ℤ) (s : OptState) :
    (optBar ab p ml il it i s).n_trades
      = if ab ≠ 0 ∨ (optBar ab p ml il it i s).position ≠ 0 then s.n_trades + 1
        else s.n_trades := by
  simp only [optBar, apply_ite OptState.position, apply_ite OptState.n_trades, ite_self]

theorem optBar_win_sum (ab : ℤ) (p : ℤ → ℚ) (ml il it i : ℤ) (s : OptState) :
    (optBar ab p ml il it i s).win_sum
      = if ab ≠ 0 ∨ (optBar ab p ml il it i s).position ≠ 0 then
          (if (optBar ab p ml il it i s).ret > 0 then s.win_sum + (optBar ab p ml il it i s).ret
           else s.win_sum)
        else s.win_sum := by
  simp only [optBar, apply_ite OptState.position, apply_ite OptState.ret,
    apply_ite OptState.win_sum, ite_self]

theorem optBar_lose_sum (ab : ℤ) (p : ℤ → ℚ) (ml il it i : ℤ) (s : OptState) :
    (optBar ab p ml il it i s).lose_sum
      = if ab ≠ 0 ∨ (optBar ab p ml il it i s).position ≠ 0 then
          (if (optBar ab p ml il it i s).ret > 0 then s.lose_sum
           else s.lose_sum - (optBar ab p ml il it i s).ret)
        else s.lose_sum := by
  simp only [optBar, apply_ite OptState.position, apply_ite OptState.ret,
    apply_ite OptState.lose_sum, ite_self]

theorem optAt_step (ab : ℤ) (p : ℤ → ℚ) (ml il it : ℤ) (m : ℕ) :
    optAt ab p ml il it (ml - 1 + m)
      = optBar ab p ml il it (ml - 1 + m) (optAt ab p ml il it (ml - 2 + m)) := by
  have e2 : ml - 1 + (m : ℤ) - 1 = ml - 2 + (m : ℤ) := by ring
  rw [optAt_succ _ _ _ _ _ _ (by omega), e2]

theorem qualRetsUpTo_succ (ab : ℤ) (p : ℤ → ℚ) (ml il it : ℤ) (m : ℕ) :
    qualRetsUpTo ab p ml il it (m + 1)
      = if ab ≠ 0 ∨ (optAt ab p ml il it (ml - 1 + m)).position ≠ 0 then
          qualRetsUpTo ab p ml il it m ++ [(optAt ab p ml il it (ml - 1 + m)).ret]
        else qualRetsUpTo ab p ml il it m := by
  unfold qualRetsUpTo
  rw [List.range_succ, List.filter_append, List.map_append]
  by_cases hc : ab ≠ 0 ∨ (optAt ab p ml il it (ml - 1 + m)).position ≠ 0
  · rw [if_pos hc]
    have : qualifies ab p ml il it m = true := by simpa [qualifies] using hc
    simp [List.filter, this]
  · rw [if_neg hc]
    have : qualifies ab p ml il it m = false := by simpa [qualifies] using hc
    simp [List.filter, this]

/-- The performance figures of a trial after its first `m` decision bars. -/
theorem optAt_figures (ab : ℤ) (p : ℤ → ℚ) (ml il it : ℤ) (m : ℕ) :
    (optAt ab p ml il it (ml - 2 + m)).total_return = (qualRetsUpTo ab p ml il it m).sum ∧
    (optAt ab p ml il it (ml - 2 + m)).n_trades = ((qualRetsUpTo ab p ml il it m).length : ℤ) ∧
    (optAt ab p ml il it (ml - 2 + m)).win_sum
      = 1 / 10 ^ 60 + ((qualRetsUpTo ab p ml il it m).filter (fun r => decide (r > 0))).sum ∧
    (optAt ab p ml il it (ml - 2 + m)).lose_sum
      = 1 / 10 ^ 60 + (((qualRetsUpTo ab p ml il it m).filter (fun r => decide (r < 0))).map
          (fun r => -r)).sum := by
  induction m with
  | zero =>
    rw [optAt_before _ _ _ _ _ _ (by simp)]
    simp [optInit, qualRetsUpTo]
  | succ m ih =>
    obtain ⟨i1, i2, i3, i4⟩ := ih
    have e : ml - 2 + ((m + 1 : ℕ) : ℤ) = ml - 1 + (m : ℤ) := by push_cast; ring
    have hT := optBar_total_return ab p ml il it (ml - 1 + m) (optAt ab p ml il it (ml - 2 + m))
    have hN := optBar_n_trades ab p ml il it (ml - 1 + m) (optAt ab p ml il it (ml - 2 + m))
    have hW := optBar_win_sum ab p ml il it (ml - 1 + m) (optAt ab p ml il it (ml - 2 + m))
    have hL := optBar_lose_sum ab p ml il it (ml - 1 + m) (optAt ab p ml il it (ml - 2 + m))
    rw [← optAt_step] at hT hN hW hL
    rw [e, hT, hN, hW, hL, qualRetsUpTo_succ, i1, i2, i3, i4]
    by_cases hc : ab ≠ 0 ∨ (optAt ab p ml il it (ml - 1 + m)).position ≠ 0
    · simp only [if_pos hc]
      refine ⟨by simp, by simp, ?_, ?_⟩
      · by_cases hr : (optAt ab p ml il it (ml - 1 + m)).ret > 0
        · simp [List.filter_append, List.filter, hr, add_assoc]
        · simp [List.filter_append, List.filter, hr]
      · by_cases hr : (optAt ab p ml il it (ml - 1 + m)).ret > 0
        · have hr' : ¬ (optAt ab p ml il it (ml - 1 + m)).ret < 0 := not_lt.mpr (le_of_lt hr)
          simp [List.filter_append, List.filter, hr, hr']
        · by_cases hz : (optAt ab p ml il it (ml - 1 + m)).ret < 0
          · simp [List.filter_append, List.filter, hr, hz]
            ring
          · have h0 : (optAt ab p ml il it (ml - 1 + m)).ret = 0 :=
              le_antisymm (not_lt.mp hr) (not_lt.mp hz)
            simp [List.filter_append, List.filter, h0]
    · simp only [if_neg hc]
      exact ⟨trivial, trivial, trivial, trivial⟩

theorem optScan_figures (ab np : ℤ) (p : ℤ → ℚ) (ml il it : ℤ) :
    (optScan ab np p ml il it).total_return = (qualRets ab np p ml il it).sum ∧
    (optScan ab np p ml il it).n_trades = ((qualRets ab np p ml il it).length : ℤ) ∧
    (optScan ab np p ml il it).win_sum
      = 1 / 10 ^ 60 + ((qualRets ab np p ml il it).filter (fun r => decide (r > 0))).sum ∧
    (optScan ab np p ml il it).lose_sum
      = 1 / 10 ^ 60 + (((qualRets ab np p ml il it).filter (fun r => decide (r < 0))).map
          (fun r => -r)).sum := by
  have h := optAt_figures ab p ml il it (np - ml).toNat
  by_cases hle : ml ≤ np
  · have e : ml - 2 + (((np - ml).toNat : ℕ) : ℤ) = np - 2 := by
      rw [Int.toNat_of_nonneg (by omega)]; ring
    rw [e, ← optScan_eq_optAt] at h
    exact h
  · have e0 : (np - ml).toNat = 0 := by omega
    have e1 : optScan ab np p ml il it = optAt ab p ml il it (ml - 2 + ((0 : ℕ) : ℤ)) := by
      rw [optScan_eq_optAt, optAt_before _ _ _ _ _ _ (by omega),
        optAt_before _ _ _ _ _ _ (by simp)]
    rw [e0] at h
    rw [e1]
    unfold qualRets
    rw [e0]
    exact h

/-! ## Scores of a trial -/

theorem candScore_mean (ab np : ℤ) (sqrt : ℚ → ℚ) (p : ℤ → ℚ) (ml il it : ℤ) :
    candScore 0 ab np sqrt p ml il it
      = (qualRets ab np p ml il it).sum
          / (((qualRets ab np p ml il it).length : ℚ) + 1 / 10 ^ 30) := by
  obtain ⟨h1, h2, _, _⟩ := optScan_figures ab np p ml il it
  simp only [candScore, optScore, if_true, h1, h2, Int.cast_natCast]

theorem candScore_profit_factor (ab np : ℤ) (sqrt : ℚ → ℚ) (p : ℤ → ℚ) (ml il it : ℤ) :
    candScore 1 ab np sqrt p ml il it = profitFactor (qualRets ab np p ml il it) := by
  obtain ⟨_, _, h3, h4⟩ := optScan_figures ab np p ml il it
  have h10 : ¬ ((1 : ℤ) = 0) := by decide
  simp only [candScore, optScore, h10, if_false, if_true, h3, h4, profitFactor]

theorem profitFactor_den (rets : List ℚ) :
    (1 : ℚ) / 10 ^ 60
      ≤ 1 / 10 ^ 60 + ((rets.filter (fun r => decide (r < 0))).map (fun r => -r)).sum := by
  have h : (0 : ℚ) ≤ ((rets.filter (fun r => decide (r < 0))).map (fun r => -r)).sum := by
    apply List.sum_nonneg
    intro x hx
    obtain ⟨r, hr, rfl⟩ := List.mem_map.mp hx
    have := (List.mem_filter.mp hr).2
    simp only [decide_eq_true_eq] at this
    linarith
  linarith

theorem profitFactor_num (rets : List ℚ) :
    (1 : ℚ) / 10 ^ 60 ≤ 1 / 10 ^ 60 + (rets.filter (fun r => decide (r > 0))).sum := by
  have h : (0 : ℚ) ≤ (rets.filter (fun r => decide (r > 0))).sum := by
    apply List.sum_nonneg
    intro x hx
    have := (List.mem_filter.mp hx).2
    simp only [decide_eq_true_eq] at this
    linarith
  linarith

theorem profitFactor_pos (rets : List ℚ) : 0 < profitFactor rets := by
  have he : (0 : ℚ) < 1 / 10 ^ 60 := by positivity
  exact div_pos (lt_of_lt_of_le he (profitFactor_num rets))
    (lt_of_lt_of_le he (profitFactor_den rets))

theorem oos_fold_profit (rets : List ℚ) (a : ℚ × ℚ) :
    rets.foldl
        (fun (a : ℚ × ℚ) r =>
          if r > 0 then (a.1 + r, a.2) else if r < 0 then (a.1, a.2 - r) else a) a
      = (a.1 + (rets.filter (fun r => decide (r > 0))).sum,
          a.2 + ((rets.filter (fun r => decide (r < 0))).map (fun r => -r)).sum) := by
  induction rets generalizing a with
  | nil => simp
  | cons r rs ih =>
    rw [List.foldl_cons, ih]
    by_cases hp : r > 0
    · have hn : ¬ r < 0 := not_lt.mpr (le_of_lt hp)
      simp [List.filter, hp, hn, add_assoc]
    · by_cases hn : r < 0
      · simp [List.filter, hp, hn]
        ring
      · simp [List.filter, hp, hn]

theorem oosStat_profit_factor (sqrt : ℚ → ℚ) (rets : List ℚ) :
    oosStat 1 sqrt rets = some (profitFactor rets) := by
  have h10 : ¬ ((1 : ℤ) = 0) := by decide
  simp only [oosStat, h10, if_false, if_true, oos_fold_profit, profitFactor]

/-- C15. Mean-return score over qualifying bars. For `which_crit = 0` the score of a
candidate is `total_return / (n + 1e-30)`, where the decision bars are
`max_lookback-1 .. nprices-2`, `total_return` is the sum and `n` the number of the bar
returns of the counted bars: all `nprices - max_lookback` decision bars when `all_bars` is
non-zero, only the bars whose position is Long when `all_bars` is 0; a candidate with no
counted bar scores exactly 0. -/
theorem mean_return_score (all_bars nprices : ℤ) (sqrt : ℚ → ℚ) (prices : ℤ → ℚ)
    (max_lookback ilook ithresh : ℤ) :
    candScore 0 all_bars nprices sqrt prices max_lookback ilook ithresh
      = (qualRets all_bars nprices prices max_lookback ilook ithresh).sum
          / (((qualRets all_bars nprices prices max_lookback ilook ithresh).length : ℚ)
              + 1 / 10 ^ 30) ∧
    (all_bars ≠ 0 →
      qualRets all_bars nprices prices max_lookback ilook ithresh
        = (List.range (nprices - max_lookback).toNat).map (fun k : ℕ =>
            (optAt all_bars prices max_lookback ilook ithresh (max_lookback - 1 + k)).ret) ∧
      (qualRets all_bars nprices prices max_lookback ilook ithresh).length
        = (nprices - max_lookback).toNat) ∧
    (all_bars = 0 →
      qualRets all_bars nprices prices max_lookback ilook ithresh
        = ((List.range (nprices - max_lookback).toNat).filter (fun k : ℕ => decide
            ((optAt all_bars prices max_lookback ilook ithresh
              (max_lookback - 1 + k)).position ≠ 0))).map (fun k : ℕ =>
            (optAt all_bars prices max_lookback ilook ithresh (max_lookback - 1 + k)).ret)) ∧
    (∀ k : ℕ,
      (optAt all_bars prices max_lookback ilook ithresh (max_lookback - 1 + k)).ret
        = if (optAt all_bars prices max_lookback ilook ithresh
              (max_lookback - 1 + k)).position ≠ 0
          then prices (max_lookback - 1 + k + 1) - prices (max_lookback - 1 + k) else 0) ∧
    (qualRets all_bars nprices prices max_lookback ilook ithresh = [] →
      candScore 0 all_bars nprices sqrt prices max_lookback ilook ithresh = 0) := by
  refine ⟨candScore_mean _ _ _ _ _ _ _, ?_, ?_, ?_, ?_⟩
  · intro hab
    have hq : qualifies all_bars prices max_lookback ilook ithresh = fun _ => true := by
      funext k
      simp [qualifies, hab]
    have e : qualRets all_bars nprices prices max_lookback ilook ithresh
        = (List.range (nprices - max_lookback).toNat).map (fun k : ℕ =>
            (optAt all_bars prices max_lookback ilook ithresh (max_lookback - 1 + k)).ret) := by
      unfold qualRets qualRetsUpTo
      rw [hq, List.filter_true]
    exact ⟨e, by rw [e, List.length_map, List.length_range]⟩
  · intro hab
    have hq : qualifies all_bars prices max_lookback ilook ithresh
        = fun k : ℕ => decide ((optAt all_bars prices max_lookback ilook ithresh
            (max_lookback - 1 + k)).position ≠ 0) := by
      funext k
      simp [qualifies, hab]
    unfold qualRets qualRetsUpTo
    rw [hq]
  · intro k
    exact optAt_ret _ _ _ _ _ _ (by omega)
  · intro he
    rw [candScore_mean, he]
    simp

/-! ## The optimizer assigns its outputs -/

theorem opt_out_some (wc ab np : ℤ) (sqrt : ℚ → ℚ) (p : ℤ → ℚ) (ml : ℤ)
    (hc : wc = 0 ∨ wc = 1 ∨ wc = 2) (hml : 2 ≤ ml) (l t : ℤ) (h1 : 2 ≤ l) (h2 : l ≤ ml)
    (h3 : 1 ≤ t) (h4 : t ≤ 10) (hs : -(10 ^ 60 : ℚ) < candScore wc ab np sqrt p ml l t) :
    ∃ o, (opt_params wc ab np sqrt p ml).out = some o := by
  obtain ⟨_, i2, i3, _⟩ := grid_inv wc ab np sqrt p ml hc hml
  have hb : Before ml (ml + 1) 1 l t := by
    unfold Before
    omega
  have hbig := lt_of_lt_of_le hs (i2 l t hb)
  unfold opt_params
  cases harg : (forUp (fun ilook b =>
      forUp (fun ithresh b => optTrial wc ab np sqrt p ml ilook ithresh b) 1 (10 + 1) b)
      2 (ml + 1) { best_perf := -(10 ^ 60), arg := none }).arg with
  | none => exact absurd (i3 harg) (ne_of_gt hbig)
  | some a =>
    refine ⟨(a.1, (1 / 100) * (a.2.1 : ℚ), a.2.2), ?_⟩
    simp only [harg, Option.map]

theorem optTrial_first (wc ab np : ℤ) (sqrt : ℚ → ℚ) (p : ℤ → ℚ) (ml il it : ℤ)
    (hc : wc = 0 ∨ wc = 1 ∨ wc = 2)
    (hs : -(10 ^ 60 : ℚ) < candScore wc ab np sqrt p ml il it) :
    optTrial wc ab np sqrt p ml il it { best_perf := -(10 ^ 60), arg := none }
      = { best_perf := candScore wc ab np sqrt p ml il it,
          arg := some (il, it, (optScan ab np p ml il it).position) } := by
  unfold candScore at hs
  rw [optTrial, optKeep_eq _ _ _ _ _ _ hc, if_pos hs, candScore]

theorem mean_gt_of_forall_gt (l : List ℚ) (M ε : ℚ) (hM : 0 < M) (hε : 0 < ε)
    (h : ∀ x ∈ l, -M < x) : -M < l.sum / ((l.length : ℚ) + ε) := by
  have hs : -M * (l.length : ℚ) ≤ l.sum := by
    induction l with
    | nil => simp
    | cons a l ih =>
      have ha := h a (List.mem_cons_self a l)
      have hl := ih (fun x hx => h x (List.mem_cons_of_mem a hx))
      simp only [List.length_cons, List.sum_cons, Nat.cast_add, Nat.cast_one]
      linarith
  have hlen : (0 : ℚ) ≤ (l.length : ℚ) := Nat.cast_nonneg _
  have hden : (0 : ℚ) < (l.length : ℚ) + ε := by linarith
  rw [lt_div_iff₀ hden]
  have : 0 < M * ε := mul_pos hM hε
  nlinarith

theorem qualRets_gt (ab np : ℤ) (p : ℤ → ℚ) (ml il it : ℤ) (M : ℚ) (hM : 0 < M)
    (h : ∀ i, ml - 1 ≤ i → i ≤ np - 2 → -M < p (i + 1) - p i) :
    ∀ x ∈ qualRets ab np p ml il it, -M < x := by
  intro x hx
  unfold qualRets qualRetsUpTo at hx
  obtain ⟨k, hk, rfl⟩ := List.mem_map.mp hx
  have hk' := List.mem_range.mp (List.mem_filter.mp hk).1
  rw [optAt_ret _ _ _ _ _ _ (by omega)]
  split_ifs
  · exact h _ (by omega) (by omega)
  · linarith

/-- C18. The optimizer's result is initialized on a non-empty grid. For `max_lookback ≥ 2`
and every price window: with `which_crit = 1` the first candidate `(2, 1)` has a profit
factor `> 0 > -1e60`, so it replaces the sentinel, and `opt_params` hands back assigned
outputs; with `which_crit = 0` the same holds whenever every bar-to-bar price difference at
the decision bars is greater than `-1e60`. -/
theorem optimizer_result_initialized (all_bars nprices : ℤ) (sqrt : ℚ → ℚ) (prices : ℤ → ℚ)
    (max_lookback : ℤ) (hml : 2 ≤ max_lookback) :
    (0 < candScore 1 all_bars nprices sqrt prices max_lookback 2 1 ∧
      -(10 ^ 60 : ℚ) < candScore 1 all_bars nprices sqrt prices max_lookback 2 1 ∧
      optTrial 1 all_bars nprices sqrt prices max_lookback 2 1
          { best_perf := -(10 ^ 60), arg := none }
        = { best_perf := candScore 1 all_bars nprices sqrt prices max_lookback 2 1,
            arg := some (2, 1, (optScan all_bars nprices prices max_lookback 2 1).position) } ∧
      ∃ o, (opt_params 1 all_bars nprices sqrt prices max_lookback).out = some o) ∧
    ((∀ i, max_lookback - 1 ≤ i → i ≤ nprices - 2 →
        -(10 ^ 60 : ℚ) < prices (i + 1) - prices i) →
      -(10 ^ 60 : ℚ) < candScore 0 all_bars nprices sqrt prices max_lookback 2 1 ∧
      optTrial 0 all_bars nprices sqrt prices max_lookback 2 1
          { best_perf := -(10 ^ 60), arg := none }
        = { best_perf := candScore 0 all_bars nprices sqrt prices max_lookback 2 1,
            arg := some (2, 1, (optScan all_bars nprices prices max_lookback 2 1).position) } ∧
      ∃ o, (opt_params 0 all_bars nprices sqrt prices max_lookback).out = some o) := by
  have hpos : 0 < candScore 1 all_bars nprices sqrt prices max_lookback 2 1 := by
    rw [candScore_profit_factor]
    exact profitFactor_pos _
  have hneg : -(10 ^ 60 : ℚ) < 0 := by norm_num
  have h1 : -(10 ^ 60 : ℚ) < candScore 1 all_bars nprices sqrt prices max_lookback 2 1 :=
    lt_trans hneg hpos
  refine ⟨⟨hpos, h1, optTrial_first _ _ _ _ _ _ _ _ (Or.inr (Or.inl rfl)) h1,
    opt_out_some 1 all_bars nprices sqrt prices max_lookback (Or.inr (Or.inl rfl)) hml 2 1
      le_rfl hml le_rfl (by norm_num) h1⟩, ?_⟩
  intro hdiff
  have h0 : -(10 ^ 60 : ℚ) < candScore 0 all_bars nprices sqrt prices max_lookback 2 1 := by
    rw [candScore_mean]
    exact mean_gt_of_forall_gt _ (10 ^ 60) (1 / 10 ^ 30) (by positivity) (by positivity)
      (qualRets_gt all_bars nprices prices max_lookback 2 1 (10 ^ 60) (by positivity) hdiff)
  exact ⟨h0, optTrial_first _ _ _ _ _ _ _ _ (Or.inl rfl) h0,
    opt_out_some 0 all_bars nprices sqrt prices max_lookback (Or.inl rfl) hml 2 1
      le_rfl hml le_rfl (by norm_num) h0⟩

/-- Witness of C18: both criteria on the prices 1..6 with `max_lookback = 2`. -/
theorem optimizer_result_initialized_witness :
    (∃ o, (opt_params 1 0 6 noSqrt (ofList [1, 2, 3, 4, 5, 6]) 2).out = some o) ∧
    (∃ o, (opt_params 0 0 6 noSqrt (ofList [1, 2, 3, 4, 5, 6]) 2).out = some o) :=
  have h := optimizer_result_initialized 0 6 noSqrt (ofList [1, 2, 3, 4, 5, 6]) 2 (by decide)
  ⟨h.1.2.2.2, (h.2 (fun i h1 h2 => by
    have h3 : i ≤ 4 := h2
    interval_cases i <;> decide!)).2.2⟩

/-! ## Hand-off from training to test -/

theorem optKeep_arg (wc : ℤ) (sqrt : ℚ → ℚ) (il it : ℤ) (s : OptState) (b : Best) :
    (optKeep wc sqrt il it s b).arg = b.arg ∨
      (optKeep wc sqrt il it s b).arg = some (il, it, s.position) := by
  by_cases hc : wc = 0 ∨ wc = 1 ∨ wc = 2
  · rw [optKeep_eq _ _ _ _ _ _ hc]
    split_ifs
    · exact Or.inr rfl
    · exact Or.inl rfl
  · have n0 : ¬ wc = 0 := fun h => hc (Or.inl h)
    have n1 : ¬ wc = 1 := fun h => hc (Or.inr (Or.inl h))
    have n2 : ¬ wc = 2 := fun h => hc (Or.inr (Or.inr h))
    left
    simp only [optKeep, if_neg n0, n1, false_and, if_false, if_neg n2]

/-- Whatever the criterion, a recorded candidate lies in the grid and carries the final
position of its own scan. -/
theorem grid_arg (wc ab np : ℤ) (sqrt : ℚ → ℚ) (p : ℤ → ℚ) (ml : ℤ) (l t z : ℤ)
    (h : (forUp (fun ilook b =>
          forUp (fun ithresh b => optTrial wc ab np sqrt p ml ilook ithresh b) 1 (10 + 1) b)
        2 (ml + 1) { best_perf := -(10 ^ 60), arg := none }).arg = some (l, t, z)) :
    2 ≤ l ∧ l ≤ ml ∧ 1 ≤ t ∧ t ≤ 10 ∧ z = (optScan ab np p ml l t).position := by
  by_cases hml : 2 ≤ ml + 1
  · have inv := forUp_inv
      (fun L (b : Best) => ∀ l t z, b.arg = some (l, t, z) →
        2 ≤ l ∧ l < L ∧ 1 ≤ t ∧ t ≤ 10 ∧ z = (optScan ab np p ml l t).position)
      (fun ilook b =>
        forUp (fun ithresh b => optTrial wc ab np sqrt p ml ilook ithresh b) 1 (10 + 1) b)
      2 (ml + 1) { best_perf := -(10 ^ 60), arg := none } hml
      (by intro l t z h; cases h)
      (by
        intro L hL hL' b hb
        have hrow := forUp_inv
          (fun T (b : Best) => ∀ l t z, b.arg = some (l, t, z) →
            2 ≤ l ∧ l < L + 1 ∧ 1 ≤ t ∧ t ≤ 10 ∧ z = (optScan ab np p ml l t).position)
          (fun ithresh b => optTrial wc ab np sqrt p ml L ithresh b) 1 (10 + 1) b (by decide)
          (by
            intro l t z h
            obtain ⟨a1, a2, a3⟩ := hb l t z h
            exact ⟨a1, by omega, a3⟩)
          (by
            intro T hT hT' b' hb' l t z h
            rcases optKeep_arg wc sqrt L T (optScan ab np p ml L T) b' with hk | hk
            · exact hb' l t z (by rw [← hk]; exact h)
            · have h' : (optTrial wc ab np sqrt p ml L T b').arg = some (l, t, z) := h
              rw [optTrial, hk] at h'
              simp only [Option.some.injEq, Prod.mk.injEq] at h'
              obtain ⟨rfl, rfl, rfl⟩ := h'
              exact ⟨hL, by omega, hT, by omega, rfl⟩)
        exact hrow)
    obtain ⟨a1, a2, a3⟩ := inv l t z h
    exact ⟨a1, by omega, a3⟩
  · rw [forUp_empty _ _ _ _ (by omega)] at h
    cases h

theorem opt_params_out (wc ab np : ℤ) (sqrt : ℚ → ℚ) (p : ℤ → ℚ) (ml L : ℤ) (th : ℚ)
    (pos : ℤ) (h : (opt_params wc ab np sqrt p ml).out = some (L, th, pos)) :
    ∃ it : ℤ, th = (1 / 100) * (it : ℚ) ∧ 2 ≤ L ∧ L ≤ ml ∧ 1 ≤ it ∧ it ≤ 10 ∧
      pos = (optScan ab np p ml L it).position := by
  unfold opt_params at h
  simp only [Option.map_eq_some'] at h
  obtain ⟨⟨l, t, z⟩, harg, heq⟩ := h
  simp only [Prod.mk.injEq] at heq
  obtain ⟨rfl, rfl, rfl⟩ := heq
  obtain ⟨a1, a2, a3, a4, a5⟩ := grid_arg wc ab np sqrt p ml l t z harg
  exact ⟨t, rfl, a1, a2, a3, a4, a5⟩

theorem windowSum_shift (p : ℤ → ℚ) (s j L : ℤ) :
    windowSum (shift p s) j L = windowSum p (s + j) L := by
  unfold windowSum shift
  apply Finset.sum_congr rfl
  intro k _
  congr 1
  ring

theorem windowMean_shift (p : ℤ → ℚ) (s j L : ℤ) :
    windowMean (shift p s) j L = windowMean p (s + j) L := by
  rw [windowMean, windowMean, windowSum_shift]

/-- A trial scan continued past the training window and the scan of `comp_return` seeded
with the trial's position after bar `n_train-2` have the same position after every bar from
`s + n_train - 1` on. -/
theorem handoff_position (ab rt np : ℤ) (p : ℤ → ℚ) (ml s nt n L it : ℤ) (hL : 0 ≤ L)
    (hn : ml ≤ nt) (i : ℤ) (hi : s + nt - 1 ≤ i) :
    (optAt ab (shift p s) ml L it (i - s)).position
      = (compAt rt np p (s + nt) n L ((1 / 100) * (it : ℚ))
          (optAt ab (shift p s) ml L it (nt - 2)).position i).position := by
  refine int_ge_induction (fun i =>
    (optAt ab (shift p s) ml L it (i - s)).position
      = (compAt rt np p (s + nt) n L ((1 / 100) * (it : ℚ))
          (optAt ab (shift p s) ml L it (nt - 2)).position i).position) (s + nt - 1) ?_ ?_ i hi
  · show (optAt ab (shift p s) ml L it (s + nt - 1 - s)).position
      = (compAt rt np p (s + nt) n L ((1 / 100) * (it : ℚ))
          (optAt ab (shift p s) ml L it (nt - 2)).position (s + nt - 1)).position
    have e1 : s + nt - 1 - s = nt - 1 := by ring
    have e2 : nt - 1 - 1 = nt - 2 := by ring
    have e3 : s + (nt - 1) = s + nt - 1 := by ring
    rw [e1, optAt_position _ _ _ _ _ _ hL (by omega), e2,
      compAt_position _ _ _ _ _ _ _ _ _ hL le_rfl,
      compAt_before _ _ _ _ _ _ _ _ _ (by omega), windowMean_shift, e3]
    simp only [shift, e3, compInit]
  · intro i hi ih
    show (optAt ab (shift p s) ml L it (i + 1 - s)).position
      = (compAt rt np p (s + nt) n L ((1 / 100) * (it : ℚ))
          (optAt ab (shift p s) ml L it (nt - 2)).position (i + 1)).position
    have e1 : i + 1 - s - 1 = i - s := by ring
    have e3 : s + (i + 1 - s) = i + 1 := by ring
    rw [optAt_position _ _ _ _ _ _ hL (by omega), e1,
      compAt_position _ _ _ _ _ _ _ _ _ hL (by omega), add_sub_cancel_right, ← ih,
      windowMean_shift, e3]
    simp only [shift, e3]

/-- C16. Seamless hand-off from training to test. Let `(L, t, pos)` be the lookback,
threshold and last position `opt_params` hands back for the training window starting at `s`
(`max_lookback ≤ n_train`). Then `t = 0.01*it` for a grid candidate `(L, it)`, and the single
contiguous scan of that candidate that starts Flat at bar `s + max_lookback - 1` and runs
through bar `s + n_train + n - 2` has, after every bar `i` from `s + n_train - 1` to
`s + n_train + n - 2`, the position and the bar return that
`comp_return(istart = s + n_train, ntest = n, L, t, pos)` has after bar `i`. -/
theorem seamless_handoff (which_crit all_bars ret_type nprices : ℤ) (sqrt : ℚ → ℚ)
    (prices : ℤ → ℚ) (max_lookback s n_train n L : ℤ) (t : ℚ) (pos i : ℤ)
    (hopt : (opt_params which_crit all_bars n_train sqrt (shift prices s) max_lookback).out
      = some (L, t, pos))
    (hn : max_lookback ≤ n_train) (hi1 : s + n_train - 1 ≤ i) (hi2 : i ≤ s + n_train + n - 2) :
    ∃ it : ℤ, t = (1 / 100) * (it : ℚ) ∧ 2 ≤ L ∧ L ≤ max_lookback ∧ 1 ≤ it ∧ it ≤ 10 ∧
      optScan all_bars (n_train + n) (shift prices s) max_lookback L it
        = forUp (optBar all_bars (shift prices s) max_lookback L it) (i - s + 1)
            (n_train + n - 1) (optAt all_bars (shift prices s) max_lookback L it (i - s)) ∧
      (optAt all_bars (shift prices s) max_lookback L it (i - s)).position
        = (compAt ret_type nprices prices (s + n_train) n L t pos i).position ∧
      (optAt all_bars (shift prices s) max_lookback L it (i - s)).ret
        = (compAt ret_type nprices prices (s + n_train) n L t pos i).ret := by
  obtain ⟨it, rfl, a1, a2, a3, a4, rfl⟩ :=
    opt_params_out which_crit all_bars n_train sqrt (shift prices s) max_lookback L t pos hopt
  have hp := handoff_position all_bars ret_type nprices prices max_lookback s n_train n L it
    (by omega) hn i hi1
  rw [← optScan_eq_optAt] at hp
  refine ⟨it, rfl, a1, a2, a3, a4, ?_, hp, ?_⟩
  · exact optScan_through _ _ _ _ _ _ _ (by omega) (by omega)
  · have e : s + (i - s + 1) = i + 1 := by ring
    have e' : s + (i - s) = i := by ring
    rw [optAt_ret _ _ _ _ _ _ (by omega), compAt_ret _ _ _ _ _ _ _ _ _ (by omega), hp]
    simp only [shift, e, e']

/-- Witness of C16: prices 1..8, training window `[0, 4)`, two test bars, first test
decision at bar 3. -/
theorem seamless_handoff_witness :
    ∃ it : ℤ, (1 / 100 : ℚ) = (1 / 100) * (it : ℚ) ∧ 2 ≤ (2 : ℤ) ∧ (2 : ℤ) ≤ 2 ∧ 1 ≤ it ∧
      it ≤ 10 ∧
      optScan 0 (4 + 2) (shift (ofList [1, 2, 3, 4, 5, 6, 7, 8]) 0) 2 2 it
        = forUp (optBar 0 (shift (ofList [1, 2, 3, 4, 5, 6, 7, 8]) 0) 2 2 it) (3 - 0 + 1)
            (4 + 2 - 1) (optAt 0 (shift (ofList [1, 2, 3, 4, 5, 6, 7, 8]) 0) 2 2 it (3 - 0)) ∧
      (optAt 0 (shift (ofList [1, 2, 3, 4, 5, 6, 7, 8]) 0) 2 2 it (3 - 0)).position
        = (compAt 0 8 (ofList [1, 2, 3, 4, 5, 6, 7, 8]) (0 + 4) 2 2 (1 / 100) 1 3).position ∧
      (optAt 0 (shift (ofList [1, 2, 3, 4, 5, 6, 7, 8]) 0) 2 2 it (3 - 0)).ret
        = (compAt 0 8 (ofList [1, 2, 3, 4, 5, 6, 7, 8]) (0 + 4) 2 2 (1 / 100) 1 3).ret :=
  seamless_handoff 0 0 0 8 noSqrt (ofList [1, 2, 3, 4, 5, 6, 7, 8]) 2 0 4 2 2 (1 / 100) 1 3
    (by decide!) (by decide) (by decide) (by decide)

/-! ## Exact reconciliation of the two trade accountings -/

/-- Through a run of Long bars that was opened at bar `a`, `open_price` is `prices[a]`. -/
theorem open_price_of_run (np : ℤ) (p : ℤ → ℚ) (is nt lb : ℤ) (th : ℚ) (lp a j : ℤ)
    (ha : is - 1 ≤ a) (haj : a ≤ j)
    (hrun : ∀ i, a ≤ i → i ≤ j → (compAt 2 np p is nt lb th lp i).position ≠ 0)
    (hopen : (compAt 2 np p is nt lb th lp (a - 1)).prior_position = 0) :
    (compAt 2 np p is nt lb th lp j).open_price = p a := by
  refine int_ge_induction (fun j =>
    (∀ i, a ≤ i → i ≤ j → (compAt 2 np p is nt lb th lp i).position ≠ 0) →
    (compAt 2 np p is nt lb th lp j).open_price = p a) a ?_ ?_ j haj hrun
  · intro hrun
    have hpos := hrun a le_rfl le_rfl
    have e := compAt_succ 2 np p is nt lb th lp a ha
    have hO := compBar_open_price np p is nt lb th a (compAt 2 np p is nt lb th lp (a - 1))
    rw [← e] at hO
    rw [hO, if_pos ⟨hpos, by rw [hopen]; simp⟩]
  · intro j hj ih hrun
    have ih := ih (fun i h1 h2 => hrun i h1 (by omega))
    have hpos := hrun (j + 1) (by omega) le_rfl
    have hprev := hrun j hj (by omega)
    have hprior := compAt_prior_position 2 np p is nt lb th lp j (by omega)
    have e := compAt_succ 2 np p is nt lb th lp (j + 1) (by omega)
    rw [add_sub_cancel_right] at e
    have hO := compBar_open_price np p is nt lb th (j + 1) (compAt 2 np p is nt lb th lp j)
    rw [← e] at hO
    rw [hO, if_neg (by rw [hprior]; exact fun h => h.2 hprev), ih]

/-- C17. Exact reconciliation of completed-trade and position-bar totals. For `ntest ≥ 1`
and `f = istart-2+ntest` the final decision bar: the position-bar total minus the
completed-trade total is `prices[f+1] - prices[f]` when the position is Long at bar `f` and
was not Long at the preceding decision bar of the window (or `f` is the window's first bar),
and 0 in every other case. In particular, when the position is Long on the bars `a .. f` of
a run opened at a bar `a < f`, the forced close fires, its return is
`prices[f+1] - prices[a]`, the sum of the bar returns of that run, and the totals coincide. -/
theorem exact_reconciliation (nprices : ℤ) (prices : ℤ → ℚ) (istart ntest lookback : ℤ)
    (thresh : ℚ) (last_pos : ℤ) (hnt : 1 ≤ ntest) :
    ((comp_return 1 nprices prices istart ntest lookback thresh last_pos).sum
        - (comp_return 2 nprices prices istart ntest lookback thresh last_pos).sum
      = if (compAt 2 nprices prices istart ntest lookback thresh last_pos
              (istart - 2 + ntest)).position ≠ 0 ∧
            (ntest = 1 ∨ (compAt 2 nprices prices istart ntest lookback thresh last_pos
              (istart - 2 + ntest - 1)).position = 0)
        then prices (istart - 2 + ntest + 1) - prices (istart - 2 + ntest) else 0) ∧
    (∀ a : ℤ, istart - 1 ≤ a → a < istart - 2 + ntest →
      (∀ i, a ≤ i → i ≤ istart - 2 + ntest →
        (compAt 2 nprices prices istart ntest lookback thresh last_pos i).position ≠ 0) →
      (a = istart - 1 ∨
        (compAt 2 nprices prices istart ntest lookback thresh last_pos (a - 1)).position = 0) →
      comp_return 2 nprices prices istart ntest lookback thresh last_pos
        = (compAt 2 nprices prices istart ntest lookback thresh last_pos
            (istart - 2 + ntest - 1)).returns
          ++ [prices (istart - 2 + ntest + 1) - prices a] ∧
      prices (istart - 2 + ntest + 1) - prices a
        = ∑ k ∈ Finset.range (istart - 2 + ntest + 1 - a).toNat,
            (compAt 2 nprices prices istart ntest lookback thresh last_pos (a + (k : ℤ))).ret ∧
      (comp_return 2 nprices prices istart ntest lookback thresh last_pos).sum
        = (comp_return 1 nprices prices istart ntest lookback thresh last_pos).sum) := by
  have hfin := recon_final nprices prices istart ntest lookback thresh last_pos hnt
  have hiff : (¬ (compAt 2 nprices prices istart ntest lookback thresh last_pos
        (istart - 2 + ntest - 1)).prior_position ≠ 0)
      ↔ (ntest = 1 ∨ (compAt 2 nprices prices istart ntest lookback thresh last_pos
        (istart - 2 + ntest - 1)).position = 0) := by
    by_cases h1 : ntest = 1
    · rw [compAt_before _ _ _ _ _ _ _ _ _ (by omega)]
      simp [compInit, h1]
    · rw [compAt_prior_position _ _ _ _ _ _ _ _ _ (by omega)]
      simp [h1]
  have part1 : (comp_return 1 nprices prices istart ntest lookback thresh last_pos).sum
        - (comp_return 2 nprices prices istart ntest lookback thresh last_pos).sum
      = if (compAt 2 nprices prices istart ntest lookback thresh last_pos
              (istart - 2 + ntest)).position ≠ 0 ∧
            (ntest = 1 ∨ (compAt 2 nprices prices istart ntest lookback thresh last_pos
              (istart - 2 + ntest - 1)).position = 0)
        then prices (istart - 2 + ntest + 1) - prices (istart - 2 + ntest) else 0 := by
    rw [hfin]
    simp only [hiff]
  refine ⟨part1, ?_⟩
  intro a ha1 ha2 hrun hopen
  have hposf := hrun (istart - 2 + ntest) (by omega) le_rfl
  have hposp := hrun (istart - 2 + ntest - 1) (by omega) (by omega)
  have hprior0 : (compAt 2 nprices prices istart ntest lookback thresh last_pos
      (a - 1)).prior_position = 0 := by
    rcases hopen with h | h
    · rw [compAt_before _ _ _ _ _ _ _ _ _ (by omega)]
      rfl
    · by_cases h' : a = istart - 1
      · rw [compAt_before _ _ _ _ _ _ _ _ _ (by omega)]
        rfl
      · rw [compAt_prior_position _ _ _ _ _ _ _ _ _ (by omega), h]
  have hop := open_price_of_run nprices prices istart ntest lookback thresh last_pos a
    (istart - 2 + ntest - 1) ha1 (by omega) (fun i h1 h2 => hrun i h1 (by omega)) hprior0
  have hpriorp := compAt_prior_position 2 nprices prices istart ntest lookback thresh last_pos
    (istart - 2 + ntest - 1) (by omega)
  refine ⟨?_, ?_, ?_⟩
  · have e := compAt_succ 2 nprices prices istart ntest lookback thresh last_pos
      (istart - 2 + ntest) (by omega)
    have hR := compBar_returns_trades nprices prices istart ntest lookback (thresh)
      (istart - 2 + ntest)
      (compAt 2 nprices prices istart ntest lookback thresh last_pos (istart - 2 + ntest - 1))
    rw [← e] at hR
    rw [comp_return, compScan_eq_compAt, hR,
      if_neg (by rw [hpriorp]; exact fun h => h.2 hposp),
      if_neg (by exact fun h => h.2 hposf), if_pos ⟨hposf, rfl⟩, hop]
  · have hret : ∀ k ∈ Finset.range (istart - 2 + ntest + 1 - a).toNat,
        (compAt 2 nprices prices istart ntest lookback thresh last_pos (a + (k : ℤ))).ret
          = prices (a + ((k + 1 : ℕ) : ℤ)) - prices (a + (k : ℤ)) := by
      intro k hk
      have hk' := Finset.mem_range.mp hk
      rw [compAt_ret _ _ _ _ _ _ _ _ _ (by omega), if_pos (hrun _ (by omega) (by omega))]
      congr 2
      push_cast
      ring
    rw [Finset.sum_congr rfl hret,
      Finset.sum_range_sub (fun k : ℕ => prices (a + (k : ℤ)))]
    have e1 : a + (((istart - 2 + ntest + 1 - a).toNat : ℕ) : ℤ) = istart - 2 + ntest + 1 := by
      rw [Int.toNat_of_nonneg (by omega)]; ring
    simp only [e1, Nat.cast_zero, add_zero]
  · have hne : ¬ ((compAt 2 nprices prices istart ntest lookback thresh last_pos
          (istart - 2 + ntest)).position ≠ 0 ∧
        (ntest = 1 ∨ (compAt 2 nprices prices istart ntest lookback thresh last_pos
          (istart - 2 + ntest - 1)).position = 0)) := by
      rintro ⟨_, h | h⟩
      · omega
      · exact hposp h
    rw [if_neg hne] at part1
    linarith

/-- Witness of C17: prices 10,10,10,10,12,13,14, a three-bar window whose position is opened
at bar 4 and still open at the final bar 5. -/
theorem exact_reconciliation_witness :
    (comp_return 1 7 (ofList [10, 10, 10, 10, 12, 13, 14]) 4 3 2 (1 / 100) 0).sum
        - (comp_return 2 7 (ofList [10, 10, 10, 10, 12, 13, 14]) 4 3 2 (1 / 100) 0).sum
      = if (compAt 2 7 (ofList [10, 10, 10, 10, 12, 13, 14]) 4 3 2 (1 / 100) 0
              (4 - 2 + 3)).position ≠ 0 ∧
            ((3 : ℤ) = 1 ∨ (compAt 2 7 (ofList [10, 10, 10, 10, 12, 13, 14]) 4 3 2 (1 / 100) 0
              (4 - 2 + 3 - 1)).position = 0)
        then ofList [10, 10, 10, 10, 12, 13, 14] (4 - 2 + 3 + 1)
          - ofList [10, 10, 10, 10, 12, 13, 14] (4 - 2 + 3) else 0 :=
  (exact_reconciliation 7 (ofList [10, 10, 10, 10, 12, 13, 14]) 4 3 2 (1 / 100) 0
    (by decide)).1

/-! ## comp_return stays inside the price history -/

theorem iterDown_pair_congr (p q : ℤ → ℚ) (n : ℕ) (j : ℤ) (a : ℚ × Bool)
    (h : ∀ m : ℕ, m < n → p (j - m) = q (j - m)) :
    iterDown (fun j (a : ℚ × Bool) => (a.1 + p j, a.2 && decide (0 ≤ j))) n j a
      = iterDown (fun j (a : ℚ × Bool) => (a.1 + q j, a.2 && decide (0 ≤ j))) n j a := by
  apply iterDown_congr
  intro m hm t
  simp only [h m hm]

theorem iterDown_pair_snd (p : ℤ → ℚ) (n : ℕ) (j : ℤ) (a : ℚ × Bool)
    (h : ∀ m : ℕ, m < n → 0 ≤ j - m) :
    (iterDown (fun j (a : ℚ × Bool) => (a.1 + p j, a.2 && decide (0 ≤ j))) n j a).2 = a.2 := by
  induction n generalizing j a with
  | zero => rfl
  | succ n ih =>
    rw [iterDown, ih]
    · have h0 := h 0 (Nat.succ_pos n)
      simp only [Nat.cast_zero, sub_zero] at h0
      simp [h0]
    · intro m hm
      have := h (m + 1) (by omega)
      push_cast at this
      omega

theorem compBar_congr (rt np : ℤ) (p q : ℤ → ℚ) (is nt lb : ℤ) (th : ℚ) (i : ℤ)
    (s : CompState) (hi : p i = q i) (hi1 : p (i + 1) = q (i + 1))
    (hw : i = is - 1 → ∀ j, i - lb < j → j ≤ i → p j = q j)
    (hb : i ≠ is - 1 → p (i - lb) = q (i - lb)) :
    compBar rt np p is nt lb th i s = compBar rt np q is nt lb th i s := by
  by_cases h : i = is - 1
  · have hfd : forDown (fun j (a : ℚ × Bool) => (a.1 + p j, a.2 && decide (0 ≤ j)))
          i (i - lb) (0, s.asserts_ok)
        = forDown (fun j (a : ℚ × Bool) => (a.1 + q j, a.2 && decide (0 ≤ j)))
          i (i - lb) (0, s.asserts_ok) := by
      unfold forDown
      apply iterDown_pair_congr
      intro m hm
      exact hw h _ (by omega) (by omega)
    simp only [compBar, if_pos h, hfd, hi, hi1]
  · simp only [compBar, if_neg h, hb h, hi, hi1]

/-- The locals of `comp_return` after its scan depend only on the prices at the indices
`istart - lookback .. istart + ntest - 1`. -/
theorem compScan_congr (rt np : ℤ) (p q : ℤ → ℚ) (is nt lb : ℤ) (th : ℚ) (lp : ℤ)
    (h1 : 1 ≤ lb) (h : ∀ j, is - lb ≤ j → j ≤ is + nt - 1 → p j = q j) :
    compScan rt np p is nt lb th lp = compScan rt np q is nt lb th lp := by
  unfold compScan
  apply forUp_congr
  intro i hlo hhi t
  apply compBar_congr
  · exact h i (by omega) (by omega)
  · exact h (i + 1) (by omega) (by omega)
  · intro _ j hj1 hj2
    exact h j (by omega) (by omega)
  · intro _
    exact h (i - lb) (by omega) (by omega)

theorem compBar_asserts_ok (rt np : ℤ) (p : ℤ → ℚ) (is nt lb : ℤ) (th : ℚ) (i : ℤ)
    (s : CompState) :
    (compBar rt np p is nt lb th i s).asserts_ok
      = ((if i = is - 1 then
            (forDown (fun j (a : ℚ × Bool) => (a.1 + p j, a.2 && decide (0 ≤ j)))
              i (i - lb) (0, s.asserts_ok)).2
          else s.asserts_ok) && decide (i + 1 < np)) := by
  simp only [compBar, apply_ite CompState.asserts_ok, ite_self, apply_ite Prod.snd]

theorem compAt_asserts_ok (rt np : ℤ) (p : ℤ → ℚ) (is nt lb : ℤ) (th : ℚ) (lp i : ℤ)
    (h2 : lb ≤ is) (h4 : is + nt ≤ np) (hi1 : is - 2 ≤ i) (hi2 : i ≤ is - 2 + nt) :
    (compAt rt np p is nt lb th lp i).asserts_ok = true := by
  refine int_ge_induction (fun i => i ≤ is - 2 + nt →
    (compAt rt np p is nt lb th lp i).asserts_ok = true) (is - 2) ?_ ?_ i hi1 hi2
  · intro _
    rw [compAt_before _ _ _ _ _ _ _ _ _ (by omega)]
    rfl
  · intro i hi ih hle
    have ih := ih (by omega)
    have e := compAt_succ rt np p is nt lb th lp (i + 1) (by omega)
    rw [add_sub_cancel_right] at e
    rw [e, compBar_asserts_ok, ih]
    have hlt : i + 1 + 1 < np := by omega
    by_cases hf : i + 1 = is - 1
    · rw [if_pos hf]
      unfold forDown
      rw [iterDown_pair_snd]
      · simp [hlt]
      · intro m hm
        omega
    · rw [if_neg hf]
      simp [hlt]

theorem foldState_succ (c : Config) (sqrt : ℚ → ℚ) (indet : ℤ × ℚ × ℤ) (np : ℤ) (p : ℤ → ℚ)
    (k : ℕ) :
    foldState c sqrt indet np p (k + 1)
      = foldBody c sqrt indet np p (foldState c sqrt indet np p k) := by
  unfold foldState
  exact Function.iterate_succ_apply' _ _ _

theorem foldState_train_start (c : Config) (sqrt : ℚ → ℚ) (indet : ℤ × ℚ × ℤ) (np : ℤ)
    (p : ℤ → ℚ) (h1 : 1 ≤ c.n_test) (m : ℕ) (hlo : (m : ℤ) * c.n_test < np - c.n_train)
    (k : ℕ) (hk : k ≤ m) :
    (foldState c sqrt indet np p k).train_start = (k : ℤ) * c.n_test := by
  induction k with
  | zero => simp [foldState, wfInit]
  | succ k ih =>
    have ih := ih (by omega)
    have hmul : ((k : ℤ) + 1) * c.n_test ≤ (m : ℤ) * c.n_test :=
      mul_le_mul_of_nonneg_right (by exact_mod_cast hk) (by omega)
    have e : ((k : ℤ) + 1) * c.n_test = (k : ℤ) * c.n_test + c.n_test := by ring
    have e' : ((k + 1 : ℕ) : ℤ) * c.n_test = (k : ℤ) * c.n_test + c.n_test := by
      push_cast; ring
    rw [foldState_succ, foldBody_train_start, ih, e', if_neg (by omega)]

theorem wfLoop_run_state (c : Config) (sqrt : ℚ → ℚ) (indet : ℤ × ℚ × ℤ) (np : ℤ)
    (p : ℤ → ℚ) (h1 : 1 ≤ c.n_test) :
    ∀ (m : ℕ) (s : WFState) (fuel : ℕ), m + 1 ≤ fuel →
      (m : ℤ) * c.n_test < np - s.train_start - c.n_train →
      np - s.train_start - c.n_train ≤ ((m : ℤ) + 1) * c.n_test →
      (wfLoop c sqrt indet np p fuel s).1 = (foldBody c sqrt indet np p)^[m + 1] s := by
  intro m
  induction m with
  | zero =>
    intro s fuel hf hlo hhi
    obtain ⟨fuel, rfl⟩ : ∃ f, fuel = f + 1 := ⟨fuel - 1, by omega⟩
    simp only [Nat.cast_zero, zero_mul, zero_add, one_mul] at hlo hhi
    have hts := foldBody_train_start c sqrt indet np p s
    have hn : (if c.n_test > np - s.train_start - c.n_train then
        np - s.train_start - c.n_train else c.n_test) = np - s.train_start - c.n_train := by
      split_ifs <;> omega
    rw [hn] at hts
    rw [wfLoop_succ, if_pos (by rw [hts]; omega)]
    rfl
  | succ m ih =>
    intro s fuel hf hlo hhi
    obtain ⟨fuel, rfl⟩ : ∃ f, fuel = f + 1 := ⟨fuel - 1, by omega⟩
    have hm0 : (0 : ℤ) ≤ (m : ℤ) * c.n_test :=
      mul_nonneg (Int.ofNat_nonneg m) (by omega)
    have e1 : ((m + 1 : ℕ) : ℤ) * c.n_test = (m : ℤ) * c.n_test + c.n_test := by
      push_cast; ring
    have e2 : (((m + 1 : ℕ) : ℤ) + 1) * c.n_test = (m : ℤ) * c.n_test + c.n_test + c.n_test := by
      push_cast; ring
    have e3 : ((m : ℤ) + 1) * c.n_test = (m : ℤ) * c.n_test + c.n_test := by ring
    rw [e1] at hlo
    rw [e2] at hhi
    have hn : (if c.n_test > np - s.train_start - c.n_train then
        np - s.train_start - c.n_train else c.n_test) = c.n_test := by
      split_ifs <;> omega
    have hts := foldBody_train_start c sqrt indet np p s
    rw [hn] at hts
    rw [wfLoop_succ, if_neg (by rw [hts]; omega),
      ih (foldBody c sqrt indet np p s) fuel (by omega) (by rw [hts]; omega)
        (by rw [hts, e3]; omega)]
    rfl

/-- The assertions of the `comp_return` call of a fold hold when the fold starts inside the
history and `opt_params` has assigned its outputs. -/
theorem foldAsserts_of_assigned (c : Config) (sqrt : ℚ → ℚ) (indet : ℤ × ℚ × ℤ) (np : ℤ)
    (p : ℤ → ℚ) (s : WFState) (h10 : 10 ≤ c.n_train - c.max_lookback)
    (hts : 0 ≤ s.train_start) (hnt : 0 ≤ c.n_test) (hR : s.train_start + c.n_train ≤ np)
    (o : ℤ × ℚ × ℤ)
    (ho : (opt_params c.which_crit c.all_bars c.n_train sqrt (shift p s.train_start)
      c.max_lookback).out = some o) :
    foldAsserts c sqrt indet np p s = true := by
  obtain ⟨L, th, pos⟩ := o
  obtain ⟨it, _, a1, a2, _, _, _⟩ := opt_params_out _ _ _ _ _ _ _ _ _ ho
  unfold foldAsserts
  simp only [ho, Option.getD_some]
  rw [compScan_eq_compAt]
  apply compAt_asserts_ok
  · omega
  · split_ifs <;> omega
  · split_ifs <;> omega
  · exact le_rfl

/-! ## The six-price scenario -/

/-- A grid candidate that scores above the sentinel, at least as high as every candidate
and strictly higher than every earlier one is the result of `opt_params`. -/
theorem opt_params_eq_of_first_max (wc ab np : ℤ) (sqrt : ℚ → ℚ) (p : ℤ → ℚ) (ml : ℤ)
    (hc : wc = 0 ∨ wc = 1 ∨ wc = 2) (hml : 2 ≤ ml) (l t : ℤ) (h1 : 2 ≤ l) (h2 : l ≤ ml)
    (h3 : 1 ≤ t) (h4 : t ≤ 10) (hs : -(10 ^ 60 : ℚ) < candScore wc ab np sqrt p ml l t)
    (hmax : ∀ l' t', 2 ≤ l' → l' ≤ ml → 1 ≤ t' → t' ≤ 10 →
      candScore wc ab np sqrt p ml l' t' ≤ candScore wc ab np sqrt p ml l t)
    (hfirst : ∀ l' t', 2 ≤ l' → l' ≤ ml → 1 ≤ t' → t' ≤ 10 → (l' < l ∨ (l' = l ∧ t' < t)) →
      candScore wc ab np sqrt p ml l' t' < candScore wc ab np sqrt p ml l t) :
    opt_params wc ab np sqrt p ml
      = { best_perf := candScore wc ab np sqrt p ml l t,
          out := some (l, (1 / 100) * (t : ℚ), (optScan ab np p ml l t).position) } := by
  obtain ⟨_, i2, i3, i4⟩ := grid_inv wc ab np sqrt p ml hc hml
  have hb : Before ml (ml + 1) 1 l t := by
    unfold Before
    omega
  have hbig := lt_of_lt_of_le hs (i2 l t hb)
  unfold opt_params
  cases harg : (forUp (fun ilook b =>
      forUp (fun ithresh b => optTrial wc ab np sqrt p ml ilook ithresh b) 1 (10 + 1) b)
      2 (ml + 1) { best_perf := -(10 ^ 60), arg := none }).arg with
  | none => exact absurd (i3 harg) (ne_of_gt hbig)
  | some a =>
    obtain ⟨l0, t0, z⟩ := a
    obtain ⟨k1, k2, k3, _, k5⟩ := i4 l0 t0 z harg
    have hk1 := k1
    unfold Before at hk1
    have hle := i2 l t hb
    rw [k2] at hle
    have e : l0 = l ∧ t0 = t := by
      by_contra hne
      by_cases hlt : l0 < l ∨ (l0 = l ∧ t0 < t)
      · have := hfirst l0 t0 hk1.1 hk1.2.1 hk1.2.2.1 hk1.2.2.2.1 hlt
        exact absurd (lt_of_lt_of_le this hle) (lt_irrefl _)
      · have hbef : Before ml l0 t0 l t := by
          unfold Before
          omega
        have := k5 l t hbef
        exact absurd (lt_of_lt_of_le this
          (hmax l0 t0 hk1.1 hk1.2.1 hk1.2.2.1 hk1.2.2.2.1)) (lt_irrefl _)
    obtain ⟨rfl, rfl⟩ := e
    simp only [harg, Option.map, k2, k3]

theorem shift_zero (p : ℤ → ℚ) : shift p 0 = p := by
  funext j
  simp [shift]

theorem windowMean_two (p : ℤ → ℚ) (i : ℤ) : windowMean p i 2 = (p (i - 1) + p i) / 2 := by
  unfold windowMean windowSum
  have e : (2 : ℤ).toNat = 2 := rfl
  rw [e, Finset.sum_range_succ, Finset.sum_range_one]
  simp only [Nat.cast_zero, sub_zero, Nat.cast_one, Int.cast_ofNat]
  ring

/-- With lookback 2 the exit rule does not fire at a bar whose price is above the previous
one, so a Long position stays Long. -/
theorem stay_long_two (p : ℤ → ℚ) (i : ℤ) (t : ℚ) (h : p (i - 1) < p i) :
    (if p i > t * windowMean p i 2 then (1 : ℤ)
      else if p i < windowMean p i 2 then 0 else 1) = 1 := by
  rw [windowMean_two]
  have : ¬ p i < (p (i - 1) + p i) / 2 := by
    intro hc
    linarith
  split_ifs <;> rfl

theorem scenario_trial (ab : ℤ) (p : ℤ → ℚ) (t : ℤ) (h12 : p 1 < p 2)
    (H : p 1 > (1 + (1 / 100) * (t : ℚ)) * ((p 0 + p 1) / 2)) :
    (optAt ab p 2 2 t 1).position = 1 ∧ (optAt ab p 2 2 t 2).position = 1 ∧
      qualRets ab 4 p 2 2 t = [p 2 - p 1, p 3 - p 2] := by
  have hp1 : (optAt ab p 2 2 t 1).position = 1 := by
    rw [optAt_position _ _ _ _ _ _ (by decide) (by decide), windowMean_two]
    have e : (1 : ℤ) - 1 = 0 := rfl
    rw [e, if_pos H]
  have hp2 : (optAt ab p 2 2 t 2).position = 1 := by
    rw [optAt_position _ _ _ _ _ _ (by decide) (by decide)]
    have e : (2 : ℤ) - 1 = 1 := rfl
    rw [e, hp1]
    have := stay_long_two p 2 (1 + (1 / 100) * (t : ℚ)) (by rw [e]; exact h12)
    exact this
  refine ⟨hp1, hp2, ?_⟩
  have hr1 : (optAt ab p 2 2 t 1).ret = p 2 - p 1 := by
    rw [optAt_ret _ _ _ _ _ _ (by decide), hp1]
    simp
  have hr2 : (optAt ab p 2 2 t 2).ret = p 3 - p 2 := by
    rw [optAt_ret _ _ _ _ _ _ (by decide), hp2]
    simp
  have e0 : (2 : ℤ) - 1 + ((0 : ℕ) : ℤ) = 1 := rfl
  have e1 : (2 : ℤ) - 1 + ((1 : ℕ) : ℤ) = 2 := rfl
  have q0 : qualifies ab p 2 2 t 0 = true := by
    simp only [qualifies, e0, hp1]
    simp
  have q1 : qualifies ab p 2 2 t 1 = true := by
    simp only [qualifies, e1, hp2]
    simp
  have en : ((4 : ℤ) - 2).toNat = 2 := rfl
  have er : List.range 2 = [0, 1] := rfl
  unfold qualRets qualRetsUpTo
  rw [en, er]
  simp only [List.filter, q0, q1, List.map, e0, e1, hr1, hr2]

theorem scenario_test (np : ℤ) (p : ℤ → ℚ) (th : ℚ) (h23 : p 2 < p 3) (h34 : p 3 < p 4) :
    (compAt 0 np p 4 2 2 th 1 3).position = 1 ∧ (compAt 0 np p 4 2 2 th 1 4).position = 1 ∧
      comp_return 0 np p 4 2 2 th 1 = [p 4 - p 3, p 5 - p 4] := by
  have e32 : (3 : ℤ) - 1 = 2 := rfl
  have e43 : (4 : ℤ) - 1 = 3 := rfl
  have hp3 : (compAt 0 np p 4 2 2 th 1 3).position = 1 := by
    rw [compAt_position _ _ _ _ _ _ _ _ _ (by decide) (by decide),
      compAt_before _ _ _ _ _ _ _ _ _ (by decide)]
    exact stay_long_two p 3 (1 + th) (by rw [e32]; exact h23)
  have hp4 : (compAt 0 np p 4 2 2 th 1 4).position = 1 := by
    rw [compAt_position _ _ _ _ _ _ _ _ _ (by decide) (by decide), e43, hp3]
    exact stay_long_two p 4 (1 + th) (by rw [e43]; exact h34)
  refine ⟨hp3, hp4, ?_⟩
  have hr3 : (compAt 0 np p 4 2 2 th 1 3).ret = p 4 - p 3 := by
    rw [compAt_ret _ _ _ _ _ _ _ _ _ (by decide), hp3]
    simp
  have hr4 : (compAt 0 np p 4 2 2 th 1 4).ret = p 5 - p 4 := by
    rw [compAt_ret _ _ _ _ _ _ _ _ _ (by decide), hp4]
    simp
  have h := compAt_returns_all np p 4 2 2 th 1 2
  have e : (4 : ℤ) - 2 + ((2 : ℕ) : ℤ) = 4 - 2 + 2 := rfl
  have e0 : (4 : ℤ) - 1 + ((0 : ℕ) : ℤ) = 3 := rfl
  have e1 : (4 : ℤ) - 1 + ((1 : ℕ) : ℤ) = 4 := rfl
  have er : List.range 2 = [0, 1] := rfl
  rw [comp_return, compScan_eq_compAt, ← e, h, er]
  simp only [List.map, e0, e1, hr3, hr4]

/-- Whatever `all_bars` is, a bar adds its return to `win_sum` when the return is positive
and subtracts it from `lose_sum` otherwise: a bar that is not counted is Flat and has return
0. -/
theorem optBar_win_lose (ab : ℤ) (p : ℤ → ℚ) (ml il it i : ℤ) (s : OptState) :
    (optBar ab p ml il it i s).win_sum
      = (if (optBar ab p ml il it i s).ret > 0 then s.win_sum + (optBar ab p ml il it i s).ret
         else s.win_sum) ∧
    (optBar ab p ml il it i s).lose_sum
      = (if (optBar ab p ml il it i s).ret > 0 then s.lose_sum
         else s.lose_sum - (optBar ab p ml il it i s).ret) := by
  rw [optBar_win_sum, optBar_lose_sum]
  by_cases hc : ab ≠ 0 ∨ (optBar ab p ml il it i s).position ≠ 0
  · simp only [if_pos hc, and_self]
  · have hpos : (optBar ab p ml il it i s).position = 0 := by
      by_contra h
      exact hc (Or.inr h)
    have hret : (optBar ab p ml il it i s).ret = 0 := by
      rw [optBar_ret, if_neg (by simp [hpos])]
    simp only [if_neg hc, hret, lt_self_iff_false, if_false, sub_zero, gt_iff_lt, and_self]

/-- The moving average, position, bar return, `win_sum` and `lose_sum` of a trial scan do not
depend on `all_bars`. -/
theorem optAt_all_bars (ab ab' : ℤ) (p : ℤ → ℚ) (ml il it i : ℤ) :
    (optAt ab p ml il it i).MA_sum = (optAt ab' p ml il it i).MA_sum ∧
    (optAt ab p ml il it i).position = (optAt ab' p ml il it i).position ∧
    (optAt ab p ml il it i).ret = (optAt ab' p ml il it i).ret ∧
    (optAt ab p ml il it i).win_sum = (optAt ab' p ml il it i).win_sum ∧
    (optAt ab p ml il it i).lose_sum = (optAt ab' p ml il it i).lose_sum := by
  by_cases hi : ml - 2 ≤ i
  · refine int_ge_induction (fun i =>
      (optAt ab p ml il it i).MA_sum = (optAt ab' p ml il it i).MA_sum ∧
      (optAt ab p ml il it i).position = (optAt ab' p ml il it i).position ∧
      (optAt ab p ml il it i).ret = (optAt ab' p ml il it i).ret ∧
      (optAt ab p ml il it i).win_sum = (optAt ab' p ml il it i).win_sum ∧
      (optAt ab p ml il it i).lose_sum = (optAt ab' p ml il it i).lose_sum) (ml - 2) ?_ ?_ i hi
    · beta_reduce
      rw [optAt_before _ _ _ _ _ _ (by omega), optAt_before _ _ _ _ _ _ (by omega)]
      exact ⟨rfl, rfl, rfl, rfl, rfl⟩
    · intro i hi ih
      beta_reduce at ih ⊢
      obtain ⟨i1, i2, _, i4, i5⟩ := ih
      have e := optAt_succ ab p ml il it (i + 1) (by omega)
      have e' := optAt_succ ab' p ml il it (i + 1) (by omega)
      rw [add_sub_cancel_right] at e e'
      have hs : (optAt ab p ml il it (i + 1)).MA_sum = (optAt ab' p ml il it (i + 1)).MA_sum := by
        rw [e, e', optBar_MA_sum, optBar_MA_sum, i1]
      have hm : (optAt ab p ml il it (i + 1)).MA_mean
          = (optAt ab' p ml il it (i + 1)).MA_mean := by
        rw [e, e'] at hs ⊢
        rw [optBar_MA_mean, optBar_MA_mean, hs]
      have hp : (optAt ab p ml il it (i + 1)).position
          = (optAt ab' p ml il it (i + 1)).position := by
        rw [e, e'] at hm ⊢
        rw [optBar_position, optBar_position, hm, i2]
      have hr : (optAt ab p ml il it (i + 1)).ret = (optAt ab' p ml il it (i + 1)).ret := by
        rw [e, e'] at hp ⊢
        rw [optBar_ret, optBar_ret, hp]
      refine ⟨hs, hp, hr, ?_, ?_⟩
      · rw [e, e'] at hr ⊢
        rw [(optBar_win_lose ab p ml il it (i + 1) _).1,
          (optBar_win_lose ab' p ml il it (i + 1) _).1, hr, i4]
      · rw [e, e'] at hr ⊢
        rw [(optBar_win_lose ab p ml il it (i + 1) _).2,
          (optBar_win_lose ab' p ml il it (i + 1) _).2, hr, i5]
  · rw [optAt_before _ _ _ _ _ _ (by omega), optAt_before _ _ _ _ _ _ (by omega)]
    exact ⟨rfl, rfl, rfl, rfl, rfl⟩

theorem optTrial_all_bars (ab ab' np : ℤ) (sqrt : ℚ → ℚ) (p : ℤ → ℚ) (ml il it : ℤ)
    (b : Best) :
    optTrial 1 ab np sqrt p ml il it b = optTrial 1 ab' np sqrt p ml il it b := by
  obtain ⟨_, h2, _, h4, h5⟩ := optAt_all_bars ab ab' p ml il it (np - 2)
  rw [← optScan_eq_optAt, ← optScan_eq_optAt] at h2 h4 h5
  rw [optTrial, optTrial, optKeep_eq _ _ _ _ _ _ (Or.inr (Or.inl rfl)),
    optKeep_eq _ _ _ _ _ _ (Or.inr (Or.inl rfl))]
  have h10 : ¬ ((1 : ℤ) = 0) := by decide
  simp only [optScore, h10, if_false, if_true, h2, h4, h5]

/-- C21. The `all_bars` flag is void under the profit-factor criterion. For every price
window and `max_lookback`, `opt_params` with `which_crit = 1` returns the same score,
lookback, threshold and last position for any two values of `all_bars`, in particular for 0
and 1: in every trial a bar changes `win_sum` and `lose_sum` by its return only, a Flat bar
has return 0, and so the position, `win_sum`, `lose_sum` and the score of the trial are the
same. -/
theorem all_bars_void_under_profit_factor (all_bars all_bars' nprices : ℤ) (sqrt : ℚ → ℚ)
    (prices : ℤ → ℚ) (max_lookback ilook ithresh : ℤ) :
    opt_params 1 0 nprices sqrt prices max_lookback
      = opt_params 1 1 nprices sqrt prices max_lookback ∧
    opt_params 1 all_bars nprices sqrt prices max_lookback
      = opt_params 1 all_bars' nprices sqrt prices max_lookback ∧
    (optScan all_bars nprices prices max_lookback ilook ithresh).position
      = (optScan all_bars' nprices prices max_lookback ilook ithresh).position ∧
    (optScan all_bars nprices prices max_lookback ilook ithresh).win_sum
      = (optScan all_bars' nprices prices max_lookback ilook ithresh).win_sum ∧
    (optScan all_bars nprices prices max_lookback ilook ithresh).lose_sum
      = (optScan all_bars' nprices prices max_lookback ilook ithresh).lose_sum ∧
    candScore 1 all_bars nprices sqrt prices max_lookback ilook ithresh
      = candScore 1 all_bars' nprices sqrt prices max_lookback ilook ithresh ∧
    (∀ i, (optAt all_bars prices max_lookback ilook ithresh i).position = 0 →
      max_lookback - 1 ≤ i → (optAt all_bars prices max_lookback ilook ithresh i).ret = 0) := by
  have key : ∀ a a' : ℤ, opt_params 1 a nprices sqrt prices max_lookback
      = opt_params 1 a' nprices sqrt prices max_lookback := by
    intro a a'
    have e : forUp (fun ilook b =>
          forUp (fun ithresh b =>
            optTrial 1 a nprices sqrt prices max_lookback ilook ithresh b) 1 (10 + 1) b)
          2 (max_lookback + 1) { best_perf := -(10 ^ 60), arg := none }
        = forUp (fun ilook b =>
          forUp (fun ithresh b =>
            optTrial 1 a' nprices sqrt prices max_lookback ilook ithresh b) 1 (10 + 1) b)
          2 (max_lookback + 1) { best_perf := -(10 ^ 60), arg := none } := by
      apply forUp_congr
      intro il _ _ b
      apply forUp_congr
      intro it _ _ b'
      exact optTrial_all_bars a a' nprices sqrt prices max_lookback il it b'
    unfold opt_params
    simp only [e]
  obtain ⟨_, h2, _, h4, h5⟩ :=
    optAt_all_bars all_bars all_bars' prices max_lookback ilook ithresh (nprices - 2)
  rw [← optScan_eq_optAt, ← optScan_eq_optAt] at h2 h4 h5
  refine ⟨key 0 1, key all_bars all_bars', h2, h4, h5, ?_, ?_⟩
  · have h10 : ¬ ((1 : ℤ) = 0) := by decide
    simp only [candScore, optScore, h10, if_false, if_true, h4, h5]
  · intro i hpos hi
    rw [optAt_ret _ _ _ _ _ _ hi, if_neg (by simp [hpos])]

end PerWhat

/-! # Theorems about DRAWDOWN -/

namespace Drawdown

/-! ## drawdown -/

theorem cumSum_zero (trades : ℤ → ℚ) : cumSum trades 0 = trades 0 := by
  simp [cumSum]

theorem cumSum_succ (trades : ℤ → ℚ) (m : ℕ) :
    cumSum trades (m + 1) = cumSum trades m + trades ((m : ℤ) + 1) := by
  unfold cumSum
  rw [Finset.sum_range_succ _ (m + 1)]
  push_cast
  rfl

theorem ddBody_cumulative (trades : ℤ → ℚ) (i : ℤ) (s : DDState) :
    (ddBody trades i s).cumulative = s.cumulative + trades i := by
  simp only [ddBody, apply_ite DDState.cumulative, ite_self]

theorem ddBody_max_price (trades : ℤ → ℚ) (i : ℤ) (s : DDState) :
    (ddBody trades i s).max_price
      = if s.cumulative + trades i > s.max_price then s.cumulative + trades i
        else s.max_price := by
  simp only [ddBody, apply_ite DDState.max_price, ite_self]

theorem ddBody_dd (trades : ℤ → ℚ) (i : ℤ) (s : DDState) :
    (ddBody trades i s).dd
      = if s.cumulative + trades i > s.max_price then s.dd
        else if s.max_price - (s.cumulative + trades i) > s.dd then
          s.max_price - (s.cumulative + trades i)
        else s.dd := by
  simp only [ddBody, apply_ite DDState.dd]

/-- Loop invariant of `drawdown` when the trades `0 .. m` have been processed. -/
theorem dd_inv (trades : ℤ → ℚ) (n : ℤ) (hn : 1 ≤ n) :
    ∃ m : ℕ, n = (m : ℤ) + 1 ∧
      (PerWhat.forUp (ddBody trades) 1 n (ddInit trades)).cumulative = cumSum trades m ∧
      (∃ j : ℕ, j ≤ m ∧
        (PerWhat.forUp (ddBody trades) 1 n (ddInit trades)).max_price = cumSum trades j) ∧
      (∀ j : ℕ, j ≤ m →
        cumSum trades j ≤ (PerWhat.forUp (ddBody trades) 1 n (ddInit trades)).max_price) ∧
      (∃ j k : ℕ, j ≤ k ∧ k ≤ m ∧
        (PerWhat.forUp (ddBody trades) 1 n (ddInit trades)).dd
          = cumSum trades j - cumSum trades k) ∧
      (∀ j k : ℕ, j ≤ k → k ≤ m →
        cumSum trades j - cumSum trades k
          ≤ (PerWhat.forUp (ddBody trades) 1 n (ddInit trades)).dd) := by
  refine PerWhat.forUp_inv
    (fun i s => ∃ m : ℕ, i = (m : ℤ) + 1 ∧ s.cumulative = cumSum trades m ∧
      (∃ j : ℕ, j ≤ m ∧ s.max_price = cumSum trades j) ∧
      (∀ j : ℕ, j ≤ m → cumSum trades j ≤ s.max_price) ∧
      (∃ j k : ℕ, j ≤ k ∧ k ≤ m ∧ s.dd = cumSum trades j - cumSum trades k) ∧
      (∀ j k : ℕ, j ≤ k → k ≤ m → cumSum trades j - cumSum trades k ≤ s.dd))
    (ddBody trades) 1 n (ddInit trades) hn ?_ ?_
  · refine ⟨0, by simp, ?_, ⟨0, le_rfl, ?_⟩, ?_, ⟨0, 0, le_rfl, le_rfl, ?_⟩, ?_⟩
    · simp [ddInit, cumSum_zero]
    · simp [ddInit, cumSum_zero]
    · intro j hj
      have : j = 0 := by omega
      subst this
      simp [ddInit, cumSum_zero]
    · simp [ddInit]
    · intro j k hjk hk
      have h1 : k = 0 := by omega
      have h2 : j = 0 := by omega
      subst h1 h2
      simp [ddInit]
  · rintro i _ _ s ⟨m, rfl, hc, ⟨j0, hj0, hmax⟩, hall, ⟨j1, k1, hjk1, hk1, hdd⟩, hbound⟩
    have hS : s.cumulative + trades ((m : ℤ) + 1) = cumSum trades (m + 1) := by
      rw [cumSum_succ, hc]
    have hdd0 : 0 ≤ s.dd := by
      have := hbound 0 0 le_rfl (Nat.zero_le m)
      simpa using this
    refine ⟨m + 1, by push_cast; ring, ?_, ?_, ?_, ?_, ?_⟩
    · rw [ddBody_cumulative, hS]
    · rw [ddBody_max_price, hS]
      split_ifs with h
      · exact ⟨m + 1, le_rfl, rfl⟩
      · exact ⟨j0, by omega, hmax⟩
    · intro j hj
      rw [ddBody_max_price, hS]
      rcases Nat.lt_or_ge j (m + 1) with hlt | hge
      · have := hall j (by omega)
        split_ifs with h
        · linarith
        · exact this
      · have hj' : j = m + 1 := by omega
        subst hj'
        split_ifs with h
        · exact le_rfl
        · exact not_lt.mp h
    · rw [ddBody_dd, hS]
      split_ifs with h h'
      · exact ⟨j1, k1, hjk1, by omega, hdd⟩
      · exact ⟨j0, m + 1, by omega, le_rfl, by rw [hmax]⟩
      · exact ⟨j1, k1, hjk1, by omega, hdd⟩
    · intro j k hjk hk
      rw [ddBody_dd, hS]
      rcases Nat.lt_or_ge k (m + 1) with hlt | hge
      · have := hbound j k hjk (by omega)
        split_ifs with h h'
        · exact this
        · linarith
        · exact this
      · have hk' : k = m + 1 := by omega
        subst hk'
        have hjmax : cumSum trades j ≤ max s.max_price (cumSum trades (m + 1)) := by
          rcases Nat.lt_or_ge j (m + 1) with hlt | hge
          · exact le_trans (hall j (by omega)) (le_max_left _ _)
          · have hj' : j = m + 1 := by omega
            subst hj'
            exact le_max_right _ _
        split_ifs with h h'
        · have : max s.max_price (cumSum trades (m + 1)) = cumSum trades (m + 1) :=
            max_eq_right (le_of_lt h)
          rw [this] at hjmax
          linarith
        · have : max s.max_price (cumSum trades (m + 1)) = s.max_price :=
            max_eq_left (not_lt.mp h)
          rw [this] at hjmax
          linarith
        · have : max s.max_price (cumSum trades (m + 1)) = s.max_price :=
            max_eq_left (not_lt.mp h)
          rw [this] at hjmax
          have := not_lt.mp h'
          linarith

/-- C22. `drawdown` computes the maximum peak-to-trough decline of the cumulative trade
sum. For `n ≥ 1`, with `S_m = trades[0] + ... + trades[m]`, `drawdown(n, trades)` is the
greatest of the values `S_j - S_k` over `0 ≤ j ≤ k < n`; it is `≥ 0`, it is 0 exactly when
`S` is non-decreasing on the indices below `n`, and the first peak is `S_0 = trades[0]`, not
a zero starting equity: the trades -5, 1 give drawdown 0. -/
theorem drawdown_is_max_decline (n : ℤ) (trades : ℤ → ℚ) (hn : 1 ≤ n) :
    IsGreatest
      {x : ℚ | ∃ j k : ℕ, j ≤ k ∧ (k : ℤ) < n ∧ x = cumSum trades j - cumSum trades k}
      (drawdown n trades) ∧
    0 ≤ drawdown n trades ∧
    (drawdown n trades = 0 ↔
      ∀ j k : ℕ, j ≤ k → (k : ℤ) < n → cumSum trades j ≤ cumSum trades k) ∧
    (ddInit trades).max_price = cumSum trades 0 ∧ cumSum trades 0 = trades 0 ∧
    drawdown 2 (PerWhat.ofList [-5, 1]) = 0 := by
  obtain ⟨m, hm, _, _, _, ⟨j1, k1, hjk1, hk1, hdd⟩, hbound⟩ := dd_inv trades n hn
  have hgreat : IsGreatest
      {x : ℚ | ∃ j k : ℕ, j ≤ k ∧ (k : ℤ) < n ∧ x = cumSum trades j - cumSum trades k}
      (drawdown n trades) := by
    constructor
    · exact ⟨j1, k1, hjk1, by omega, hdd⟩
    · rintro x ⟨j, k, hjk, hk, rfl⟩
      exact hbound j k hjk (by omega)
  have h0 : 0 ≤ drawdown n trades := by
    have := hbound 0 0 le_rfl (Nat.zero_le m)
    simpa [drawdown] using this
  refine ⟨hgreat, h0, ?_, ?_, cumSum_zero trades, by decide!⟩
  · constructor
    · intro hz j k hjk hk
      have := hbound j k hjk (by omega)
      have hz' : (PerWhat.forUp (ddBody trades) 1 n (ddInit trades)).dd = 0 := hz
      rw [hz'] at this
      linarith
    · intro hmono
      apply le_antisymm _ h0
      have : (PerWhat.forUp (ddBody trades) 1 n (ddInit trades)).dd
          = cumSum trades j1 - cumSum trades k1 := hdd
      have hle := hmono j1 k1 hjk1 (by omega)
      show (PerWhat.forUp (ddBody trades) 1 n (ddInit trades)).dd ≤ 0
      rw [this]
      linarith
  · rw [cumSum_zero]
    rfl

/-- Witness of C22: the trades 3, -5, 1, -2, whose cumulative sums are 3, -2, -1, -3. -/
theorem drawdown_is_max_decline_witness :
    IsGreatest
      {x : ℚ | ∃ j k : ℕ, j ≤ k ∧ (k : ℤ) < 4 ∧
        x = cumSum (PerWhat.ofList [3, -5, 1, -2]) j - cumSum (PerWhat.ofList [3, -5, 1, -2]) k}
      (drawdown 4 (PerWhat.ofList [3, -5, 1, -2])) :=
  (drawdown_is_max_decline 4 (PerWhat.ofList [3, -5, 1, -2]) (by decide)).1

/-! ## Quantile indices -/

theorem quantileIndex_nonneg (n : ℤ) (frac : ℚ) : 0 ≤ quantileIndex n frac := by
  unfold quantileIndex
  simp only
  split_ifs with h
  · exact le_rfl
  · exact not_lt.mp h

theorem truncInt_le_of_lt (x : ℚ) (z : ℤ) (hz : 0 ≤ z) (h : x < ((z + 1 : ℤ) : ℚ)) :
    truncInt x ≤ z := by
  unfold truncInt
  split_ifs with h0
  · have : ⌊x⌋ < z + 1 := Int.floor_lt.mpr h
    omega
  · have hx : x ≤ ((0 : ℤ) : ℚ) := by
      push_cast
      exact le_of_lt (not_le.mp h0)
    have : ⌈x⌉ ≤ 0 := Int.ceil_le.mpr hx
    omega

theorem truncInt_ge_of_le (x : ℚ) (z : ℤ) (hz : 0 ≤ z) (h : ((z : ℤ) : ℚ) ≤ x) :
    z ≤ truncInt x := by
  have h0 : (0 : ℚ) ≤ x := le_trans (by exact_mod_cast hz) h
  unfold truncInt
  rw [if_pos h0]
  exact Int.le_floor.mpr h

theorem quantileIndex_le_iff (n : ℤ) (frac : ℚ) (hn : 1 ≤ n) :
    quantileIndex n frac ≤ n - 1 ↔ frac < 1 := by
  have hpos : (0 : ℚ) < ((n + 1 : ℤ) : ℚ) := by exact_mod_cast (by omega : (0 : ℤ) < n + 1)
  constructor
  · intro hle
    by_contra hge
    have hge' : (1 : ℚ) ≤ frac := not_lt.mp hge
    have hx : ((n + 1 : ℤ) : ℚ) ≤ frac * ((n + 1 : ℤ) : ℚ) := by
      nlinarith
    have ht := truncInt_ge_of_le _ (n + 1) (by omega) hx
    unfold quantileIndex at hle
    simp only at hle
    rw [if_neg (by omega)] at hle
    omega
  · intro hlt
    have hx : frac * ((n + 1 : ℤ) : ℚ) < ((n + 1 : ℤ) : ℚ) := by
      nlinarith
    have ht := truncInt_le_of_lt _ n (by omega) hx
    unfold quantileIndex
    simp only
    split_ifs with h
    · omega
    · omega

theorem quantileIndex_one (n : ℤ) (hn : 1 ≤ n) : quantileIndex n 1 = n := by
  unfold quantileIndex truncInt
  simp only [one_mul]
  have h0 : (0 : ℚ) ≤ ((n + 1 : ℤ) : ℚ) := by exact_mod_cast (by omega : (0 : ℤ) ≤ n + 1)
  rw [if_pos h0, Int.floor_intCast, if_neg (by omega)]
  ring

theorem drawdown_quantiles_indices (nboot : ℤ) (work : ℤ → ℚ) :
    (drawdown_quantiles nboot work).1
      = (quantileIndex nboot (999 / 1000), quantileIndex nboot (99 / 100),
          quantileIndex nboot (95 / 100), quantileIndex nboot (90 / 100)) := rfl

theorem main_checks_bound_conf (c : DDConfig) (b : ℚ) :
    main_checks { c with bound_conf := b } = main_checks c := rfl

/-- C23. Quantile index bounds. For `n ≥ 1` and every fraction `frac`, the index
`k = max(0, trunc(frac * (n+1)) - 1)` at which `find_quantile` reads its array lies in
`[0, n-1]` if and only if `frac < 1`; at `frac = 1` it is `n`, one past the end. The indices
of `drawdown_quantiles` are those of the fractions 0.999, 0.99, 0.95 and 0.90 and lie in
`[0, nboot-1]` for `nboot ≥ 1`. The parameter checks of `main` do not look at `bound_conf`,
and for a configuration they accept with `bound_conf = 1` both fractions
`1 - (1 - bound_conf)/2` and `bound_conf` give the index `bootstrap_reps`, one past the end
of the arrays of `bootstrap_reps` values. -/
theorem quantile_index_bounds (n : ℤ) (frac : ℚ) (data work : ℤ → ℚ) (c : DDConfig) (b : ℚ)
    (hn : 1 ≤ n) :
    ((0 ≤ quantileIndex n frac ∧ quantileIndex n frac ≤ n - 1) ↔ frac < 1) ∧
    find_quantile n data frac = data (quantileIndex n frac) ∧
    quantileIndex n 1 = n ∧ find_quantile n data 1 = data n ∧
    ((drawdown_quantiles n work).1
        = (quantileIndex n (999 / 1000), quantileIndex n (99 / 100),
            quantileIndex n (95 / 100), quantileIndex n (90 / 100)) ∧
      (0 ≤ quantileIndex n (999 / 1000) ∧ quantileIndex n (999 / 1000) ≤ n - 1) ∧
      (0 ≤ quantileIndex n (99 / 100) ∧ quantileIndex n (99 / 100) ≤ n - 1) ∧
      (0 ≤ quantileIndex n (95 / 100) ∧ quantileIndex n (95 / 100) ≤ n - 1) ∧
      (0 ≤ quantileIndex n (90 / 100) ∧ quantileIndex n (90 / 100) ≤ n - 1)) ∧
    main_checks { c with bound_conf := b } = main_checks c ∧
    (main_checks c = true →
      main_checks { c with bound_conf := 1 } = true ∧
      main_bound_indices { c with bound_conf := 1 } = (c.bootstrap_reps, c.bootstrap_reps) ∧
      ¬ (c.bootstrap_reps ≤ c.bootstrap_reps - 1)) := by
  have hin : ∀ f : ℚ, f < 1 → (0 ≤ quantileIndex n f ∧ quantileIndex n f ≤ n - 1) :=
    fun f hf => ⟨quantileIndex_nonneg n f, (quantileIndex_le_iff n f hn).mpr hf⟩
  refine ⟨?_, rfl, quantileIndex_one n hn, ?_, ?_, rfl, ?_⟩
  · constructor
    · intro h
      exact (quantileIndex_le_iff n frac hn).mp h.2
    · exact hin frac
  · rw [find_quantile, quantileIndex_one n hn]
  · exact ⟨rfl, hin _ (by norm_num), hin _ (by norm_num), hin _ (by norm_num),
      hin _ (by norm_num)⟩
  · intro hc
    have hreps : 10 ≤ c.bootstrap_reps := by
      unfold main_checks at hc
      by_contra hlt
      have hlt' : c.bootstrap_reps < 10 := by omega
      simp [hlt'] at hc
    refine ⟨hc, ?_, by omega⟩
    unfold main_bound_indices
    have e : (1 : ℚ) - (1 - 1) / 2 = 1 := by norm_num
    simp only [e, quantileIndex_one c.bootstrap_reps (by omega)]

/-- Witness of C23: ten values, the fractions 0.999 (index 9) and 1 (index 10). -/
theorem quantile_index_bounds_witness :
    ((0 ≤ quantileIndex 10 (999 / 1000) ∧ quantileIndex 10 (999 / 1000) ≤ 10 - 1)
      ↔ (999 / 1000 : ℚ) < 1) ∧
    quantileIndex 10 1 = 10 :=
  have h := quantile_index_bounds 10 (999 / 1000) (fun _ => 0) (fun _ => 0)
    { n_changes := 252, n_trades := 252, win_prob := 1 / 2, bound_conf := 1,
      bootstrap_reps := 10, quantile_reps := 10, test_reps := 1 } 1 (by decide)
  ⟨h.1, h.2.2.1⟩

end Drawdown

/-! # Theorems about PER_WHAT in machine arithmetic -/

namespace Machine

set_option maxRecDepth 100000

/-! ## Order of doubles -/

theorem dbl_lt_iff (a b : Dbl) : a < b ↔ Dbl.lt a b = true := Iff.rfl

theorem dbl_lt_irrefl (a : Dbl) : ¬ (a < a) := by
  rw [dbl_lt_iff]
  cases a <;> simp [Dbl.lt]

theorem dbl_lt_trans {a b c : Dbl} (h1 : a < b) (h2 : b < c) : a < c := by
  rw [dbl_lt_iff] at h1 h2 ⊢
  cases a <;> cases b <;> cases c <;> simp [Dbl.lt] at h1 h2 ⊢
  exact lt_trans h1 h2

theorem dbl_lt_isNum {a b : Dbl} (h : a < b) : a.isNum = true ∧ b.isNum = true := by
  rw [dbl_lt_iff] at h
  cases a <;> cases b <;> simp [Dbl.lt, Dbl.isNum] at h ⊢

theorem dbl_lt_total (a b : Dbl) (ha : a.isNum = true) (hb : b.isNum = true) :
    a < b ∨ a = b ∨ b < a := by
  simp only [dbl_lt_iff]
  cases a <;> cases b <;> simp [Dbl.lt, Dbl.isNum] at ha hb ⊢
  exact lt_trichotomy _ _

/-! ## The grid search of opt_params -/

theorem m_optKeep_eq (wc : ℤ) (sqrt : Dbl → Dbl) (il it : ℤ) (s : OptState) (b : Best)
    (hc : wc = 0 ∨ wc = 1 ∨ wc = 2) :
    optKeep wc sqrt il it s b
      = if optScore wc sqrt s > b.best_perf then
          { best_perf := optScore wc sqrt s, arg := some (il, it, s.position) }
        else b := by
  rcases hc with rfl | rfl | rfl
  · simp only [optKeep, optScore, if_true]
  · have h10 : ¬ ((1 : ℤ) = 0) := by decide
    have h12 : ¬ ((1 : ℤ) = 2) := by decide
    simp only [optKeep, optScore, h10, h12, if_false, if_true, true_and]
  · have h20 : ¬ ((2 : ℤ) = 0) := by decide
    have h21 : ¬ ((2 : ℤ) = 1) := by decide
    simp only [optKeep, optScore, h20, h21, if_false, if_true, false_and]

theorem m_BestInv_of_iff (score : ℤ → ℤ → Dbl) (pos : ℤ → ℤ → ℤ) (ml L T L' T' : ℤ) (b : Best)
    (h : ∀ l t, PerWhat.Before ml L T l t ↔ PerWhat.Before ml L' T' l t)
    (hb : BestInv score pos ml L T b) :
    BestInv score pos ml L' T' b := by
  obtain ⟨h1, h2, h3, h4⟩ := hb
  refine ⟨h1, fun l t hlt => h2 l t ((h l t).2 hlt), h3, fun l t z hz => ?_⟩
  obtain ⟨k1, k2⟩ := h4 l t z hz
  exact ⟨(h l t).1 k1, k2⟩

theorem m_BestInv_step (score : ℤ → ℤ → Dbl) (pos : ℤ → ℤ → ℤ) (ml L T : ℤ) (b : Best)
    (hL : 2 ≤ L) (hL' : L ≤ ml) (hT : 1 ≤ T) (hT' : T ≤ 10)
    (hb : BestInv score pos ml L T b) :
    BestInv score pos ml L (T + 1)
      (if score L T > b.best_perf then
        { best_perf := score L T, arg := some (L, T, pos L T) } else b) := by
  obtain ⟨h1, h2, h3, h4⟩ := hb
  have hcase : ∀ l t, PerWhat.Before ml L (T + 1) l t →
      PerWhat.Before ml L T l t ∨ (l = L ∧ t = T) := by
    intro l t h
    unfold PerWhat.Before at h ⊢
    omega
  have hmono : ∀ l t, PerWhat.Before ml L T l t → PerWhat.Before ml L (T + 1) l t := by
    intro l t h
    unfold PerWhat.Before at h ⊢
    omega
  have hself : PerWhat.Before ml L (T + 1) L T := by
    unfold PerWhat.Before
    omega
  by_cases hgt : score L T > b.best_perf
  · rw [if_pos hgt]
    have hsent : Dbl.lit (-(10 ^ 60)) < score L T := by
      rcases h1 with h1 | h1
      · rw [← h1]; exact hgt
      · exact dbl_lt_trans h1 hgt
    have hnot : ∀ l t, PerWhat.Before ml L T l t → ¬ (score L T < score l t) :=
      fun l t hp hlt => h2 l t hp (dbl_lt_trans hgt hlt)
    refine ⟨Or.inr hsent, ?_, ?_, ?_⟩
    · intro l t hlt
      rcases hcase l t hlt with hp | ⟨rfl, rfl⟩
      · exact hnot l t hp
      · exact dbl_lt_irrefl _
    · intro hn
      cases hn
    · intro l t z hz
      simp only [Option.some.injEq, Prod.mk.injEq] at hz
      obtain ⟨rfl, rfl, rfl⟩ := hz
      refine ⟨hself, rfl, rfl, hsent, fun l' t' hp => ⟨hnot l' t' hp, fun he => ?_⟩⟩
      have := h2 l' t' hp
      rw [he] at this
      exact this hgt
  · rw [if_neg hgt]
    refine ⟨h1, ?_, h3, ?_⟩
    · intro l t hlt
      rcases hcase l t hlt with hp | ⟨rfl, rfl⟩
      · exact h2 l t hp
      · exact hgt
    · intro l t z hz
      obtain ⟨k1, k2⟩ := h4 l t z hz
      exact ⟨hmono l t k1, k2⟩

/-- The record after the two grid loops of `opt_params` satisfies `BestInv` for the whole
grid. -/
theorem m_grid_inv (wc ab np : ℤ) (sqrt : Dbl → Dbl) (p : ℤ → Dbl) (ml : ℤ)
    (hc : wc = 0 ∨ wc = 1 ∨ wc = 2) (hml : 2 ≤ ml) :
    BestInv (candScore wc ab np sqrt p ml) (fun l t => (optScan ab np p ml l t).position)
      ml (ml + 1) 1
      (PerWhat.forUp (fun ilook b =>
          PerWhat.forUp (fun ithresh b => optTrial wc ab np sqrt p ml ilook ithresh b)
            1 (10 + 1) b)
        2 (ml + 1) { best_perf := Dbl.lit (-(10 ^ 60)), arg := none }) := by
  refine PerWhat.forUp_inv
    (fun L b => BestInv (candScore wc ab np sqrt p ml)
      (fun l t => (optScan ab np p ml l t).position) ml L 1 b) _ 2 (ml + 1) _ (by omega) ?_ ?_
  · refine ⟨Or.inl rfl, ?_, fun _ => rfl, ?_⟩
    · intro l t h
      unfold PerWhat.Before at h
      omega
    · intro l t z h
      cases h
  · intro L hL hL' b hb
    have hrow := PerWhat.forUp_inv
      (fun T b => BestInv (candScore wc ab np sqrt p ml)
        (fun l t => (optScan ab np p ml l t).position) ml L T b)
      (fun ithresh b => optTrial wc ab np sqrt p ml L ithresh b) 1 (10 + 1) b (by decide) hb
      (by
        intro T hT hT' b' hb'
        have := m_BestInv_step (candScore wc ab np sqrt p ml)
          (fun l t => (optScan ab np p ml l t).position) ml L T b' hL (by omega) hT
          (by omega) hb'
        simpa only [optTrial, m_optKeep_eq _ _ _ _ _ _ hc, candScore] using this)
    refine m_BestInv_of_iff _ _ ml L (10 + 1) (L + 1) 1 _ ?_ hrow
    intro l t
    unfold PerWhat.Before
    constructor <;> intro h <;> omega

theorem wrap_of_range (x : ℤ) (h1 : -2147483648 ≤ x) (h2 : x < 2147483648) : wrap x = x := by
  unfold wrap
  omega

theorem m_optScan_eq_optAt (ab np : ℤ) (p : ℤ → Dbl) (ml il it : ℤ)
    (h1 : -2147483648 < np) (h2 : np < 2147483648) :
    optScan ab np p ml il it = optAt ab p ml il it (np - 2) := by
  unfold optScan optAt
  rw [wrap_of_range (np - 1) (by omega) (by omega)]
  congr 1
  ring

/-- C2. Optimizer argmax with first-found tie-break, in the arithmetic of the program. For
`2 ≤ max_lookback < 2^31 - 1`, `nprices` an `int`, `which_crit` in {0,1,2} and a window on
which some candidate scores above the sentinel `-1e60`, there is a candidate `(l, t)` of the
grid such that `opt_params` returns its score as `best_perf`, `(l, 0.01*t)` as lookback and
threshold and, as `last_pos`, the position after decision bar `nprices-2` of that
candidate's scan. This score is a number (not NaN) and the maximum over the grid: no
candidate scores above it, and every candidate whose score is a number scores below it or
equal to it. It is the first to attain the maximum: no candidate that comes earlier in the
enumeration order (`ilook` ascending, then `ithresh` ascending) has an equal score, and each
earlier one whose score is a number scores strictly below. The scores are the doubles the
program computes, so candidates that differ only in rounding error tie. -/
theorem opt_params_argmax (which_crit all_bars nprices : ℤ) (sqrt : Dbl → Dbl)
    (prices : ℤ → Dbl) (max_lookback : ℤ) (hml : 2 ≤ max_lookback)
    (_hml2 : max_lookback < 2147483647)
    (hnp1 : -2147483648 < nprices) (hnp2 : nprices < 2147483648)
    (hc : which_crit = 0 ∨ which_crit = 1 ∨ which_crit = 2)
    (hex : ∃ l t, 2 ≤ l ∧ l ≤ max_lookback ∧ 1 ≤ t ∧ t ≤ 10 ∧
      Dbl.lit (-(10 ^ 60)) < candScore which_crit all_bars nprices sqrt prices max_lookback l t) :
    ∃ l t, 2 ≤ l ∧ l ≤ max_lookback ∧ 1 ≤ t ∧ t ≤ 10 ∧
      opt_params which_crit all_bars nprices sqrt prices max_lookback
        = { best_perf := candScore which_crit all_bars nprices sqrt prices max_lookback l t,
            out := some (l, Dbl.lit (1 / 100) * Dbl.ofInt t,
              (optAt all_bars prices max_lookback l t (nprices - 2)).position) } ∧
      (candScore which_crit all_bars nprices sqrt prices max_lookback l t).isNum = true ∧
      (∀ l' t', 2 ≤ l' → l' ≤ max_lookback → 1 ≤ t' → t' ≤ 10 →
        ¬ (candScore which_crit all_bars nprices sqrt prices max_lookback l t
            < candScore which_crit all_bars nprices sqrt prices max_lookback l' t')) ∧
      (∀ l' t', 2 ≤ l' → l' ≤ max_lookback → 1 ≤ t' → t' ≤ 10 →
        (candScore which_crit all_bars nprices sqrt prices max_lookback l' t').isNum = true →
        (candScore which_crit all_bars nprices sqrt prices max_lookback l' t'
            < candScore which_crit all_bars nprices sqrt prices max_lookback l t ∨
          candScore which_crit all_bars nprices sqrt prices max_lookback l' t'
            = candScore which_crit all_bars nprices sqrt prices max_lookback l t)) ∧
      (∀ l' t', 2 ≤ l' → l' ≤ max_lookback → 1 ≤ t' → t' ≤ 10 → (l' < l ∨ (l' = l ∧ t' < t)) →
        candScore which_crit all_bars nprices sqrt prices max_lookback l' t'
          ≠ candScore which_crit all_bars nprices sqrt prices max_lookback l t ∧
        ((candScore which_crit all_bars nprices sqrt prices max_lookback l' t').isNum = true →
          candScore which_crit all_bars nprices sqrt prices max_lookback l' t'
            < candScore which_crit all_bars nprices sqrt prices max_lookback l t)) := by
  have inv := m_grid_inv which_crit all_bars nprices sqrt prices max_lookback hc hml
  have hopt : ∀ b : Best,
      b = PerWhat.forUp (fun ilook b =>
          PerWhat.forUp (fun ithresh b =>
            optTrial which_crit all_bars nprices sqrt prices max_lookback ilook ithresh b)
            1 (10 + 1) b)
        2 (max_lookback + 1) { best_perf := Dbl.lit (-(10 ^ 60)), arg := none } →
      opt_params which_crit all_bars nprices sqrt prices max_lookback
        = { best_perf := b.best_perf,
            out := b.arg.map (fun a => (a.1, Dbl.lit (1 / 100) * Dbl.ofInt a.2.1, a.2.2)) } := by
    intro b hb
    rw [hb]
    rfl
  generalize PerWhat.forUp (fun ilook b =>
          PerWhat.forUp (fun ithresh b =>
            optTrial which_crit all_bars nprices sqrt prices max_lookback ilook ithresh b)
            1 (10 + 1) b)
        2 (max_lookback + 1) { best_perf := Dbl.lit (-(10 ^ 60)), arg := none } = b at inv hopt
  have hopt := hopt b rfl
  obtain ⟨i1, i2, i3, i4⟩ := inv
  obtain ⟨l0, t0, a1, a2, a3, a4, a5⟩ := hex
  have hall : ∀ l' t', 2 ≤ l' → l' ≤ max_lookback → 1 ≤ t' → t' ≤ 10 →
      PerWhat.Before max_lookback (max_lookback + 1) 1 l' t' := by
    intro l' t' b1 b2 b3 b4
    unfold PerWhat.Before
    omega
  have hne : b.best_perf ≠ Dbl.lit (-(10 ^ 60)) := by
    intro he
    have := i2 l0 t0 (hall l0 t0 a1 a2 a3 a4)
    rw [he] at this
    exact this a5
  cases harg : b.arg with
  | none => exact absurd (i3 harg) hne
  | some a =>
    obtain ⟨l, t, z⟩ := a
    obtain ⟨k1, k2, k3, k4, k5⟩ := i4 l t z harg
    have hk1 := k1
    unfold PerWhat.Before at hk1
    have hnum := (dbl_lt_isNum k4).2
    refine ⟨l, t, hk1.1, hk1.2.1, hk1.2.2.1, hk1.2.2.2.1, ?_, hnum, ?_, ?_, ?_⟩
    · rw [hopt, harg, k2, k3]
      simp only [Option.map, m_optScan_eq_optAt _ _ _ _ _ _ hnp1 hnp2]
    · intro l' t' b1 b2 b3 b4
      rw [← k2]
      exact i2 l' t' (hall l' t' b1 b2 b3 b4)
    · intro l' t' b1 b2 b3 b4 hn
      have h := i2 l' t' (hall l' t' b1 b2 b3 b4)
      rw [k2] at h
      rcases dbl_lt_total _ _ hn hnum with h' | h' | h'
      · exact Or.inl h'
      · exact Or.inr h'
      · exact absurd h' h
    · intro l' t' b1 b2 b3 b4 b5
      have hb : PerWhat.Before max_lookback l t l' t' := by
        unfold PerWhat.Before
        omega
      obtain ⟨q1, q2⟩ := k5 l' t' hb
      refine ⟨q2, fun hn => ?_⟩
      rcases dbl_lt_total _ _ hn hnum with h' | h' | h'
      · exact h'
      · exact absurd h' q2
      · exact absurd h' q1

/-- Witness of C2: mean-return criterion on the prices 5, 6, 2, 5, 1 with `max_lookback = 2`.
All ten candidates score exactly `-4.0` (`1 + 1e-30` rounds to `1`), and the first of them,
threshold `0.01`, is returned. -/
theorem opt_params_argmax_witness :
    (∃ l t, 2 ≤ l ∧ l ≤ 2 ∧ 1 ≤ t ∧ t ≤ 10 ∧
      opt_params 0 0 5 (fun x => x)
          (ofList [Dbl.fin 5, Dbl.fin 6, Dbl.fin 2, Dbl.fin 5, Dbl.fin 1]) 2
        = { best_perf := candScore 0 0 5 (fun x => x)
              (ofList [Dbl.fin 5, Dbl.fin 6, Dbl.fin 2, Dbl.fin 5, Dbl.fin 1]) 2 l t,
            out := some (l, Dbl.lit (1 / 100) * Dbl.ofInt t,
              (optAt 0 (ofList [Dbl.fin 5, Dbl.fin 6, Dbl.fin 2, Dbl.fin 5, Dbl.fin 1]) 2 l t
                (5 - 2)).position) }) ∧
    opt_params 0 0 5 (fun x => x)
        (ofList [Dbl.fin 5, Dbl.fin 6, Dbl.fin 2, Dbl.fin 5, Dbl.fin 1]) 2
      = { best_perf := Dbl.fin (-4), out := some (2, Dbl.lit (1 / 100), 1) } ∧
    candScore 0 0 5 (fun x => x)
        (ofList [Dbl.fin 5, Dbl.fin 6, Dbl.fin 2, Dbl.fin 5, Dbl.fin 1]) 2 2 10 = Dbl.fin (-4) :=
  have h := opt_params_argmax 0 0 5 (fun x => x)
    (ofList [Dbl.fin 5, Dbl.fin 6, Dbl.fin 2, Dbl.fin 5, Dbl.fin 1]) 2 (by decide) (by decide)
    (by decide) (by decide) (Or.inl rfl)
    ⟨2, 1, by decide, by decide, by decide, by decide, by decide!⟩
  have ⟨l, t, h1, h2, h3, h4, h5, _⟩ := h
  ⟨⟨l, t, h1, h2, h3, h4, h5⟩, by decide!, by decide!⟩

/-! ## The optimizer assigns a candidate of the grid, or nothing -/

theorem m_optKeep_arg (wc : ℤ) (sqrt : Dbl → Dbl) (il it : ℤ) (s : OptState) (b : Best) :
    (optKeep wc sqrt il it s b).arg = b.arg ∨
      (optKeep wc sqrt il it s b).arg = some (il, it, s.position) := by
  by_cases hc : wc = 0 ∨ wc = 1 ∨ wc = 2
  · rw [m_optKeep_eq _ _ _ _ _ _ hc]
    split_ifs
    · exact Or.inr rfl
    · exact Or.inl rfl
  · have n0 : ¬ wc = 0 := fun h => hc (Or.inl h)
    have n1 : ¬ wc = 1 := fun h => hc (Or.inr (Or.inl h))
    have n2 : ¬ wc = 2 := fun h => hc (Or.inr (Or.inr h))
    left
    simp only [optKeep, if_neg n0, n1, false_and, if_false, if_neg n2]

/-- Whatever the criterion, a recorded candidate lies in the grid and carries the final
position of its own scan. -/
theorem m_grid_arg (wc ab np : ℤ) (sqrt : Dbl → Dbl) (p : ℤ → Dbl) (ml : ℤ) (l t z : ℤ)
    (h : (PerWhat.forUp (fun ilook b =>
          PerWhat.forUp (fun ithresh b => optTrial wc ab np sqrt p ml ilook ithresh b)
            1 (10 + 1) b)
        2 (ml + 1) { best_perf := Dbl.lit (-(10 ^ 60)), arg := none }).arg = some (l, t, z)) :
    2 ≤ l ∧ l ≤ ml ∧ 1 ≤ t ∧ t ≤ 10 ∧ z = (optScan ab np p ml l t).position := by
  by_cases hml : 2 ≤ ml + 1
  · have inv := PerWhat.forUp_inv
      (fun L (b : Best) => ∀ l t z, b.arg = some (l, t, z) →
        2 ≤ l ∧ l < L ∧ 1 ≤ t ∧ t ≤ 10 ∧ z = (optScan ab np p ml l t).position)
      (fun ilook b =>
        PerWhat.forUp (fun ithresh b => optTrial wc ab np sqrt p ml ilook ithresh b)
          1 (10 + 1) b)
      2 (ml + 1) { best_perf := Dbl.lit (-(10 ^ 60)), arg := none } hml
      (by intro l t z h; cases h)
      (by
        intro L hL hL' b hb
        have hrow := PerWhat.forUp_inv
          (fun T (b : Best) => ∀ l t z, b.arg = some (l, t, z) →
            2 ≤ l ∧ l < L + 1 ∧ 1 ≤ t ∧ t ≤ 10 ∧ z = (optScan ab np p ml l t).position)
          (fun ithresh b => optTrial wc ab np sqrt p ml L ithresh b) 1 (10 + 1) b (by decide)
          (by
            intro l t z h
            obtain ⟨a1, a2, a3⟩ := hb l t z h
            exact ⟨a1, by omega, a3⟩)
          (by
            intro T hT hT' b' hb' l t z h
            rcases m_optKeep_arg wc sqrt L T (optScan ab np p ml L T) b' with hk | hk
            · exact hb' l t z (by rw [← hk]; exact h)
            · have h' : (optTrial wc ab np sqrt p ml L T b').arg = some (l, t, z) := h
              rw [optTrial, hk] at h'
              simp only [Option.some.injEq, Prod.mk.injEq] at h'
              obtain ⟨rfl, rfl, rfl⟩ := h'
              exact ⟨hL, by omega, hT, by omega, rfl⟩)
        exact hrow)
    obtain ⟨a1, a2, a3⟩ := inv l t z h
    exact ⟨a1, by omega, a3⟩
  · rw [PerWhat.forUp_empty _ _ _ _ (by omega)] at h
    cases h

theorem m_opt_params_out (wc ab np : ℤ) (sqrt : Dbl → Dbl) (p : ℤ → Dbl) (ml L : ℤ)
    (th : Dbl) (pos : ℤ) (h : (opt_params wc ab np sqrt p ml).out = some (L, th, pos)) :
    ∃ it : ℤ, th = Dbl.lit (1 / 100) * Dbl.ofInt it ∧ 2 ≤ L ∧ L ≤ ml ∧ 1 ≤ it ∧ it ≤ 10 ∧
      pos = (optScan ab np p ml L it).position := by
  unfold opt_params at h
  simp only [Option.map_eq_some'] at h
  obtain ⟨⟨l, t, z⟩, harg, heq⟩ := h
  simp only [Prod.mk.injEq] at heq
  obtain ⟨rfl, rfl, rfl⟩ := heq
  obtain ⟨a1, a2, a3, a4, a5⟩ := m_grid_arg wc ab np sqrt p ml l t z harg
  exact ⟨t, rfl, a1, a2, a3, a4, a5⟩

/-! ## The assertions of comp_return -/

theorem m_iterDown_pair_snd (p : ℤ → Dbl) (n : ℕ) (j : ℤ) (a : Dbl × Bool)
    (h : ∀ m : ℕ, m < n → 0 ≤ j - m) :
    (PerWhat.iterDown (fun j (a : Dbl × Bool) => (a.1 + p j, a.2 && decide (0 ≤ j))) n j a).2
      = a.2 := by
  induction n generalizing j a with
  | zero => rfl
  | succ n ih =>
    rw [PerWhat.iterDown, ih]
    · have h0 := h 0 (Nat.succ_pos n)
      simp only [Nat.cast_zero, sub_zero] at h0
      simp [h0]
    · intro m hm
      have := h (m + 1) (by omega)
      push_cast at this
      omega

theorem m_compBar_asserts_ok (rt np : ℤ) (p : ℤ → Dbl) (is nt lb : ℤ) (th : Dbl) (i : ℤ)
    (s : CompState) :
    (compBar rt np p is nt lb th i s).asserts_ok
      = ((if i = wrap (is - 1) then
            (PerWhat.forDown (fun j (a : Dbl × Bool) => (a.1 + p j, a.2 && decide (0 ≤ j)))
              i (wrap (i - lb)) (Dbl.fin 0, s.asserts_ok)).2
          else s.asserts_ok) && decide (wrap (i + 1) < np)) := by
  simp only [compBar, apply_ite CompState.asserts_ok, ite_self, apply_ite Prod.snd]

/-- A call of `comp_return` with `0 ≤ lookback ≤ istart`, `1 ≤ istart`, `ntest ≥ 0` and
`istart + ntest ≤ nprices < 2^31` meets no failing `assert`. -/
theorem m_compScan_asserts_ok (rt np : ℤ) (p : ℤ → Dbl) (is nt lb : ℤ) (th : Dbl) (lp : ℤ)
    (h0 : 0 ≤ lb) (h2 : lb ≤ is) (h1 : 1 ≤ is) (h3 : 0 ≤ nt) (h4 : is + nt ≤ np)
    (h5 : np < 2147483648) :
    (compScan rt np p is nt lb th lp).asserts_ok = true := by
  unfold compScan
  have e1 : wrap (is - 1) = is - 1 := wrap_of_range _ (by omega) (by omega)
  rw [e1, wrap_of_range (is - 1 + nt) (by omega) (by omega)]
  refine PerWhat.forUp_inv (fun _ (s : CompState) => s.asserts_ok = true) _ (is - 1)
    (is - 1 + nt) _ (by omega) rfl ?_
  intro i hi1 hi2 s hs
  rw [m_compBar_asserts_ok, hs, e1, wrap_of_range (i + 1) (by omega) (by omega)]
  have hlt : i + 1 < np := by omega
  by_cases hf : i = is - 1
  · rw [if_pos hf, wrap_of_range (i - lb) (by omega) (by omega)]
    unfold PerWhat.forDown
    rw [m_iterDown_pair_snd]
    · simp [hlt]
    · intro m hm
      omega
  · rw [if_neg hf]
    simp [hlt]

/-! ## The walk-forward loop -/

/-- A fold that starts inside the history and in which `opt_params` has assigned its outputs
meets no failing `assert`, prints its lines and advances `train_start` by the length of its
OOS window. -/
theorem m_foldBody_of_assigned (c : PerWhat.Config) (sqrt : Dbl → Dbl) (indet : ℤ × Dbl × ℤ)
    (np : ℤ) (p : ℤ → Dbl) (s : WFState) (h10 : 10 ≤ c.n_train - c.max_lookback)
    (hts : 0 ≤ s.train_start) (hnt : 0 ≤ c.n_test) (hR : s.train_start + c.n_train ≤ np)
    (hnp : np < 2147483648)
    (ho : (opt_params c.which_crit c.all_bars c.n_train sqrt (shift p s.train_start)
      c.max_lookback).out ≠ none) :
    ∃ s1 f, foldBody c sqrt indet np p s = some s1 ∧
      s1.train_start = s.train_start + (if c.n_test > np - s.train_start - c.n_train then
          np - s.train_start - c.n_train else c.n_test) ∧
      s1.log = s.log ++ [f] ∧
      f.window = (s.train_start, s.train_start + c.n_train,
        if c.n_test > np - s.train_start - c.n_train then
          np - s.train_start - c.n_train else c.n_test) := by
  cases hout : (opt_params c.which_crit c.all_bars c.n_train sqrt (shift p s.train_start)
      c.max_lookback).out with
  | none => exact absurd hout ho
  | some o =>
    obtain ⟨L, th, pos⟩ := o
    obtain ⟨it, _, a1, a2, _, _, _⟩ := m_opt_params_out _ _ _ _ _ _ _ _ _ hout
    have e1 : wrap (np - s.train_start) = np - s.train_start :=
      wrap_of_range _ (by omega) (by omega)
    have e2 : wrap (np - s.train_start - c.n_train) = np - s.train_start - c.n_train :=
      wrap_of_range _ (by omega) (by omega)
    have e3 : wrap (s.train_start + c.n_train) = s.train_start + c.n_train :=
      wrap_of_range _ (by omega) (by omega)
    have hn : ∀ n : ℤ, n = (if c.n_test > np - s.train_start - c.n_train then
        np - s.train_start - c.n_train else c.n_test) →
        0 ≤ n ∧ s.train_start + c.n_train + n ≤ np := by
      intro n hn
      rw [hn]
      split_ifs <;> omega
    obtain ⟨hn0, hn1⟩ := hn _ rfl
    have hok := m_compScan_asserts_ok c.ret_type np p (s.train_start + c.n_train)
      (if c.n_test > np - s.train_start - c.n_train then
        np - s.train_start - c.n_train else c.n_test) L th pos
      (by omega) (by omega) (by omega) hn0 hn1 hnp
    have e4 : wrap (s.train_start + (if c.n_test > np - s.train_start - c.n_train then
        np - s.train_start - c.n_train else c.n_test))
        = s.train_start + (if c.n_test > np - s.train_start - c.n_train then
          np - s.train_start - c.n_train else c.n_test) :=
      wrap_of_range _ (by omega) (by omega)
    have hcr : comp_return c.ret_type np p (s.train_start + c.n_train)
        (if c.n_test > np - s.train_start - c.n_train then
          np - s.train_start - c.n_train else c.n_test) L th pos
        = some (compScan c.ret_type np p (s.train_start + c.n_train)
            (if c.n_test > np - s.train_start - c.n_train then
              np - s.train_start - c.n_train else c.n_test) L th pos).returns := by
      unfold comp_return
      simp only [hok, if_true]
    unfold foldBody
    simp only [hout, Option.getD_some, e1, e2, e3, hcr, e4]
    exact ⟨_, _, rfl, rfl, rfl, rfl⟩

theorem m_wfLoop_succ (c : PerWhat.Config) (sqrt : Dbl → Dbl) (indet : ℤ × Dbl × ℤ) (np : ℤ)
    (p : ℤ → Dbl) (fuel : ℕ) (s s1 : WFState)
    (h : foldBody c sqrt indet np p s = some s1) :
    wfLoop c sqrt indet np p (fuel + 1) s
      = if wrap (s1.train_start + c.n_train) ≥ np then (s1, LoopEnd.done)
        else wfLoop c sqrt indet np p fuel s1 := by
  have e : wfLoop c sqrt indet np p (fuel + 1) s
      = match foldBody c sqrt indet np p s with
        | none => (s, LoopEnd.assertFailed)
        | some s1 =>
          if wrap (s1.train_start + c.n_train) ≥ np then (s1, LoopEnd.done)
          else wfLoop c sqrt indet np p fuel s1 := rfl
  rw [e, h]

/-- With `m + 1` folds left to cover the remaining history, and the optimizer assigning its
outputs in each of them, the loop runs exactly these folds and then leaves through the
`break`. -/
theorem m_wfLoop_run (c : PerWhat.Config) (sqrt : Dbl → Dbl) (indet : ℤ × Dbl × ℤ) (np : ℤ)
    (p : ℤ → Dbl) (h1 : 1 ≤ c.n_test) (h10 : 10 ≤ c.n_train - c.max_lookback)
    (hml : 2 ≤ c.max_lookback) (hnp : np < 2147483648) :
    ∀ (m : ℕ) (s : WFState) (fuel : ℕ), m + 1 ≤ fuel → 0 ≤ s.train_start →
      (m : ℤ) * c.n_test < np - s.train_start - c.n_train →
      np - s.train_start - c.n_train ≤ ((m : ℤ) + 1) * c.n_test →
      (∀ k : ℕ, k ≤ m →
        (opt_params c.which_crit c.all_bars c.n_train sqrt
          (shift p (s.train_start + (k : ℤ) * c.n_test)) c.max_lookback).out ≠ none) →
      (wfLoop c sqrt indet np p fuel s).2 = LoopEnd.done ∧
      (wfLoop c sqrt indet np p fuel s).1.log.map FoldLog.window
        = s.log.map FoldLog.window ++ (List.range (m + 1)).map (fun k : ℕ =>
            (s.train_start + (k : ℤ) * c.n_test,
              s.train_start + (k : ℤ) * c.n_test + c.n_train,
              min c.n_test (np - (s.train_start + (k : ℤ) * c.n_test) - c.n_train))) := by
  intro m
  induction m with
  | zero =>
    intro s fuel hf hts hlo hhi hass
    obtain ⟨fuel, rfl⟩ : ∃ f, fuel = f + 1 := ⟨fuel - 1, by omega⟩
    simp only [Nat.cast_zero, zero_mul, zero_add, one_mul] at hlo hhi
    have ha := hass 0 le_rfl
    simp only [Nat.cast_zero, zero_mul, add_zero] at ha
    obtain ⟨s1, f, hfold, hts1, hlog, hw⟩ :=
      m_foldBody_of_assigned c sqrt indet np p s h10 hts (by omega) (by omega) hnp ha
    have hn : (if c.n_test > np - s.train_start - c.n_train then
        np - s.train_start - c.n_train else c.n_test) = np - s.train_start - c.n_train := by
      split_ifs <;> omega
    rw [hn] at hts1 hw
    have ew : wrap (s1.train_start + c.n_train) = s1.train_start + c.n_train :=
      wrap_of_range _ (by omega) (by omega)
    rw [m_wfLoop_succ _ _ _ _ _ _ _ _ hfold, ew, if_pos (by rw [hts1]; omega)]
    refine ⟨rfl, ?_⟩
    have hmin : min c.n_test (np - s.train_start - c.n_train)
        = np - s.train_start - c.n_train := min_eq_right hhi
    have hr : List.range (0 + 1) = [0] := rfl
    simp only [hlog, List.map_append, List.map_cons, List.map_nil, hw, hr,
      Nat.cast_zero, zero_mul, add_zero, hmin]
  | succ m ih =>
    intro s fuel hf hts hlo hhi hass
    obtain ⟨fuel, rfl⟩ : ∃ f, fuel = f + 1 := ⟨fuel - 1, by omega⟩
    have hm0 : (0 : ℤ) ≤ (m : ℤ) * c.n_test :=
      mul_nonneg (Int.ofNat_nonneg m) (by omega)
    have e1 : ((m + 1 : ℕ) : ℤ) * c.n_test = (m : ℤ) * c.n_test + c.n_test := by
      push_cast; ring
    have e2 : (((m + 1 : ℕ) : ℤ) + 1) * c.n_test = (m : ℤ) * c.n_test + c.n_test + c.n_test := by
      push_cast; ring
    have e3 : ((m : ℤ) + 1) * c.n_test = (m : ℤ) * c.n_test + c.n_test := by ring
    rw [e1] at hlo
    rw [e2] at hhi
    have ha := hass 0 (Nat.zero_le _)
    simp only [Nat.cast_zero, zero_mul, add_zero] at ha
    obtain ⟨s1, f, hfold, hts1, hlog, hw⟩ :=
      m_foldBody_of_assigned c sqrt indet np p s h10 hts (by omega) (by omega) hnp ha
    have hn : (if c.n_test > np - s.train_start - c.n_train then
        np - s.train_start - c.n_train else c.n_test) = c.n_test := by
      split_ifs <;> omega
    rw [hn] at hts1 hw
    have ew : wrap (s1.train_start + c.n_train) = s1.train_start + c.n_train :=
      wrap_of_range _ (by omega) (by omega)
    rw [m_wfLoop_succ _ _ _ _ _ _ _ _ hfold, ew, if_neg (by rw [hts1]; omega)]
    obtain ⟨r1, r2⟩ := ih s1 fuel (by omega) (by omega)
      (by rw [hts1]; omega) (by rw [hts1, e3]; omega)
      (by
        intro k hk
        have := hass (k + 1) (by omega)
        have e4 : s.train_start + ((k + 1 : ℕ) : ℤ) * c.n_test
            = s1.train_start + (k : ℤ) * c.n_test := by
          rw [hts1]; push_cast; ring
        rw [e4] at this
        exact this)
    refine ⟨r1, ?_⟩
    have hmin : min c.n_test (np - s.train_start - c.n_train) = c.n_test :=
      min_eq_left (by omega)
    rw [r2, hlog, hts1, List.range_succ_eq_map (m + 1)]
    simp only [List.map_append, List.map_cons, List.map_nil, hw, List.append_assoc,
      List.singleton_append, List.map_map, Nat.cast_zero, zero_mul, add_zero, hmin]
    congr 2
    apply List.map_congr_left
    intro k _
    have e4 : ((k + 1 : ℕ) : ℤ) * c.n_test = c.n_test + (k : ℤ) * c.n_test := by
      push_cast; ring
    simp only [Function.comp, e4, add_assoc]

/-- C1. Walk-forward coverage. For a configuration that passes the first check
(`n_train - max_lookback ≥ 10`), with `n_test ≥ 1`, `n_train + n_test ≤ nprices` (`nprices`
an `int`) and a price history on which the optimizer assigns its outputs in every fold
(some candidate scores above the sentinel), `main`, given fuel for at least
`K = ceil((nprices - n_train) / n_test)` folds, passes both checks, meets no failing
`assert`, leaves the fold loop through its `break` after exactly `K` folds and prints the
final statistic; fold `k` has `train_start = k*n_test` and the OOS window
`[oosStart k, oosStart k + oosLen k)` with `oosStart k = k*n_test + n_train` and
`oosLen k = min(n_test, nprices - k*n_test - n_train)`; every fold but the last has length
`n_test`, the last has a length between 1 and `n_test` and ends at `nprices`; consecutive
windows are adjacent; an index lies in `[n_train, nprices)` if and only if it lies in one of
the windows, and it lies in at most one. -/
theorem walk_forward_coverage (c : PerWhat.Config) (sqrt : Dbl → Dbl) (indet : ℤ × Dbl × ℤ)
    (nprices : ℤ) (prices : ℤ → Dbl) (fuel : ℕ)
    (h1 : 1 ≤ c.n_test) (h2 : c.n_train + c.n_test ≤ nprices) (hnp : nprices < 2147483648)
    (h10 : 10 ≤ c.n_train - c.max_lookback)
    (hass : ∀ k : ℕ, k < PerWhat.nFolds nprices c.n_train c.n_test →
      (opt_params c.which_crit c.all_bars c.n_train sqrt
        (shift prices ((k : ℤ) * c.n_test)) c.max_lookback).out ≠ none)
    (hfuel : PerWhat.nFolds nprices c.n_train c.n_test ≤ fuel) :
    (∃ s : WFState,
      main_ c sqrt indet (some (nprices, prices)) fuel
        = Outcome.finished s (oosStat c.which_crit sqrt s.returns) ∧
      s.log.length = PerWhat.nFolds nprices c.n_train c.n_test ∧
      s.log.map FoldLog.window
        = (List.range (PerWhat.nFolds nprices c.n_train c.n_test)).map (fun k : ℕ =>
            ((k : ℤ) * c.n_test, PerWhat.oosStart c.n_train c.n_test k,
              PerWhat.oosLen nprices c.n_train c.n_test k))) ∧
    (∀ k : ℕ, k + 1 < PerWhat.nFolds nprices c.n_train c.n_test →
      PerWhat.oosLen nprices c.n_train c.n_test k = c.n_test ∧
      PerWhat.oosStart c.n_train c.n_test (k + 1)
        = PerWhat.oosStart c.n_train c.n_test k + PerWhat.oosLen nprices c.n_train c.n_test k) ∧
    (∀ k : ℕ, k + 1 = PerWhat.nFolds nprices c.n_train c.n_test →
      1 ≤ PerWhat.oosLen nprices c.n_train c.n_test k ∧ PerWhat.oosLen nprices c.n_train c.n_test k ≤ c.n_test ∧
      PerWhat.oosStart c.n_train c.n_test k + PerWhat.oosLen nprices c.n_train c.n_test k = nprices) ∧
    PerWhat.oosStart c.n_train c.n_test 0 = c.n_train ∧
    (∀ j : ℤ, (c.n_train ≤ j ∧ j < nprices) ↔
      ∃ k : ℕ, k < PerWhat.nFolds nprices c.n_train c.n_test ∧ PerWhat.oosStart c.n_train c.n_test k ≤ j ∧
        j < PerWhat.oosStart c.n_train c.n_test k + PerWhat.oosLen nprices c.n_train c.n_test k) ∧
    (∀ (j : ℤ) (k k' : ℕ),
      PerWhat.oosStart c.n_train c.n_test k ≤ j →
      j < PerWhat.oosStart c.n_train c.n_test k + PerWhat.oosLen nprices c.n_train c.n_test k →
      PerWhat.oosStart c.n_train c.n_test k' ≤ j →
      j < PerWhat.oosStart c.n_train c.n_test k' + PerWhat.oosLen nprices c.n_train c.n_test k' → k = k') := by
  refine ⟨?_, PerWhat.oos_windows_tile nprices c.n_train c.n_test h1 h2⟩
  obtain ⟨hK1, hlo, hup⟩ := PerWhat.nFolds_spec nprices c.n_train c.n_test h1 h2
  generalize PerWhat.nFolds nprices c.n_train c.n_test = K at hK1 hlo hup hfuel hass ⊢
  obtain ⟨m, rfl⟩ : ∃ m, K = m + 1 := ⟨K - 1, by omega⟩
  have em : ((m + 1 : ℕ) : ℤ) = (m : ℤ) + 1 := by push_cast; ring
  rw [em] at hlo hup
  rw [add_sub_cancel_right] at hlo
  have hml : 2 ≤ c.max_lookback := by
    have h0 := hass 0 (by omega)
    cases hout : (opt_params c.which_crit c.all_bars c.n_train sqrt
        (shift prices (((0 : ℕ) : ℤ) * c.n_test)) c.max_lookback).out with
    | none => exact absurd hout h0
    | some o =>
      obtain ⟨L, th, pos⟩ := o
      obtain ⟨it, _, a1, a2, _⟩ := m_opt_params_out _ _ _ _ _ _ _ _ _ hout
      omega
  have run := m_wfLoop_run c sqrt indet nprices prices h1 h10 hml hnp m wfInit fuel hfuel
    (by simp only [wfInit]; exact le_rfl)
    (by simp only [wfInit]; omega) (by simp only [wfInit]; omega)
    (by
      intro k hk
      have := hass k (by omega)
      simpa only [wfInit, zero_add] using this)
  have hlog : (wfLoop c sqrt indet nprices prices fuel wfInit).1.log.map FoldLog.window
      = (List.range (m + 1)).map (fun k : ℕ =>
          ((k : ℤ) * c.n_test, PerWhat.oosStart c.n_train c.n_test k,
            PerWhat.oosLen nprices c.n_train c.n_test k)) := by
    rw [run.2]
    simp only [wfInit, List.map_nil, List.nil_append, zero_add, PerWhat.oosStart, PerWhat.oosLen]
  have hc1 : ¬ (wrap (c.n_train - c.max_lookback) < 10) := by
    rw [wrap_of_range _ (by omega) (by omega)]
    omega
  have hc2 : ¬ (wrap (c.n_train + c.n_test) > nprices) := by
    rw [wrap_of_range _ (by omega) (by omega)]
    omega
  refine ⟨(wfLoop c sqrt indet nprices prices fuel wfInit).1, ?_, ?_, hlog⟩
  · have hend := run.1
    unfold main_
    rw [if_neg hc1]
    simp only [if_neg hc2]
    generalize wfLoop c sqrt indet nprices prices fuel wfInit = r at hend ⊢
    obtain ⟨s, e⟩ := r
    simp only at hend
    subst hend
    rfl
  · have := congrArg List.length hlog
    simpa using this

/-- Witness of C1: sixteen prices, profit-factor criterion, `max_lookback = 2`,
`n_train = 12`, `n_test = 2`: two folds, the optimizer assigns its outputs in both. -/
theorem walk_forward_coverage_witness :
    ∃ s : WFState,
      main_ { which_crit := 1, all_bars := 0, ret_type := 0, max_lookback := 2, n_train := 12,
              n_test := 2 } (fun x => x) (0, Dbl.fin 0, 0)
          (some (16, ofList [Dbl.fin 1, Dbl.fin 2, Dbl.fin 3, Dbl.fin 4, Dbl.fin 5, Dbl.fin 6,
            Dbl.fin 7, Dbl.fin 8, Dbl.fin 9, Dbl.fin 10, Dbl.fin 11, Dbl.fin 12, Dbl.fin 13,
            Dbl.fin 14, Dbl.fin 15, Dbl.fin 16])) 2
        = Outcome.finished s (oosStat 1 (fun x => x) s.returns) ∧
      s.log.length = PerWhat.nFolds 16 12 2 ∧
      s.log.map FoldLog.window
        = (List.range (PerWhat.nFolds 16 12 2)).map (fun k : ℕ =>
            ((k : ℤ) * 2, PerWhat.oosStart 12 2 k, PerWhat.oosLen 16 12 2 k)) :=
  have hK : PerWhat.nFolds 16 12 2 = 2 := by decide!
  (walk_forward_coverage
    { which_crit := 1, all_bars := 0, ret_type := 0, max_lookback := 2, n_train := 12,
      n_test := 2 } (fun x => x) (0, Dbl.fin 0, 0) 16
    (ofList [Dbl.fin 1, Dbl.fin 2, Dbl.fin 3, Dbl.fin 4, Dbl.fin 5, Dbl.fin 6,
      Dbl.fin 7, Dbl.fin 8, Dbl.fin 9, Dbl.fin 10, Dbl.fin 11, Dbl.fin 12, Dbl.fin 13,
      Dbl.fin 14, Dbl.fin 15, Dbl.fin 16]) 2
    (by decide) (by decide) (by decide) (by decide)
    (by
      intro k hk
      rw [hK] at hk
      interval_cases k
      · decide!
      · decide!)
    (by decide!)).1

/-! ## Rounding -/

theorem log2Aux_spec : ∀ (fuel n : ℕ), n ≤ fuel → 1 ≤ n →
    2 ^ log2Aux fuel n ≤ n ∧ n < 2 ^ (log2Aux fuel n + 1) := by
  intro fuel
  induction fuel with
  | zero =>
    intro n h1 h2
    omega
  | succ fuel ih =>
    intro n h1 h2
    rw [log2Aux]
    by_cases hn : n < 2
    · rw [if_pos hn]
      have : n = 1 := by omega
      subst this
      exact ⟨by norm_num, by norm_num⟩
    · rw [if_neg hn]
      obtain ⟨a, b⟩ := ih (n / 2) (by omega) (by omega)
      have e1 : 2 ^ (log2Aux fuel (n / 2) + 1) = 2 * 2 ^ log2Aux fuel (n / 2) := by
        rw [pow_succ]; ring
      have e2 : 2 ^ (log2Aux fuel (n / 2) + 1 + 1) = 2 * (2 * 2 ^ log2Aux fuel (n / 2)) := by
        rw [pow_succ, pow_succ]; ring
      rw [e1] at b
      rw [e1, e2]
      omega

theorem log2_spec (n : ℕ) (h : 1 ≤ n) : 2 ^ log2 n ≤ n ∧ n < 2 ^ (log2 n + 1) :=
  log2Aux_spec n n le_rfl h

theorem abs_eq_natAbs_div_den (q : ℚ) : |q| = (q.num.natAbs : ℚ) / (q.den : ℚ) := by
  have h1 : |q| = |(q.num : ℚ)| / (q.den : ℚ) := by
    conv_lhs => rw [← Rat.num_div_den q]
    rw [abs_div, abs_of_pos (by exact_mod_cast q.den_pos : (0 : ℚ) < (q.den : ℚ))]
  rw [h1, Nat.cast_natAbs, Int.cast_abs]

/-- The binary exponent brackets the magnitude: `2^k ≤ |q| < 2^(k+1)` for `k = expo q`. -/
theorem expo_spec (q : ℚ) (hq : q ≠ 0) :
    (2 : ℚ) ^ expo q ≤ |q| ∧ |q| < (2 : ℚ) ^ (expo q + 1) := by
  have hn : 1 ≤ q.num.natAbs := by
    have : q.num ≠ 0 := Rat.num_ne_zero.mpr hq
    omega
  have hd : 1 ≤ q.den := q.den_pos
  obtain ⟨a1, a2⟩ := log2_spec q.num.natAbs hn
  obtain ⟨b1, b2⟩ := log2_spec q.den hd
  have hdpos : (0 : ℚ) < (q.den : ℚ) := by exact_mod_cast q.den_pos
  have habs := abs_eq_natAbs_div_den q
  have A1 : ((2 : ℚ) ^ (log2 q.num.natAbs : ℤ)) ≤ (q.num.natAbs : ℚ) := by
    rw [zpow_natCast]; exact_mod_cast a1
  have A2 : (q.num.natAbs : ℚ) < (2 : ℚ) ^ ((log2 q.num.natAbs : ℤ) + 1) := by
    rw [zpow_add_one₀ (by norm_num), zpow_natCast]
    have : (q.num.natAbs : ℚ) < ((2 ^ (log2 q.num.natAbs + 1) : ℕ) : ℚ) := by exact_mod_cast a2
    rw [pow_succ] at this
    push_cast at this
    exact this
  have B1 : ((2 : ℚ) ^ (log2 q.den : ℤ)) ≤ (q.den : ℚ) := by
    rw [zpow_natCast]; exact_mod_cast b1
  have B2 : (q.den : ℚ) < (2 : ℚ) ^ ((log2 q.den : ℤ) + 1) := by
    rw [zpow_add_one₀ (by norm_num), zpow_natCast]
    have : (q.den : ℚ) < ((2 ^ (log2 q.den + 1) : ℕ) : ℚ) := by exact_mod_cast b2
    rw [pow_succ] at this
    push_cast at this
    exact this
  have hpa : (0 : ℚ) < (2 : ℚ) ^ (log2 q.num.natAbs : ℤ) := zpow_pos (by norm_num) _
  have hpb : (0 : ℚ) < (2 : ℚ) ^ (log2 q.den : ℤ) := zpow_pos (by norm_num) _
  -- upper bound: |q| < 2^(k+1)
  have hup : |q| < (2 : ℚ) ^ ((log2 q.num.natAbs : ℤ) - (log2 q.den : ℤ) + 1) := by
    have e : (2 : ℚ) ^ ((log2 q.num.natAbs : ℤ) - (log2 q.den : ℤ) + 1)
        = (2 : ℚ) ^ ((log2 q.num.natAbs : ℤ) + 1) / (2 : ℚ) ^ (log2 q.den : ℤ) := by
      rw [← zpow_sub₀ (by norm_num)]
      congr 1
      ring
    rw [e, habs, div_lt_div_iff₀ hdpos hpb]
    calc (q.num.natAbs : ℚ) * (2 : ℚ) ^ (log2 q.den : ℤ)
        ≤ (q.num.natAbs : ℚ) * (q.den : ℚ) :=
          mul_le_mul_of_nonneg_left B1 (by positivity)
      _ < (2 : ℚ) ^ ((log2 q.num.natAbs : ℤ) + 1) * (q.den : ℚ) :=
          mul_lt_mul_of_pos_right A2 hdpos
  -- lower bound: 2^(k-1) < |q|
  have hlo : (2 : ℚ) ^ ((log2 q.num.natAbs : ℤ) - (log2 q.den : ℤ) - 1) < |q| := by
    have e : (2 : ℚ) ^ ((log2 q.num.natAbs : ℤ) - (log2 q.den : ℤ) - 1)
        = (2 : ℚ) ^ (log2 q.num.natAbs : ℤ) / (2 : ℚ) ^ ((log2 q.den : ℤ) + 1) := by
      rw [← zpow_sub₀ (by norm_num)]
      congr 1
      ring
    have hpb' : (0 : ℚ) < (2 : ℚ) ^ ((log2 q.den : ℤ) + 1) := zpow_pos (by norm_num) _
    rw [e, habs, div_lt_div_iff₀ hpb' hdpos]
    calc (2 : ℚ) ^ (log2 q.num.natAbs : ℤ) * (q.den : ℚ)
        < (2 : ℚ) ^ (log2 q.num.natAbs : ℤ) * (2 : ℚ) ^ ((log2 q.den : ℤ) + 1) :=
          mul_lt_mul_of_pos_left B2 hpa
      _ ≤ (q.num.natAbs : ℚ) * (2 : ℚ) ^ ((log2 q.den : ℤ) + 1) :=
          mul_le_mul_of_nonneg_right A1 (le_of_lt hpb')
  unfold expo
  simp only
  split_ifs with h
  · exact ⟨h, hup⟩
  · refine ⟨le_of_lt hlo, ?_⟩
    rw [sub_add_cancel]
    exact not_le.mp h

theorem rne_ge_floor (x : ℚ) : ⌊x⌋ ≤ rne x := by
  unfold rne
  simp only
  split_ifs <;> omega

theorem rnd_ne_nan (q : ℚ) : rnd q ≠ Dbl.nan := by
  unfold rnd
  simp only
  split_ifs <;> simp

/-- Rounding does not go below a binary64 number `a = m * 2^g` (53-bit `m`, `g ≥ -1074`)
that the exact result is not below. -/
theorem rnd_atLeast (a q : ℚ) (m g : ℤ) (ha : a = (m : ℚ) * (2 : ℚ) ^ g)
    (hm1 : 2 ^ 52 ≤ m) (hm2 : m < 2 ^ 53) (hg : -1074 ≤ g) (h : a ≤ q) :
    Dbl.AtLeast a (rnd q) := by
  have h2g : (0 : ℚ) < (2 : ℚ) ^ g := zpow_pos (by norm_num) _
  have hmq1 : ((2 : ℚ) ^ (52 : ℤ)) ≤ (m : ℚ) := by
    have h' : (((2 ^ 52 : ℤ)) : ℚ) ≤ (m : ℚ) := by exact_mod_cast hm1
    have e : (((2 ^ 52 : ℤ)) : ℚ) = (2 : ℚ) ^ (52 : ℤ) := by norm_num
    rw [e] at h'
    exact h'
  have hmq2 : (m : ℚ) < ((2 : ℚ) ^ (53 : ℤ)) := by
    have h' : (m : ℚ) < (((2 ^ 53 : ℤ)) : ℚ) := by exact_mod_cast hm2
    have e : (((2 ^ 53 : ℤ)) : ℚ) = (2 : ℚ) ^ (53 : ℤ) := by norm_num
    rw [e] at h'
    exact h'
  have ha1 : (2 : ℚ) ^ (g + 52) ≤ a := by
    rw [ha, zpow_add₀ (by norm_num), mul_comm]
    exact mul_le_mul_of_nonneg_right hmq1 (le_of_lt h2g)
  have ha2 : a < (2 : ℚ) ^ (g + 53) := by
    rw [ha, zpow_add₀ (by norm_num), mul_comm ((2 : ℚ) ^ g)]
    exact mul_lt_mul_of_pos_right hmq2 h2g
  have hapos : 0 < a := lt_of_lt_of_le (zpow_pos (by norm_num) _) ha1
  have hqpos : 0 < q := lt_of_lt_of_le hapos h
  have hq0 : q ≠ 0 := ne_of_gt hqpos
  obtain ⟨s1, s2⟩ := expo_spec q hq0
  rw [abs_of_pos hqpos] at s1 s2
  have hk : g + 52 ≤ expo q := by
    have : (2 : ℚ) ^ (g + 52) < (2 : ℚ) ^ (expo q + 1) :=
      lt_of_le_of_lt ha1 (lt_of_le_of_lt h s2)
    have := (zpow_lt_zpow_iff_right₀ (by norm_num : (1 : ℚ) < 2)).mp this
    omega
  have key : a ≤ ((⌊q / (2 : ℚ) ^ (max (expo q) (-1022) - 52)⌋ : ℤ) : ℚ)
      * (2 : ℚ) ^ (max (expo q) (-1022) - 52) := by
    have hepos : (0 : ℚ) < (2 : ℚ) ^ (max (expo q) (-1022) - 52) := zpow_pos (by norm_num) _
    by_cases he : max (expo q) (-1022) - 52 = g
    · rw [he]
      have hm : m ≤ ⌊q / (2 : ℚ) ^ g⌋ := by
        rw [Int.le_floor, le_div_iff₀ h2g, ← ha]
        exact h
      rw [ha]
      exact mul_le_mul_of_nonneg_right (by exact_mod_cast hm) (le_of_lt h2g)
    · have hmax : max (expo q) (-1022) = expo q := by
        rcases max_choice (expo q) (-1022) with hc | hc
        · exact hc
        · rw [hc] at he
          have : expo q ≤ -1022 := by
            have := le_max_left (expo q) (-1022)
            rw [hc] at this
            exact this
          omega
      rw [hmax] at he ⊢
      have hk' : g + 53 ≤ expo q := by omega
      have hfl : (2 ^ 52 : ℤ) ≤ ⌊q / (2 : ℚ) ^ (expo q - 52)⌋ := by
        rw [Int.le_floor, le_div_iff₀ (zpow_pos (by norm_num) _)]
        have e : (((2 ^ 52 : ℤ)) : ℚ) * (2 : ℚ) ^ (expo q - 52) = (2 : ℚ) ^ expo q := by
          have : (((2 ^ 52 : ℤ)) : ℚ) = (2 : ℚ) ^ (52 : ℤ) := by norm_num
          rw [this, ← zpow_add₀ (by norm_num)]
          congr 1
          ring
        rw [e]
        exact s1
      have e : (2 : ℚ) ^ expo q
          = (((2 ^ 52 : ℤ)) : ℚ) * (2 : ℚ) ^ (expo q - 52) := by
        have : (((2 ^ 52 : ℤ)) : ℚ) = (2 : ℚ) ^ (52 : ℤ) := by norm_num
        rw [this, ← zpow_add₀ (by norm_num)]
        congr 1
        ring
      calc a ≤ (2 : ℚ) ^ (g + 53) := le_of_lt ha2
        _ ≤ (2 : ℚ) ^ expo q := zpow_le_zpow_right₀ (by norm_num) hk'
        _ = (((2 ^ 52 : ℤ)) : ℚ) * (2 : ℚ) ^ (expo q - 52) := e
        _ ≤ ((⌊q / (2 : ℚ) ^ (expo q - 52)⌋ : ℤ) : ℚ) * (2 : ℚ) ^ (expo q - 52) :=
          mul_le_mul_of_nonneg_right (by exact_mod_cast hfl)
            (le_of_lt (zpow_pos (by norm_num) _))
  have key2 : a ≤ ((rne (q / (2 : ℚ) ^ (max (expo q) (-1022) - 52)) : ℤ) : ℚ)
      * (2 : ℚ) ^ (max (expo q) (-1022) - 52) :=
    le_trans key (mul_le_mul_of_nonneg_right (by exact_mod_cast rne_ge_floor _)
      (le_of_lt (zpow_pos (by norm_num) _)))
  unfold rnd
  simp only [if_neg hq0, abs_of_pos hqpos, if_pos hqpos]
  split_ifs
  · exact Or.inl rfl
  · exact Or.inr ⟨_, rfl, key2⟩

theorem eps60_lit : Dbl.lit (1 / 10 ^ 60) = Dbl.fin eps60 := by decide!

theorem eps60_pos : 0 < eps60 := by unfold eps60; positivity

/-- Rounding does not go below the double `1e-60` when the exact result does not. -/
theorem rnd_atLeast_eps (q : ℚ) (h : eps60 ≤ q) : Dbl.AtLeast eps60 (rnd q) := by
  refine rnd_atLeast eps60 q 7237005577332262 (-252) ?_ (by norm_num) (by norm_num)
    (by norm_num) h
  unfold eps60
  rw [zpow_neg]
  norm_num

/-- Rounding a non-negative exact result gives `+inf` or a finite number that is not
negative. -/
theorem rnd_nonneg (q : ℚ) (h : 0 ≤ q) : Dbl.AtLeast 0 (rnd q) := by
  unfold rnd
  by_cases hq0 : q = 0
  · rw [if_pos hq0]
    exact Or.inr ⟨0, rfl, le_rfl⟩
  · have hqpos : 0 < q := lt_of_le_of_ne h (Ne.symm hq0)
    simp only [if_neg hq0, abs_of_pos hqpos, if_pos hqpos]
    split_ifs
    · exact Or.inl rfl
    · refine Or.inr ⟨_, rfl, ?_⟩
      have hx : 0 ≤ q / (2 : ℚ) ^ (max (expo q) (-1022) - 52) :=
        div_nonneg h (le_of_lt (zpow_pos (by norm_num) _))
      have h0 : (0 : ℤ) ≤ rne (q / (2 : ℚ) ^ (max (expo q) (-1022) - 52)) :=
        le_trans (Int.floor_nonneg.mpr hx) (rne_ge_floor _)
      exact mul_nonneg (by exact_mod_cast h0) (le_of_lt (zpow_pos (by norm_num) _))

theorem rne_le_floor_add_one (x : ℚ) : rne x ≤ ⌊x⌋ + 1 := by
  unfold rne
  simp only
  split_ifs <;> omega

/-- An exact result between `0` and `2^1023` rounds to a finite number that is not
negative. -/
theorem rnd_finite_of_le (q : ℚ) (h0 : 0 ≤ q) (h : q ≤ (2 : ℚ) ^ (1023 : ℤ)) :
    ∃ y, rnd q = Dbl.fin y ∧ 0 ≤ y := by
  by_cases hq0 : q = 0
  · exact ⟨0, by unfold rnd; rw [if_pos hq0], le_rfl⟩
  · have hqpos : 0 < q := lt_of_le_of_ne h0 (Ne.symm hq0)
    obtain ⟨s1, _⟩ := expo_spec q hq0
    rw [abs_of_pos hqpos] at s1
    have hk : expo q ≤ 1023 :=
      (zpow_le_zpow_iff_right₀ (by norm_num : (1 : ℚ) < 2)).mp (le_trans s1 h)
    have he : max (expo q) (-1022) - 52 ≤ 971 := by
      have := max_le hk (by norm_num : (-1022 : ℤ) ≤ 1023)
      omega
    have hepos : (0 : ℚ) < (2 : ℚ) ^ (max (expo q) (-1022) - 52) := zpow_pos (by norm_num) _
    have hx : 0 ≤ q / (2 : ℚ) ^ (max (expo q) (-1022) - 52) := div_nonneg h0 (le_of_lt hepos)
    have hr0 : (0 : ℤ) ≤ rne (q / (2 : ℚ) ^ (max (expo q) (-1022) - 52)) :=
      le_trans (Int.floor_nonneg.mpr hx) (rne_ge_floor _)
    have hr1 : ((rne (q / (2 : ℚ) ^ (max (expo q) (-1022) - 52)) : ℤ) : ℚ)
        ≤ q / (2 : ℚ) ^ (max (expo q) (-1022) - 52) + 1 := by
      have h1 : ((rne (q / (2 : ℚ) ^ (max (expo q) (-1022) - 52)) : ℤ) : ℚ)
          ≤ ((⌊q / (2 : ℚ) ^ (max (expo q) (-1022) - 52)⌋ + 1 : ℤ) : ℚ) := by
        exact_mod_cast rne_le_floor_add_one _
      have h2 := Int.floor_le (q / (2 : ℚ) ^ (max (expo q) (-1022) - 52))
      push_cast at h1
      linarith
    have hlt : ((rne (q / (2 : ℚ) ^ (max (expo q) (-1022) - 52)) : ℤ) : ℚ)
        * (2 : ℚ) ^ (max (expo q) (-1022) - 52) < (2 : ℚ) ^ (1024 : ℤ) := by
      have h1 : ((rne (q / (2 : ℚ) ^ (max (expo q) (-1022) - 52)) : ℤ) : ℚ)
          * (2 : ℚ) ^ (max (expo q) (-1022) - 52)
          ≤ (q / (2 : ℚ) ^ (max (expo q) (-1022) - 52) + 1)
            * (2 : ℚ) ^ (max (expo q) (-1022) - 52) :=
        mul_le_mul_of_nonneg_right hr1 (le_of_lt hepos)
      have h2 : (q / (2 : ℚ) ^ (max (expo q) (-1022) - 52) + 1)
            * (2 : ℚ) ^ (max (expo q) (-1022) - 52)
          = q + (2 : ℚ) ^ (max (expo q) (-1022) - 52) := by
        field_simp
      have h3 : (2 : ℚ) ^ (max (expo q) (-1022) - 52) ≤ (2 : ℚ) ^ (971 : ℤ) :=
        zpow_le_zpow_right₀ (by norm_num) he
      have h4 : (2 : ℚ) ^ (1023 : ℤ) + (2 : ℚ) ^ (971 : ℤ) < (2 : ℚ) ^ (1024 : ℤ) := by
        norm_num
      linarith
    have hrn : rnd q = Dbl.fin (((rne (q / (2 : ℚ) ^ (max (expo q) (-1022) - 52)) : ℤ) : ℚ)
        * (2 : ℚ) ^ (max (expo q) (-1022) - 52)) := by
      unfold rnd
      simp only [if_neg hq0, abs_of_pos hqpos, if_pos hqpos]
      rw [if_neg (not_le.mpr hlt)]
    exact ⟨_, hrn, mul_nonneg (Int.cast_nonneg.mpr hr0) (le_of_lt hepos)⟩

/-! ## The sums of the profit factor -/

theorem dbl_ne_nan_of_isNum {a : Dbl} (h : a.isNum = true) : a ≠ Dbl.nan := by
  rintro rfl
  simp [Dbl.isNum] at h

theorem dbl_add_atLeast (x r : Dbl) (hx : Dbl.AtLeast eps60 x) (hr : r > Dbl.fin 0) :
    Dbl.AtLeast eps60 (x + r) := by
  show Dbl.AtLeast eps60 (Dbl.add x r)
  have hr' : Dbl.lt (Dbl.fin 0) r = true := hr
  rcases hx with rfl | ⟨y, rfl, hy⟩
  · cases r with
    | fin t => exact Or.inl rfl
    | pinf => exact Or.inl rfl
    | ninf => simp [Dbl.lt] at hr'
    | nan => simp [Dbl.lt] at hr'
  · cases r with
    | fin t =>
      simp only [Dbl.lt, decide_eq_true_eq] at hr'
      exact rnd_atLeast_eps (y + t) (by linarith only [hy, hr'])
    | pinf => exact Or.inl rfl
    | ninf => simp [Dbl.lt] at hr'
    | nan => simp [Dbl.lt] at hr'

theorem dbl_sub_atLeast (x r : Dbl) (hx : Dbl.AtLeast eps60 x) (hr : ¬ (r > Dbl.fin 0))
    (hn : r ≠ Dbl.nan) : Dbl.AtLeast eps60 (x - r) := by
  show Dbl.AtLeast eps60 (Dbl.add x (Dbl.neg r))
  have hr' : ¬ (Dbl.lt (Dbl.fin 0) r = true) := hr
  rcases hx with rfl | ⟨y, rfl, hy⟩
  · cases r with
    | fin t => exact Or.inl rfl
    | pinf => simp [Dbl.lt] at hr'
    | ninf => exact Or.inl rfl
    | nan => exact absurd rfl hn
  · cases r with
    | fin t =>
      simp only [Dbl.lt, decide_eq_true_eq, not_lt] at hr'
      exact rnd_atLeast_eps (y + -t) (by linarith only [hy, hr'])
    | pinf => simp [Dbl.lt] at hr'
    | ninf => exact Or.inl rfl
    | nan => exact absurd rfl hn

/-- The quotient of two sums that are `+inf` or at least `1e-60`: NaN when both are `+inf`,
else `+inf` or a finite number that is not negative; the rounded exact quotient when both
are finite. -/
theorem dbl_div_atLeast (W L : Dbl) (hW : Dbl.AtLeast eps60 W) (hL : Dbl.AtLeast eps60 L) :
    ((W = Dbl.pinf ∧ L = Dbl.pinf) → W / L = Dbl.nan) ∧
    (¬ (W = Dbl.pinf ∧ L = Dbl.pinf) → Dbl.AtLeast 0 (W / L)) ∧
    (∀ w l, W = Dbl.fin w → L = Dbl.fin l → l ≠ 0 ∧ W / L = rnd (w / l)) := by
  have hpos := eps60_pos
  rcases hW with rfl | ⟨w, rfl, hw⟩ <;> rcases hL with rfl | ⟨l, rfl, hl⟩
  · refine ⟨fun _ => rfl, fun h => absurd ⟨rfl, rfl⟩ h, ?_⟩
    intro w l h
    cases h
  · refine ⟨fun h => (by cases h.2), fun _ => ?_, ?_⟩
    · show Dbl.AtLeast 0 (Dbl.div Dbl.pinf (Dbl.fin l))
      have : l ≥ 0 := by linarith
      simp only [Dbl.div, if_pos this]
      exact Or.inl rfl
    · intro w l h
      cases h
  · refine ⟨fun h => (by cases h.1), fun _ => Or.inr ⟨0, rfl, le_rfl⟩, ?_⟩
    intro w l _ h
    cases h
  · have hl0 : l ≠ 0 := by
      intro h
      rw [h] at hl
      linarith
    have e : (Dbl.fin w : Dbl) / Dbl.fin l = rnd (w / l) := by
      show Dbl.div (Dbl.fin w) (Dbl.fin l) = rnd (w / l)
      simp only [Dbl.div, if_neg hl0]
    refine ⟨fun h => (by cases h.1), fun _ => ?_, ?_⟩
    · rw [e]
      exact rnd_nonneg _ (div_nonneg (by linarith) (by linarith))
    · intro w' l' h1 h2
      cases h1
      cases h2
      exact ⟨hl0, e⟩

theorem m_optBar_ret (ab : ℤ) (p : ℤ → Dbl) (ml il it i : ℤ) (s : OptState) :
    (optBar ab p ml il it i s).ret
      = if (optBar ab p ml il it i s).position ≠ 0 then p (wrap (i + 1)) - p i
        else Dbl.fin 0 := by
  simp only [optBar, apply_ite OptState.position, apply_ite OptState.ret, ite_self]

theorem m_optBar_win_sum (ab : ℤ) (p : ℤ → Dbl) (ml il it i : ℤ) (s : OptState) :
    (optBar ab p ml il it i s).win_sum
      = if ab ≠ 0 ∨ (optBar ab p ml il it i s).position ≠ 0 then
          (if (optBar ab p ml il it i s).ret > Dbl.fin 0 then
            s.win_sum + (optBar ab p ml il it i s).ret
           else s.win_sum)
        else s.win_sum := by
  simp only [optBar, apply_ite OptState.position, apply_ite OptState.ret,
    apply_ite OptState.win_sum, ite_self]

theorem m_optBar_lose_sum (ab : ℤ) (p : ℤ → Dbl) (ml il it i : ℤ) (s : OptState) :
    (optBar ab p ml il it i s).lose_sum
      = if ab ≠ 0 ∨ (optBar ab p ml il it i s).position ≠ 0 then
          (if (optBar ab p ml il it i s).ret > Dbl.fin 0 then s.lose_sum
           else s.lose_sum - (optBar ab p ml il it i s).ret)
        else s.lose_sum := by
  simp only [optBar, apply_ite OptState.position, apply_ite OptState.ret,
    apply_ite OptState.lose_sum, ite_self]

theorem dbl_sub_fin_ne_nan (a b : ℚ) : (Dbl.fin a : Dbl) - Dbl.fin b ≠ Dbl.nan := by
  show Dbl.add (Dbl.fin a) (Dbl.neg (Dbl.fin b)) ≠ Dbl.nan
  simp only [Dbl.neg, Dbl.add]
  exact rnd_ne_nan _

/-- On finite prices both profit-factor sums of a trial are `+inf` or at least `1e-60`. -/
theorem m_optScan_sums (ab np : ℤ) (p : ℤ → Dbl) (ml il it : ℤ)
    (hfin : ∀ j, ∃ q, p j = Dbl.fin q) :
    Dbl.AtLeast eps60 (optScan ab np p ml il it).win_sum ∧
    Dbl.AtLeast eps60 (optScan ab np p ml il it).lose_sum := by
  have init : Dbl.AtLeast eps60 optInit.win_sum ∧ Dbl.AtLeast eps60 optInit.lose_sum := by
    have e1 : optInit.win_sum = Dbl.fin eps60 := eps60_lit
    have e2 : optInit.lose_sum = Dbl.fin eps60 := eps60_lit
    rw [e1, e2]
    exact ⟨Or.inr ⟨_, rfl, le_rfl⟩, Or.inr ⟨_, rfl, le_rfl⟩⟩
  unfold optScan
  by_cases hlo : wrap (ml - 1) ≤ wrap (np - 1)
  · refine PerWhat.forUp_inv
      (fun _ (s : OptState) => Dbl.AtLeast eps60 s.win_sum ∧ Dbl.AtLeast eps60 s.lose_sum)
      _ _ _ _ hlo init ?_
    intro i _ _ s hs
    obtain ⟨hw, hl⟩ := hs
    have hret : (optBar ab p ml il it i s).ret ≠ Dbl.nan := by
      rw [m_optBar_ret]
      split_ifs
      · obtain ⟨a, ha⟩ := hfin (wrap (i + 1))
        obtain ⟨b, hb⟩ := hfin i
        rw [ha, hb]
        exact dbl_sub_fin_ne_nan a b
      · simp
    constructor
    · rw [m_optBar_win_sum]
      split_ifs with h1 h2
      · exact dbl_add_atLeast _ _ hw h2
      · exact hw
      · exact hw
    · rw [m_optBar_lose_sum]
      split_ifs with h1 h2
      · exact hl
      · exact dbl_sub_atLeast _ _ hl h2 hret
      · exact hl
  · rw [PerWhat.forUp_empty _ _ _ _ (by omega)]
    exact init

theorem m_oosSums_atLeast (rets : List Dbl) :
    Dbl.AtLeast eps60 (oosSums rets).1 ∧ Dbl.AtLeast eps60 (oosSums rets).2 := by
  have key : ∀ (l : List Dbl) (a : Dbl × Dbl),
      Dbl.AtLeast eps60 a.1 ∧ Dbl.AtLeast eps60 a.2 →
      Dbl.AtLeast eps60 (l.foldl
        (fun (a : Dbl × Dbl) r =>
          if r > Dbl.fin 0 then (a.1 + r, a.2)
          else if r < Dbl.fin 0 then (a.1, a.2 - r) else a) a).1 ∧
      Dbl.AtLeast eps60 (l.foldl
        (fun (a : Dbl × Dbl) r =>
          if r > Dbl.fin 0 then (a.1 + r, a.2)
          else if r < Dbl.fin 0 then (a.1, a.2 - r) else a) a).2 := by
    intro l
    induction l with
    | nil => intro a h; exact h
    | cons r l ih =>
      intro a h
      rw [List.foldl_cons]
      apply ih
      split_ifs with h1 h2
      · exact ⟨dbl_add_atLeast _ _ h.1 h1, h.2⟩
      · exact ⟨h.1, dbl_sub_atLeast _ _ h.2 h1 (dbl_ne_nan_of_isNum (dbl_lt_isNum h2).1)⟩
      · exact h
  unfold oosSums
  apply key
  rw [eps60_lit]
  exact ⟨Or.inr ⟨_, rfl, le_rfl⟩, Or.inr ⟨_, rfl, le_rfl⟩⟩

/-- C3, counterexample. On the prices `0.1, 0.1, 0.1, 0.2` (the doubles nearest to them),
`comp_return` with `istart = 3`, `ntest = 1`, `lookback = 3`, `thresh = 0.01` and prior
position Long decides at bar 2. The mean of the three prices ending there is the price
itself, so neither `p > t*m` nor `p < m` holds and the rule of the claim keeps the position
Long with bar return `p_3 - p_2`, which is what the exact reading computes. The program's
`MA_mean` is `(0.1 + 0.1 + 0.1) / 3` in doubles, one unit in the last place above `0.1`; its
exit test `p < MA_mean` fires, the position becomes Flat and the return written is `0`. -/
theorem rounded_mean_flips_decision :
    Dbl.lit (1 / 10) = Dbl.fin (3602879701896397 / 36028797018963968) ∧
    Dbl.lit (2 / 10) = Dbl.fin (3602879701896397 / 18014398509481984) ∧
    Dbl.lit (1 / 100) = Dbl.fin (5764607523034235 / 576460752303423488) ∧
    PerWhat.windowMean
        (PerWhat.ofList [3602879701896397 / 36028797018963968,
          3602879701896397 / 36028797018963968, 3602879701896397 / 36028797018963968,
          3602879701896397 / 18014398509481984]) 2 3
      = 3602879701896397 / 36028797018963968 ∧
    (PerWhat.compAt 0 4
        (PerWhat.ofList [3602879701896397 / 36028797018963968,
          3602879701896397 / 36028797018963968, 3602879701896397 / 36028797018963968,
          3602879701896397 / 18014398509481984]) 3 1 3
        (5764607523034235 / 576460752303423488) 1 2).position = 1 ∧
    PerWhat.comp_return 0 4
        (PerWhat.ofList [3602879701896397 / 36028797018963968,
          3602879701896397 / 36028797018963968, 3602879701896397 / 36028797018963968,
          3602879701896397 / 18014398509481984]) 3 1 3
        (5764607523034235 / 576460752303423488) 1
      = [3602879701896397 / 36028797018963968] ∧
    (compAt 0 4
        (ofList [Dbl.lit (1 / 10), Dbl.lit (1 / 10), Dbl.lit (1 / 10), Dbl.lit (2 / 10)])
        3 1 3 (Dbl.lit (1 / 100)) 1 2).MA_mean
      = Dbl.fin (7205759403792795 / 72057594037927936) ∧
    (compAt 0 4
        (ofList [Dbl.lit (1 / 10), Dbl.lit (1 / 10), Dbl.lit (1 / 10), Dbl.lit (2 / 10)])
        3 1 3 (Dbl.lit (1 / 100)) 1 2).position = 0 ∧
    comp_return 0 4
        (ofList [Dbl.lit (1 / 10), Dbl.lit (1 / 10), Dbl.lit (1 / 10), Dbl.lit (2 / 10)])
        3 1 3 (Dbl.lit (1 / 100)) 1
      = some [Dbl.fin 0] := by
  decide!

/-- The run of `main` ends in an `exit(1)` that precedes the fold loop exactly when the
wrapped difference `n_train - max_lookback` is below 10, the market file cannot be read, or
the wrapped sum `n_train + n_test` exceeds `nprices`. -/
theorem m_main_aborted (c : PerWhat.Config) (sqrt : Dbl → Dbl) (indet : ℤ × Dbl × ℤ)
    (market : Option (ℤ × (ℤ → Dbl))) (fuel : ℕ) :
    (main_ c sqrt indet market fuel).aborted = true ↔
      (wrap (c.n_train - c.max_lookback) < 10 ∨ market = none ∨
        ∃ np p, market = some (np, p) ∧ wrap (c.n_train + c.n_test) > np) := by
  unfold main_
  by_cases h1 : wrap (c.n_train - c.max_lookback) < 10
  · rw [if_pos h1]
    exact ⟨fun _ => Or.inl h1, fun _ => rfl⟩
  · rw [if_neg h1]
    cases market with
    | none => exact ⟨fun _ => Or.inr (Or.inl rfl), fun _ => rfl⟩
    | some m =>
      obtain ⟨np, p⟩ := m
      by_cases h2 : wrap (c.n_train + c.n_test) > np
      · simp only [if_pos h2]
        exact ⟨fun _ => Or.inr (Or.inr ⟨np, p, rfl, h2⟩), fun _ => rfl⟩
      · simp only [if_neg h2]
        have hrhs : ¬ (wrap (c.n_train - c.max_lookback) < 10 ∨
            (some (np, p) : Option (ℤ × (ℤ → Dbl))) = none ∨
            ∃ np' p', (some (np, p) : Option (ℤ × (ℤ → Dbl))) = some (np', p') ∧
              wrap (c.n_train + c.n_test) > np') := by
          rintro (h | h | ⟨np', p', h, h'⟩)
          · exact absurd h h1
          · cases h
          · simp only [Option.some.injEq, Prod.mk.injEq] at h
            obtain ⟨rfl, rfl⟩ := h
            exact absurd h' h2
        generalize wfLoop c sqrt indet np p fuel wfInit = r
        obtain ⟨s, e⟩ := r
        cases e
        · exact ⟨fun h => (by cases h), fun h => absurd h hrhs⟩
        · exact ⟨fun h => (by cases h), fun h => absurd h hrhs⟩
        · exact ⟨fun h => (by cases h), fun h => absurd h hrhs⟩

/-- C10. Code bug: the check `n_train + n_test > nprices` is computed in `int` and wraps. With
`n_train = 2147483647`, `n_test = 1`, `max_lookback = 2` and a market file of 20 prices,
`n_train + n_test` exceeds `nprices`, yet the sum wraps to `-2147483648`, the check does not
fire, and the run does not end in an `exit(1)` before the fold loop: it enters the loop with a
training window far longer than the history. For a configuration whose difference
`n_train - max_lookback` and sum `n_train + n_test` lie in the `int` range the run ends
before the fold loop exactly when `n_train - max_lookback < 10`, the market file cannot be
read, or `n_train + n_test > nprices`. -/
theorem history_check_wraps :
    ((10 : ℤ) ≤ 2147483647 - 2 ∧ (2147483647 : ℤ) + 1 > 20 ∧
      wrap (2147483647 + 1) = -2147483648) ∧
    (∀ (wc ab rt : ℤ) (sqrt : Dbl → Dbl) (indet : ℤ × Dbl × ℤ) (prices : ℤ → Dbl) (fuel : ℕ),
      (main_ { which_crit := wc, all_bars := ab, ret_type := rt, max_lookback := 2,
               n_train := 2147483647, n_test := 1 } sqrt indet (some (20, prices)) fuel).aborted
        = false) ∧
    (∀ (c : PerWhat.Config) (sqrt : Dbl → Dbl) (indet : ℤ × Dbl × ℤ)
        (market : Option (ℤ × (ℤ → Dbl))) (fuel : ℕ),
      -2147483648 ≤ c.n_train - c.max_lookback → c.n_train - c.max_lookback < 2147483648 →
      -2147483648 ≤ c.n_train + c.n_test → c.n_train + c.n_test < 2147483648 →
      ((main_ c sqrt indet market fuel).aborted = true ↔
        (c.n_train - c.max_lookback < 10 ∨ market = none ∨
          ∃ np p, market = some (np, p) ∧ c.n_train + c.n_test > np))) := by
  refine ⟨by decide, ?_, ?_⟩
  · intro wc ab rt sqrt indet prices fuel
    rw [Bool.eq_false_iff]
    intro h
    rw [m_main_aborted] at h
    have c1 : ¬ (wrap ((2147483647 : ℤ) - 2) < 10) := by decide
    have c2 : ¬ (wrap ((2147483647 : ℤ) + 1) > 20) := by decide
    rcases h with h | h | ⟨np, p, h, h'⟩
    · exact c1 h
    · cases h
    · simp only [Option.some.injEq, Prod.mk.injEq] at h
      obtain ⟨rfl, _⟩ := h
      exact c2 h'
  · intro c sqrt indet market fuel a1 a2 a3 a4
    rw [m_main_aborted, wrap_of_range _ a1 a2, wrap_of_range _ a3 a4]

/-- C19. Code bug: `opt_params` copies unassigned locals to its outputs, and `comp_return`
then fails its own assertion. `which_crit = 7`, `max_lookback = 2`, `n_train = 12`,
`n_test = 2` and sixteen prices pass both checks of `main`; no candidate is ever scored, so
`opt_params` assigns none of its outputs in the first fold, and when the unassigned
`lookback` holds the value 100 the first window sum of `comp_return` runs down to index
`-88`: the assertion `j >= 0` fails and the run ends there, in the first fold, with no
return computed. -/
theorem unassigned_lookback_fails_assert :
    ¬ (wrap (12 - 2) < 10) ∧ ¬ (wrap (12 + 2) > 16) ∧ (2 : ℤ) ≤ 2 ∧ (1 : ℤ) ≤ 2 ∧
    (opt_params 7 0 12 (fun x => x)
        (shift (ofList [Dbl.fin 1, Dbl.fin 2, Dbl.fin 3, Dbl.fin 4, Dbl.fin 5, Dbl.fin 6,
          Dbl.fin 7, Dbl.fin 8, Dbl.fin 9, Dbl.fin 10, Dbl.fin 11, Dbl.fin 12, Dbl.fin 13,
          Dbl.fin 14, Dbl.fin 15, Dbl.fin 16]) 0) 2).out = none ∧
    comp_return 0 16
        (ofList [Dbl.fin 1, Dbl.fin 2, Dbl.fin 3, Dbl.fin 4, Dbl.fin 5, Dbl.fin 6,
          Dbl.fin 7, Dbl.fin 8, Dbl.fin 9, Dbl.fin 10, Dbl.fin 11, Dbl.fin 12, Dbl.fin 13,
          Dbl.fin 14, Dbl.fin 15, Dbl.fin 16]) 12 2 100 (Dbl.fin 0) 0 = none ∧
    main_ { which_crit := 7, all_bars := 0, ret_type := 0, max_lookback := 2,
            n_train := 12, n_test := 2 } (fun x => x) (100, Dbl.fin 0, 0)
        (some (16, ofList [Dbl.fin 1, Dbl.fin 2, Dbl.fin 3, Dbl.fin 4, Dbl.fin 5, Dbl.fin 6,
          Dbl.fin 7, Dbl.fin 8, Dbl.fin 9, Dbl.fin 10, Dbl.fin 11, Dbl.fin 12, Dbl.fin 13,
          Dbl.fin 14, Dbl.fin 15, Dbl.fin 16])) 3
      = Outcome.assertFailed wfInit := by
  decide!

end Machine
